import Mathlib

/-!
# Verification of the Study-Buddy client (`src/script.js`)

This file gives a shallow embedding of the client-side logic of the
Study-Buddy STEM chat interface and proves properties of it.

The embedding covers:

* `advancedMarkdownToHtml` (script.js lines 246-305): the markdown renderer,
  a chain of JavaScript `String.replace` calls with global regexes.  Each
  regex replacement is embedded as a leftmost-match scanner (`runStep` with a
  step-specific matcher).  Matchers reproduce the regex semantics: greedy
  character-class runs, lazy `*?` repetition, multiline anchors (`^`/`$` with
  the `m` flag), lookahead and lookbehind, exactly as the source regexes use
  them.
* `escapeHtml` (lines 307-311): DOM-based escaping; setting `textContent` and
  reading `innerHTML` escapes `&` `<` `>` and U+00A0 in text nodes.
* `addBotMessage` (lines 180-221): the assistant-message HTML builder.
* `makeApiCall` (lines 120-155) and `handleSubmit` (lines 65-118): embedded as
  pure functions from the submission state and the (parsed) HTTP response to
  the ordered list of observable effects plus the resulting state.  JavaScript
  truthiness of optional string fields (`undefined`/`""` falsy) is modelled by
  `truthy : Option String → Bool`.

All strings are handled as `List Char`; `String` wrappers are provided where
the source functions take strings.
-/

namespace StudyBuddy

/-! ## Character classes (JS regex `\s`, `\d`, `[a-z]`, `.` and line starts) -/

/-- JS whitespace (`\s`, and the set trimmed by `String.prototype.trim`):
space, tab, line feed, carriage return, vertical tab, form feed, NBSP. -/
def isWs (c : Char) : Bool :=
  c = ' ' || c = '\t' || c = '\n' || c = '\r' || c = '\x0b' || c = '\x0c' || c = ' '

/-- `[a-z]` in the code-fence regex. -/
def isLower (c : Char) : Bool := 'a' ≤ c && c ≤ 'z'

/-- `\d` in the ordered-list regex. -/
def isDigitC (c : Char) : Bool := '0' ≤ c && c ≤ '9'

/-- JS line terminators relevant here (`\n`, `\r`). -/
def isLineTerm (c : Char) : Bool := c = '\n' || c = '\r'

/-- JS `.` (without the `s` flag): any character except a line terminator. -/
def isDotC (c : Char) : Bool := !isLineTerm c

/-- Whether a position is at a line start for a multiline `^`: beginning of
input, or right after a line terminator.  The argument is the previous
character (`none` at the beginning of the string). -/
def isLineStart : Option Char → Bool
  | none => true
  | some c => isLineTerm c

/-- Boolean list-prefix test (used to model regex literals). -/
def pfx : List Char → List Char → Bool
  | [], _ => true
  | _ :: _, [] => false
  | c :: p, d :: s => c == d && pfx p s

/-- Whether `pat` occurs as a contiguous substring (JS `String.includes`). -/
def containsSub (pat : List Char) : List Char → Bool
  | [] => pfx pat []
  | c :: cs => pfx pat (c :: cs) || containsSub pat cs

/-! ## `escapeHtml` (script.js 307-311)

`escapeHtml` assigns the text to a DOM node's `textContent` and reads back
`innerHTML`.  HTML fragment serialization of a text node escapes `&` to
`&amp;`, `<` to `&lt;`, `>` to `&gt;` and U+00A0 to `&nbsp;`, and leaves all
other characters unchanged. -/

def escChar (c : Char) : List Char :=
  if c = '&' then "&amp;".data
  else if c = '<' then "&lt;".data
  else if c = '>' then "&gt;".data
  else if c = ' ' then "&nbsp;".data
  else [c]

def escapeHtml : List Char → List Char
  | [] => []
  | c :: cs => escChar c ++ escapeHtml cs

/-! ## JS `String.prototype.trim` -/

def ltrimJS : List Char → List Char
  | [] => []
  | c :: cs => if isWs c then ltrimJS cs else c :: cs

def rtrimJS : List Char → List Char
  | [] => []
  | c :: cs =>
    let r := rtrimJS cs
    if r.isEmpty then (if isWs c then [] else [c]) else c :: r

def trimJS (l : List Char) : List Char := rtrimJS (ltrimJS l)

/-- `String`-level trim, used for `messageInput.value.trim()`. -/
def trimS (s : String) : String := ⟨trimJS s.data⟩

/-! ## Global regex replacement

`runStep tm l` models `l.replace(/re/g, rep)`: it scans `l` left to right;
at each position it runs the matcher `tm`, which receives the previous
character (for `^` anchors and lookbehind) and the remaining input, and
returns `some (replacement, k)` when the regex matches there, where the
match consumes `k + 1` characters (every regex modelled here matches at
least one character).  On a match the replacement is emitted and scanning
resumes after the matched text of the original string (as JS `replace`
does); otherwise one character is copied.  Fuel is the input length; since
every step consumes at least one character the fuel never runs out. -/

def raGo (tm : Option Char → List Char → Option (List Char × Nat)) :
    Nat → Option Char → List Char → List Char
  | 0, _, s => s
  | _ + 1, _, [] => []
  | f + 1, prev, c :: cs =>
    match tm prev (c :: cs) with
    | some (rep, k) => rep ++ raGo tm f (some ((c :: cs).getD k c)) (cs.drop k)
    | none => c :: raGo tm f (some c) cs

def runStep (tm : Option Char → List Char → Option (List Char × Nat))
    (l : List Char) : List Char :=
  raGo tm l.length none l

/-! ## The fourteen replacement steps of `advancedMarkdownToHtml` -/

/-- Lazy body of a code fence: the shortest prefix of the input followed by
`"\n```"` (the `([\s\S]*?)` group of the fence regex, which may be empty).
Returns the body and the input after the closing fence. -/
def fenceSplit : List Char → Option (List Char × List Char)
  | [] => none
  | c :: cs =>
    if pfx "\n```".data (c :: cs) then some ([], cs.drop 3)
    else
      match fenceSplit cs with
      | some (x, r) => some (c :: x, r)
      | none => none

/-- Step 1 (line 253): ```` /```([a-z]*)\n([\s\S]*?)\n```/g ````, replaced by
`<pre><code class="language-X">…</code></pre>` with the body trimmed; no
`class` attribute when the language tag is empty. -/
def tryFence (_ : Option Char) (s : List Char) : Option (List Char × Nat) :=
  if pfx "```".data s then
    let r1 := s.drop 3
    let lang := r1.takeWhile isLower
    let r2 := r1.drop lang.length
    if pfx "\n".data r2 then
      match fenceSplit (r2.drop 1) with
      | some (code, _) =>
        let rep :=
          if lang.isEmpty then
            "<pre><code>".data ++ trimJS code ++ "</code></pre>".data
          else
            "<pre><code class=\"language-".data ++ lang ++ "\">".data ++
              trimJS code ++ "</code></pre>".data
        some (rep, 7 + lang.length + code.length)
      | none => none
    else none
  else none

/-- Step 2 (line 259): `` /`([^`]+)`/g `` replaced by `<code>$1</code>`. -/
def tryInline (_ : Option Char) (s : List Char) : Option (List Char × Nat) :=
  if pfx "`".data s then
    let cs := s.drop 1
    let mid := cs.takeWhile (fun c => !(c == '`'))
    if mid.isEmpty then none
    else if pfx "`".data (cs.drop mid.length) then
      some ("<code>".data ++ mid ++ "</code>".data, mid.length + 1)
    else none
  else none

/-- Step 3 (line 262): `/\*\*([^*]+)\*\*/g` replaced by `<strong>$1</strong>`. -/
def tryBold (_ : Option Char) (s : List Char) : Option (List Char × Nat) :=
  if pfx "**".data s then
    let r := s.drop 2
    let mid := r.takeWhile (fun c => !(c == '*'))
    if mid.isEmpty then none
    else if pfx "**".data (r.drop mid.length) then
      some ("<strong>".data ++ mid ++ "</strong>".data, mid.length + 3)
    else none
  else none

/-- Step 4 (line 265): `/\*([^*]+)\*/g` replaced by `<em>$1</em>`. -/
def tryItalic (_ : Option Char) (s : List Char) : Option (List Char × Nat) :=
  if pfx "*".data s then
    let cs := s.drop 1
    let mid := cs.takeWhile (fun c => !(c == '*'))
    if mid.isEmpty then none
    else if pfx "*".data (cs.drop mid.length) then
      some ("<em>".data ++ mid ++ "</em>".data, mid.length + 1)
    else none
  else none

/-- Step 5 (line 268): `/^\s*[-*+]\s+(.*?)(?=\n|$)/gm` replaced by
`<li>$1</li>`.  `^` is a multiline line start; the greedy `\s*`/`\s+` runs
may cross newlines; the lazy `(.*?)` with lookahead `(?=\n|$)` is exactly
the run of non-line-terminator characters up to the end of the line. -/
def tryUl (prev : Option Char) (s : List Char) : Option (List Char × Nat) :=
  if isLineStart prev then
    let ws1 := s.takeWhile isWs
    let r1 := s.drop ws1.length
    if pfx "-".data r1 || pfx "*".data r1 || pfx "+".data r1 then
      let r2 := r1.drop 1
      let ws2 := r2.takeWhile isWs
      if ws2.isEmpty then none
      else
        let content := (r2.drop ws2.length).takeWhile isDotC
        some ("<li>".data ++ content ++ "</li>".data,
          ws1.length + ws2.length + content.length)
    else none
  else none

/-- Lazy `.*?` up to a literal stop string: the shortest run of
non-line-terminator characters whose remainder starts with `stop`. -/
def dotScanUntil (stop : List Char) : List Char → Option (List Char)
  | [] => if pfx stop [] then some [] else none
  | c :: cs =>
    if pfx stop (c :: cs) then some []
    else if isLineTerm c then none
    else
      match dotScanUntil stop cs with
      | some x => some (c :: x)
      | none => none

/-- Step 6 (line 269): `/(<li>.*?<\/li>)\n(<li>)/g` replaced by `$1$2`
(the newline between adjacent items is dropped). -/
def tryJoinUl (_ : Option Char) (s : List Char) : Option (List Char × Nat) :=
  if pfx "<li>".data s then
    match dotScanUntil "</li>\n<li>".data (s.drop 4) with
    | some x => some ("<li>".data ++ x ++ "</li>".data ++ "<li>".data, 13 + x.length)
    | none => none
  else none

/-- Step 7 (line 270): `/(^|[^<])<li>/g` replaced by `$1<ul><li>` (no `m`
flag, so `^` is the beginning of the whole string). -/
def tryUlOpen (prev : Option Char) (s : List Char) : Option (List Char × Nat) :=
  if prev.isNone && pfx "<li>".data s then some ("<ul><li>".data, 3)
  else
    match s with
    | c :: cs =>
      if !(c == '<') && pfx "<li>".data cs then some (c :: "<ul><li>".data, 4)
      else none
    | [] => none

/-- The inner pattern `[<\s]*<li>` of the negative lookahead in the
list-closing regexes: some run of `<` and whitespace followed by `<li>`. -/
def liLA : List Char → Bool
  | [] => false
  | c :: cs => pfx "<li>".data (c :: cs) || ((c == '<' || isWs c) && liLA cs)

/-- Step 8 (line 271): `/<\/li>(\n|$)(?![<\s]*<li>)/g` replaced by
`</li></ul>` (no `m` flag: `$` is the end of input; the matched newline, if
any, is consumed and dropped). -/
def tryUlClose (_ : Option Char) (s : List Char) : Option (List Char × Nat) :=
  if pfx "</li>".data s then
    let r := s.drop 5
    if pfx "\n".data r then
      if liLA (r.drop 1) then none else some ("</li></ul>".data, 5)
    else if r.isEmpty then
      if liLA [] then none else some ("</li></ul>".data, 4)
    else none
  else none

/-- Step 9 (line 274): `/^\s*(\d+)\.\s+(.*?)(?=\n|$)/gm` replaced by
`<li>$2</li>`. -/
def tryOl (prev : Option Char) (s : List Char) : Option (List Char × Nat) :=
  if isLineStart prev then
    let ws1 := s.takeWhile isWs
    let r1 := s.drop ws1.length
    let ds := r1.takeWhile isDigitC
    if ds.isEmpty then none
    else if pfx ".".data (r1.drop ds.length) then
      let r2 := (r1.drop ds.length).drop 1
      let ws2 := r2.takeWhile isWs
      if ws2.isEmpty then none
      else
        let content := (r2.drop ws2.length).takeWhile isDotC
        some ("<li>".data ++ content ++ "</li>".data,
          ws1.length + ds.length + ws2.length + content.length)
    else none
  else none

/-- Step 10 (line 275): `/(?<!\n)<li>.*?<\/li>\n<li>/g` replaced by
`<li>$&` (the whole match with `<li>` prepended). -/
def tryOlJoin (prev : Option Char) (s : List Char) : Option (List Char × Nat) :=
  if prev == some '\n' then none
  else if pfx "<li>".data s then
    match dotScanUntil "</li>\n<li>".data (s.drop 4) with
    | some x =>
      some ("<li>".data ++ ("<li>".data ++ x ++ "</li>\n<li>".data), 13 + x.length)
    | none => none
  else none

/-- Step 11 (line 276): `/(^|[^<])<li>/g` replaced by `$1<ol><li>`. -/
def tryOlOpen (prev : Option Char) (s : List Char) : Option (List Char × Nat) :=
  if prev.isNone && pfx "<li>".data s then some ("<ol><li>".data, 3)
  else
    match s with
    | c :: cs =>
      if !(c == '<') && pfx "<li>".data cs then some (c :: "<ol><li>".data, 4)
      else none
    | [] => none

/-- Step 12 (line 277): `/<\/li>(\n|$)(?![<\s]*<li>)/g` replaced by
`</li></ol>`. -/
def tryOlClose (_ : Option Char) (s : List Char) : Option (List Char × Nat) :=
  if pfx "</li>".data s then
    let r := s.drop 5
    if pfx "\n".data r then
      if liLA (r.drop 1) then none else some ("</li></ol>".data, 5)
    else if r.isEmpty then
      if liLA [] then none else some ("</li></ol>".data, 4)
    else none
  else none

/-- Step 13a (line 280): `/^###\s+(.*?)$/gm` replaced by `<h3>$1</h3>`. -/
def tryH3 (prev : Option Char) (s : List Char) : Option (List Char × Nat) :=
  if isLineStart prev && pfx "###".data s then
    let r := s.drop 3
    let ws := r.takeWhile isWs
    if ws.isEmpty then none
    else
      let content := (r.drop ws.length).takeWhile isDotC
      some ("<h3>".data ++ content ++ "</h3>".data, 2 + ws.length + content.length)
  else none

/-- Step 13b (line 281): `/^##\s+(.*?)$/gm` replaced by `<h2>$1</h2>`. -/
def tryH2 (prev : Option Char) (s : List Char) : Option (List Char × Nat) :=
  if isLineStart prev && pfx "##".data s then
    let r := s.drop 2
    let ws := r.takeWhile isWs
    if ws.isEmpty then none
    else
      let content := (r.drop ws.length).takeWhile isDotC
      some ("<h2>".data ++ content ++ "</h2>".data, 1 + ws.length + content.length)
  else none

/-- Step 13c (line 282): `/^#\s+(.*?)$/gm` replaced by `<h1>$1</h1>`. -/
def tryH1 (prev : Option Char) (s : List Char) : Option (List Char × Nat) :=
  if isLineStart prev && pfx "#".data s then
    let r := s.drop 1
    let ws := r.takeWhile isWs
    if ws.isEmpty then none
    else
      let content := (r.drop ws.length).takeWhile isDotC
      some ("<h1>".data ++ content ++ "</h1>".data, ws.length + content.length)
  else none

/-- Lazy continuation of the paragraph body after its first character:
characters up to (not including) the next `"\n\n"` or the end of input. -/
def paraTake : List Char → List Char
  | [] => []
  | c :: cs => if pfx "\n\n".data (c :: cs) then [] else c :: paraTake cs

/-- The lazy `([\s\S]+?)` group: at least one character, then `paraTake`. -/
def paraContent : List Char → List Char
  | [] => []
  | c :: cs => c :: paraTake cs

/-- Step 14 (lines 285-296): `/\n\n([\s\S]+?)(?=\n\n|$)/g` with a function
replacement: the run is wrapped in `<p>…</p>` unless its trimmed form starts
with `<` or it contains `</`, `<li>` or `<code>`. -/
def tryPara (_ : Option Char) (s : List Char) : Option (List Char × Nat) :=
  if pfx "\n\n".data s then
    if (s.drop 2).isEmpty then none
    else
      let content := paraContent (s.drop 2)
      let rep :=
        if pfx "<".data (trimJS content) || containsSub "</".data content ||
            containsSub "<li>".data content || containsSub "<code>".data content
        then "\n\n".data ++ content
        else "\n\n<p>".data ++ content ++ "</p>".data
      some (rep, 1 + content.length)
  else none

/-- The block-level tag names of the cleanup regex (line 299). -/
def cuNames : List (List Char) :=
  ["h1".data, "h2".data, "h3".data, "h4".data, "h5".data, "h6".data,
   "ul".data, "ol".data, "pre".data, "div".data, "blockquote".data]

/-- Whether the lazy inner dots may stop here: the input starts with
`</NAME></p>` for one of the block names; returns that name. -/
def cuCloseHere (t : List Char) : Option (List Char) :=
  cuNames.find? (fun n => pfx ("</".data ++ n ++ ">".data ++ "</p>".data) t)

/-- Lazy scan for the body of the cleanup pattern. -/
def cuScan : List Char → Option (List Char × List Char)
  | [] => none
  | c :: cs =>
    match cuCloseHere (c :: cs) with
    | some m => some ([], m)
    | none =>
      if isLineTerm c then none
      else
        match cuScan cs with
        | some (x, m) => some (c :: x, m)
        | none => none

/-- Step 15 (line 299):
`/<p>(<(?:h[1-6]|ul|ol|pre|div|blockquote).*?<\/(?:h[1-6]|ul|ol|pre|div|blockquote)>)<\/p>/g`
replaced by `$1`. -/
def tryCleanup (_ : Option Char) (s : List Char) : Option (List Char × Nat) :=
  if pfx "<p>".data s then
    if pfx "<".data (s.drop 3) then
      let t := s.drop 4
      match cuNames.find? (fun n => pfx n t) with
      | some n =>
        match cuScan (t.drop n.length) with
        | some (x, m) =>
          let inner := '<' :: (n ++ x ++ "</".data ++ m ++ ">".data)
          some (inner, 6 + inner.length)
        | none => none
      | none => none
    else none
  else none

/-- Step 16 (line 302): `/\n/g` replaced by `<br>`. -/
def brStep : List Char → List Char
  | [] => []
  | c :: cs => (if c == '\n' then "<br>".data else [c]) ++ brStep cs

/-! ## The renderer (script.js 246-305) -/

/-- The transformation chain applied after HTML-escaping, in source order. -/
def mdPipe (l : List Char) : List Char :=
  let h := escapeHtml l
  let h := runStep tryFence h
  let h := runStep tryInline h
  let h := runStep tryBold h
  let h := runStep tryItalic h
  let h := runStep tryUl h
  let h := runStep tryJoinUl h
  let h := runStep tryUlOpen h
  let h := runStep tryUlClose h
  let h := runStep tryOl h
  let h := runStep tryOlJoin h
  let h := runStep tryOlOpen h
  let h := runStep tryOlClose h
  let h := runStep tryH3 h
  let h := runStep tryH2 h
  let h := runStep tryH1 h
  let h := runStep tryPara h
  let h := runStep tryCleanup h
  let h := brStep h
  trimJS h

/-- `advancedMarkdownToHtml` (script.js 246-305).  `if (!text) return ''`:
the empty string is the only falsy `String` value (`null`/`undefined`
inputs, also falsy, are outside the `String` domain of this embedding and
likewise return `''` in the source). -/
def advancedMarkdownToHtml (text : String) : String :=
  if text = "" then "" else ⟨mdPipe text.data⟩

/-! ## Data model of the API exchange (script.js 77-81, 120-155) -/

/-- The request body of `POST /api/solve` (script.js 78-87). -/
structure SolveRequest where
  text_problem : Option String
  image_data : Option String
deriving DecidableEq

/-- The parsed JSON body of a `/api/solve` response.  Absent fields are
`none`; JavaScript truthiness additionally treats `""` as absent. -/
structure SolveResponseBody where
  error : Option String := none
  details : Option String := none
  solution : Option String := none
  explanation : Option String := none
  practice_questions : Option String := none
  response : Option String := none
  image_url : Option String := none
deriving DecidableEq

/-- An HTTP response as the client observes it: `response.ok`,
`response.status`, `response.statusText` and the parsed JSON body. -/
structure HttpResponse where
  ok : Bool
  status : Nat
  statusText : String
  body : SolveResponseBody
deriving DecidableEq

/-- JavaScript truthiness of an optional string field: `undefined` and the
empty string are falsy. -/
def truthy : Option String → Bool
  | none => false
  | some s => s != ""

/-- JS `a || b` for an optional string `a` and a string fallback `b`. -/
def jsOr (a : Option String) (b : String) : String :=
  if truthy a then a.getD "" else b

/-! ## `addBotMessage` (script.js 180-221), as its HTML string -/

/-- One structured section; the whitespace reproduces the template literal
of script.js 187-192 (and the identical ones at 196-201 and 205-210). -/
def sectionDiv (cls title inner : String) : String :=
  "\n            <div class=\"" ++ cls ++ "\">\n                <h3>" ++ title ++
    "</h3>\n                <div class=\"message-content\">" ++ inner ++
    "</div>\n            </div>\n        "

/-- The `innerHTML` that `addBotMessage` builds from a response body
(script.js 184-221): one section per truthy structured field; the free-form
`response` only when all three structured fields are falsy (line 214
assigns, replacing the empty accumulator); the image tag appended last with
the `image_url` value interpolated verbatim (line 220). -/
def addBotMessageHtml (d : SolveResponseBody) : String :=
  let s1 := if truthy d.solution then
      sectionDiv "solution" "Solution" (advancedMarkdownToHtml (d.solution.getD ""))
    else ""
  let s2 := if truthy d.explanation then
      sectionDiv "explanation" "Explanation" (advancedMarkdownToHtml (d.explanation.getD ""))
    else ""
  let s3 := if truthy d.practice_questions then
      sectionDiv "practice-questions" "Practice Questions"
        (advancedMarkdownToHtml (d.practice_questions.getD ""))
    else ""
  let base :=
    if !truthy d.solution && !truthy d.explanation && !truthy d.practice_questions &&
        truthy d.response then
      "<div class=\"message-content\">" ++
        advancedMarkdownToHtml (d.response.getD "") ++ "</div>"
    else s1 ++ s2 ++ s3
  base ++
    (if truthy d.image_url then
      "<img src=\"" ++ d.image_url.getD "" ++
        "\" alt=\"Response Image\" class=\"message-image\">"
    else "")

/-! ## The chat state machine (`handleSubmit`, `makeApiCall`, script.js 65-155)

The pending submission is `messageInput.value` plus the module-level
`selectedImage` (script.js 13).  The functions are embedded as pure maps
from the state and the externally-determined outcomes (image read result,
HTTP response) to the ordered list of observable effects and the resulting
state. -/

/-- The pending-submission state: the text box value and the selected image
file (its data), if any. -/
structure SubmitState where
  messageInput : String
  selectedImage : Option String
deriving DecidableEq

/-- Observable effects, in the order they occur. -/
inductive Effect where
  | showError (msg : String)
  | showLoading (msg : String)
  | hideLoading
  | appendUser (html : String)
  | appendBot (html : String)
  | apiCall (req : SolveRequest)
deriving DecidableEq

def isAppendUser : Effect → Bool
  | .appendUser _ => true
  | _ => false

def isAppendBot : Effect → Bool
  | .appendBot _ => true
  | _ => false

def isApiCall : Effect → Bool
  | .apiCall _ => true
  | _ => false

/-- The outcome of `FileReader.readAsDataURL` on the selected image
(script.js 84-96): success yields the base64 payload (the data-URL part
after the comma), failure triggers `reader.onerror`. -/
inductive ReadResult where
  | success (base64 : String)
  | failure
deriving DecidableEq

/-- `makeApiCall` (script.js 120-155) for a request that reached the server
and produced the parsed response `resp`.  On non-2xx it throws
`data.details || data.error || "Server error: …"`; the catch block hides the
loading indicator, shows `error.message || "Failed to communicate with the
server."` and clears the pending input.  On 2xx a truthy `error` field is
shown as `error + (details ? ": " + details : "")`; otherwise the assistant
message is appended. -/
def makeApiCall (st : SubmitState) (resp : HttpResponse) : List Effect × SubmitState :=
  if !resp.ok then
    let errorMessage :=
      jsOr resp.body.details (jsOr resp.body.error
        ("Server error: " ++ toString resp.status ++ " " ++ resp.statusText))
    ([.hideLoading,
      .showError (if errorMessage = "" then "Failed to communicate with the server."
        else errorMessage)],
     { messageInput := "", selectedImage := none })
  else if truthy resp.body.error then
    ([.hideLoading,
      .showError ((resp.body.error.getD "") ++
        (if truthy resp.body.details then ": " ++ resp.body.details.getD "" else ""))],
     st)
  else
    ([.hideLoading, .appendBot (addBotMessageHtml resp.body)], st)

/-- The transcript entry `addUserMessage` builds (script.js 162). -/
def userMessageHtml (m : String) : String :=
  "<div class=\"message-content\">" ++ (⟨escapeHtml m.data⟩ : String) ++ "</div>"

/-- `handleSubmit` (script.js 65-118).  The guard (68-72) rejects a
submission whose trimmed text is empty with no image, leaving the state
unchanged.  Otherwise `addUserMessage` runs first (74) — and silently
appends nothing when its argument trims to empty (158) — then the loading
indicator, then the request is built and sent (via the asynchronous file
read when an image is selected; a read failure surfaces an error instead of
calling the API).  After dispatch the handler clears the text box and the
selected image (107-111), so every dispatching path ends with a cleared
pending submission. -/
def handleSubmit (st : SubmitState) (rres : ReadResult) (resp : HttpResponse) :
    List Effect × SubmitState :=
  let userMessage := trimS st.messageInput
  if userMessage = "" ∧ st.selectedImage = none then
    ([.showError "Please enter a message or upload an image."], st)
  else
    let pre :=
      (if trimS userMessage = "" then []
       else [Effect.appendUser (userMessageHtml userMessage)]) ++
        [Effect.showLoading "Thinking..."]
    let textField : Option String := if userMessage = "" then none else some userMessage
    match st.selectedImage with
    | some _ =>
      match rres with
      | .success b64 =>
        let req : SolveRequest := { text_problem := textField, image_data := some b64 }
        let res := makeApiCall { messageInput := "", selectedImage := none } resp
        (pre ++ Effect.apiCall req :: res.1, res.2)
      | .failure =>
        (pre ++ [.showError "Failed to read the selected image file.", .hideLoading],
         { messageInput := "", selectedImage := none })
    | none =>
      let req : SolveRequest := { text_problem := textField, image_data := none }
      let res := makeApiCall { messageInput := "", selectedImage := none } resp
      (pre ++ Effect.apiCall req :: res.1, res.2)

/-! ## Spec-side reference definitions (for refinement-style claims) -/

/-- The spec's predicted rendering of markdown-free text (spec.md §8, first
testable property): the HTML-escaped input with newlines turned into
`<br>`, trimmed. -/
def renderPlainSpec (raw : String) : String := ⟨trimJS (brStep (escapeHtml raw.data))⟩

/-! ## Markdown-free inputs

The following predicates formalize "contains no markdown tokens" from the
claims: no backticks, no asterisks, and no line that begins — after its
leading whitespace — with a heading mark `#`, an unordered-list marker
(`-`, `+`; `*` is already excluded globally), or ordered-list numbering
(digits immediately followed by `.`). -/

/-- Whether the text `t`, viewed from a line start, begins (after leading
whitespace) with a markdown block token. -/
def lineBad (t : List Char) : Bool :=
  let r := t.dropWhile isWs
  pfx "-".data r || pfx "*".data r || pfx "+".data r || pfx "#".data r ||
    (!(r.takeWhile isDigitC).isEmpty &&
      pfx ".".data (r.drop (r.takeWhile isDigitC).length))

/-- `lineBad` fails at the suffix after every line terminator. -/
def mdLines : List Char → Bool
  | [] => true
  | c :: cs => (!(isLineTerm c) || !(lineBad cs)) && mdLines cs

/-- No markdown tokens anywhere in the text. -/
def markdownFree (l : List Char) : Bool :=
  l.all (fun c => !(c == '`')) && l.all (fun c => !(c == '*')) &&
    !(lineBad l) && mdLines l

/-- No two consecutive newline characters (no blank line). -/
def noNN : List Char → Bool
  | [] => true
  | [_] => true
  | a :: b :: t => !(a == '\n' && b == '\n') && noNN (b :: t)

/-! ## Well-tagged output

The safety property of the renderer: every `<` in the output opens, and
every `>` closes, one of the finitely many tags the renderer itself emits
(`<pre>`, `<code>`, `<code class="language-…">`, `<strong>`, `<em>`,
`<li>`, `<ul>`, `<ol>`, headings, `<p>`, `<br>` and their closers).  A
string is *well-tagged* when it is an alternation of angle-free text and
such tags. -/

/-- The fixed tag bodies the renderer emits. -/
def fixedBodies : List (List Char) :=
  ["pre".data, "/pre".data, "code".data, "/code".data, "strong".data,
   "/strong".data, "em".data, "/em".data, "li".data, "/li".data, "ul".data,
   "/ul".data, "ol".data, "/ol".data, "h1".data, "h2".data, "h3".data,
   "/h1".data, "/h2".data, "/h3".data, "p".data, "/p".data, "br".data]

/-- The parametric body `code class="language-L"` with `L` a run of
lowercase letters (as produced by the fence step). -/
def isClassBody (b : List Char) : Bool :=
  pfx "code class=\"language-".data b &&
    (b.drop ("code class=\"language-".data).length).dropWhile isLower == ['"']

def allowedBody (b : List Char) : Bool :=
  fixedBodies.contains b || isClassBody b

/-- Scan to the first `>`: `scanTag y = some (b, r)` iff `y = b ++ '>' :: r`
with `b` free of `>`. -/
def scanTag : List Char → Option (List Char × List Char)
  | [] => none
  | c :: rest =>
    if c == '>' then some ([], rest)
    else
      match scanTag rest with
      | some (b, r) => some (c :: b, r)
      | none => none

/-- Fuelled well-taggedness scanner: a bare `>` is rejected; a `<` must open
an allowed tag. -/
def wtF : Nat → List Char → Bool
  | _, [] => true
  | 0, _ :: _ => false
  | f + 1, c :: rest =>
    if c == '<' then
      match scanTag rest with
      | some (b, r) => allowedBody b && wtF f r
      | none => false
    else if c == '>' then false
    else wtF f rest

/-- A string is well-tagged: alternation of angle-free text and tags the
renderer emits. -/
def wt (s : List Char) : Bool := wtF s.length s

/-- `raGo` with fuel equal to the input length; `runStep tm l = raGoW tm none l`.
Since every match consumes at least one character, this much fuel always
suffices (`raGo_congr`). -/
def raGoW (tm : Option Char → List Char → Option (List Char × Nat))
    (p : Option Char) (s : List Char) : List Char :=
  raGo tm s.length p s

/-- The previous character seen at the position right after `x`, when the
position before `x` had previous character `p`. -/
def lastP (p : Option Char) (x : List Char) : Option Char :=
  match x.getLast? with
  | some c => some c
  | none => p

/-- A sample successful response, used as an arbitrary environment value. -/
def sampleOk : HttpResponse :=
  { ok := true, status := 200, statusText := "OK", body := { response := some "hi" } }

/-- A non-2xx response carrying both `error` and `details` (spec.md §8). -/
def badInputResponse : HttpResponse :=
  { ok := false, status := 400, statusText := "Bad Request",
    body := { error := some "Bad input", details := some "missing field" } }

/-- A response whose `image_url` carries attribute-injecting markup. -/
def xssData : SolveResponseBody :=
  { response := some "ok", image_url := some "x\" onerror=\"alert(1)" }

/-- A response with both a structured field and a free-form `response`. -/
def structuredData : SolveResponseBody :=
  { solution := some "x=1", response := some "IGNORED" }

set_option maxRecDepth 40000

/-! # Theorems -/

/-! ## Prefix lemmas -/

theorem pfx_iff : ∀ (p s : List Char), pfx p s = true ↔ ∃ t, s = p ++ t
  | [], s => by simp [pfx]
  | c :: p, [] => by simp [pfx]
  | c :: p, d :: s => by
    simp only [pfx, Bool.and_eq_true, beq_iff_eq]
    constructor
    · rintro ⟨rfl, hp⟩
      rcases (pfx_iff p s).1 hp with ⟨t, rfl⟩
      exact ⟨t, rfl⟩
    · rintro ⟨t, ht⟩
      rw [List.cons_append] at ht
      injection ht with h1 h2
      exact ⟨h1.symm, (pfx_iff p s).2 ⟨t, h2⟩⟩

theorem pfx_mem {c : Char} {p s : List Char} (h : pfx (c :: p) s = true) : c ∈ s := by
  rcases (pfx_iff _ _).1 h with ⟨t, rfl⟩
  simp

theorem pfx_single {c : Char} {s : List Char} :
    pfx [c] s = true ↔ ∃ t, s = c :: t := by
  rw [pfx_iff]
  constructor
  · rintro ⟨t, rfl⟩; exact ⟨t, rfl⟩
  · rintro ⟨t, rfl⟩; exact ⟨t, rfl⟩

theorem pfx_trans {p u v : List Char} (h1 : pfx p u = true) (h2 : pfx u v = true) :
    pfx p v = true := by
  rcases (pfx_iff _ _).1 h1 with ⟨a, rfl⟩
  rcases (pfx_iff _ _).1 h2 with ⟨b, rfl⟩
  exact (pfx_iff _ _).2 ⟨a ++ b, by simp⟩

theorem pfx_head {p s v : List Char} (h : pfx (p ++ v) s = true) : pfx p s = true := by
  rcases (pfx_iff _ _).1 h with ⟨t, rfl⟩
  exact (pfx_iff _ _).2 ⟨v ++ t, by simp⟩

theorem rtrimJS_cons_not_ws (c : Char) (cs : List Char) (h : isWs c = false) :
    ∃ t, rtrimJS (c :: cs) = c :: t := by
  unfold rtrimJS
  by_cases hr : (rtrimJS cs).isEmpty
  · exact ⟨[], by simp [hr, h]⟩
  · exact ⟨rtrimJS cs, by simp [hr]⟩

theorem rtrimJS_cons (c : Char) (cs : List Char) :
    rtrimJS (c :: cs) =
      if (rtrimJS cs).isEmpty then (if isWs c then [] else [c]) else c :: rtrimJS cs := rfl

theorem rtrimJS_idem : ∀ l : List Char, rtrimJS (rtrimJS l) = rtrimJS l
  | [] => rfl
  | c :: cs => by
    rw [rtrimJS_cons]
    by_cases hr : (rtrimJS cs).isEmpty
    · rw [if_pos hr]
      by_cases hc : isWs c
      · rw [if_pos hc]; rfl
      · rw [if_neg hc, rtrimJS_cons]
        simp [rtrimJS, hc]
    · rw [if_neg hr, rtrimJS_cons, rtrimJS_idem cs, if_neg hr]

theorem ltrimJS_cons_not_ws (c : Char) (cs : List Char) (h : isWs c = false) :
    ltrimJS (c :: cs) = c :: cs := by
  unfold ltrimJS; simp [h]

theorem trimJS_idem (l : List Char) : trimJS (trimJS l) = trimJS l := by
  unfold trimJS
  rcases hx : ltrimJS l with _ | ⟨c, cs⟩
  · simp [rtrimJS, ltrimJS]
  · have hc : isWs c = false := by
      induction l with
      | nil => simp [ltrimJS] at hx
      | cons d ds ih =>
        unfold ltrimJS at hx
        by_cases hd : isWs d
        · rw [if_pos hd] at hx; exact ih hx
        · rw [if_neg hd] at hx
          cases hx; simpa using hd
    rcases rtrimJS_cons_not_ws c cs hc with ⟨t, ht⟩
    rw [ht, ltrimJS_cons_not_ws c t hc, ← ht, rtrimJS_idem]

/-! ## A step is the identity when its regex matches nowhere -/

theorem raGo_id (tm : Option Char → List Char → Option (List Char × Nat)) :
    ∀ (f : Nat) (pre s : List Char),
      (∀ a t, pre ++ s = a ++ t → tm a.getLast? t = none) →
      raGo tm f pre.getLast? s = s := by
  intro f
  induction f with
  | zero => intro pre s _; rfl
  | succ f ih =>
    intro pre s h
    cases s with
    | nil => rfl
    | cons c cs =>
      have h0 : tm pre.getLast? (c :: cs) = none := h pre (c :: cs) rfl
      have hstep : raGo tm (f + 1) pre.getLast? (c :: cs) =
          c :: raGo tm f (some c) cs := by
        simp only [raGo, h0]
      rw [hstep]
      have hlast : (pre ++ [c]).getLast? = some c := by simp
      have := ih (pre ++ [c]) cs (by
        intro a t hat
        apply h
        rw [List.append_cons, hat])
      rw [hlast] at this
      rw [this]

theorem runStep_id (tm : Option Char → List Char → Option (List Char × Nat))
    (s : List Char) (h : ∀ a t, s = a ++ t → tm a.getLast? t = none) :
    runStep tm s = s := by
  have := raGo_id tm s.length [] s (by simpa using h)
  simpa [runStep] using this

/-! ## Failure of the character-triggered matchers -/

theorem tryFence_none {t : List Char} (p : Option Char) (h : ¬ '`' ∈ t) :
    tryFence p t = none := by
  unfold tryFence
  rw [if_neg (fun hp => h (pfx_mem hp))]

theorem tryInline_none {t : List Char} (p : Option Char) (h : ¬ '`' ∈ t) :
    tryInline p t = none := by
  unfold tryInline
  rw [if_neg (fun hp => h (pfx_mem hp))]

theorem tryBold_none {t : List Char} (p : Option Char) (h : ¬ '*' ∈ t) :
    tryBold p t = none := by
  unfold tryBold
  rw [if_neg (fun hp => h (pfx_mem hp))]

theorem tryItalic_none {t : List Char} (p : Option Char) (h : ¬ '*' ∈ t) :
    tryItalic p t = none := by
  unfold tryItalic
  rw [if_neg (fun hp => h (pfx_mem hp))]

theorem tryJoinUl_none {t : List Char} (p : Option Char) (h : ¬ '<' ∈ t) :
    tryJoinUl p t = none := by
  unfold tryJoinUl
  rw [if_neg (fun hp => h (pfx_mem hp))]

theorem tryOlJoin_none {t : List Char} (p : Option Char) (h : ¬ '<' ∈ t) :
    tryOlJoin p t = none := by
  unfold tryOlJoin
  by_cases hp : p == some '\n'
  · rw [if_pos hp]
  · rw [if_neg hp, if_neg (fun hq => h (pfx_mem hq))]

theorem tryUlOpen_none {t : List Char} (p : Option Char) (h : ¬ '<' ∈ t) :
    tryUlOpen p t = none := by
  unfold tryUlOpen
  have h1 : pfx "<li>".data t = false := by
    cases hq : pfx "<li>".data t
    · rfl
    · exact absurd (pfx_mem hq) h
  rw [h1]
  simp only [Bool.and_false]
  cases t with
  | nil => rfl
  | cons c cs =>
    have h2 : pfx "<li>".data cs = false := by
      cases hq : pfx "<li>".data cs
      · rfl
      · exact absurd (List.mem_cons_of_mem c (pfx_mem hq)) h
    simp [h2]

theorem tryOlOpen_none {t : List Char} (p : Option Char) (h : ¬ '<' ∈ t) :
    tryOlOpen p t = none := by
  unfold tryOlOpen
  have h1 : pfx "<li>".data t = false := by
    cases hq : pfx "<li>".data t
    · rfl
    · exact absurd (pfx_mem hq) h
  rw [h1]
  simp only [Bool.and_false]
  cases t with
  | nil => rfl
  | cons c cs =>
    have h2 : pfx "<li>".data cs = false := by
      cases hq : pfx "<li>".data cs
      · rfl
      · exact absurd (List.mem_cons_of_mem c (pfx_mem hq)) h
    simp [h2]

theorem tryUlClose_none {t : List Char} (p : Option Char) (h : ¬ '<' ∈ t) :
    tryUlClose p t = none := by
  unfold tryUlClose
  rw [if_neg (fun hp => h (pfx_mem hp))]

theorem tryOlClose_none {t : List Char} (p : Option Char) (h : ¬ '<' ∈ t) :
    tryOlClose p t = none := by
  unfold tryOlClose
  rw [if_neg (fun hp => h (pfx_mem hp))]

theorem tryCleanup_none {t : List Char} (p : Option Char) (h : ¬ '<' ∈ t) :
    tryCleanup p t = none := by
  unfold tryCleanup
  rw [if_neg (fun hp => h (pfx_mem hp))]

/-! ## Structure of `escapeHtml` output -/

theorem amp_data : "&amp;".data = ['&', 'a', 'm', 'p', ';'] := rfl

theorem lt_data : "&lt;".data = ['&', 'l', 't', ';'] := rfl

theorem gt_data : "&gt;".data = ['&', 'g', 't', ';'] := rfl

theorem nbsp_data : "&nbsp;".data = ['&', 'n', 'b', 's', 'p', ';'] := rfl

theorem escChar_cases (c : Char) :
    (escChar c = [c] ∧ ¬c = '&' ∧ ¬c = '<' ∧ ¬c = '>' ∧ ¬c = ' ') ∨
    (escChar c = "&amp;".data ∨ escChar c = "&lt;".data ∨ escChar c = "&gt;".data ∨
      escChar c = "&nbsp;".data) := by
  unfold escChar
  by_cases h1 : c = '&'
  · simp [h1]
  · by_cases h2 : c = '<'
    · simp [h1, h2]
    · by_cases h3 : c = '>'
      · simp [h1, h2, h3]
      · by_cases h4 : c = ' '
        · simp [h1, h2, h3, h4]
        · exact Or.inl ⟨by simp [h1, h2, h3, h4], h1, h2, h3, h4⟩

theorem mem_escChar {x c : Char} (h : x ∈ escChar c) :
    (x = c ∧ ¬c = '&' ∧ ¬c = '<' ∧ ¬c = '>' ∧ ¬c = ' ') ∨
      x ∈ ['&', 'a', 'm', 'p', ';', 'l', 't', 'g', 'n', 'b', 's'] := by
  rcases escChar_cases c with ⟨he, h1, h2, h3, h4⟩ | (he | he | he | he) <;> rw [he] at h
  · left; exact ⟨by simpa using h, h1, h2, h3, h4⟩
  · right; rw [amp_data] at h; simp at h
    rcases h with rfl | rfl | rfl | rfl | rfl <;> simp
  · right; rw [lt_data] at h; simp at h
    rcases h with rfl | rfl | rfl | rfl <;> simp
  · right; rw [gt_data] at h; simp at h
    rcases h with rfl | rfl | rfl | rfl <;> simp
  · right; rw [nbsp_data] at h; simp at h
    rcases h with rfl | rfl | rfl | rfl | rfl | rfl <;> simp

theorem escChar_ne_nil (c : Char) : ¬ escChar c = [] := by
  rcases escChar_cases c with ⟨he, _⟩ | (he | he | he | he) <;> rw [he]
  · simp
  all_goals decide

theorem escape_append : ∀ (x y : List Char),
    escapeHtml (x ++ y) = escapeHtml x ++ escapeHtml y
  | [], _ => rfl
  | c :: x, y => by simp [escapeHtml, escape_append x y]

theorem escape_eq_nil {r : List Char} (h : escapeHtml r = []) : r = [] := by
  cases r with
  | nil => rfl
  | cons c cs =>
    exfalso
    rw [show escapeHtml (c :: cs) = escChar c ++ escapeHtml cs from rfl] at h
    exact escChar_ne_nil c (List.append_eq_nil.mp h).1

theorem escChar_no_angle (c : Char) : ¬ '<' ∈ escChar c ∧ ¬ '>' ∈ escChar c := by
  constructor <;> intro h <;> rcases mem_escChar h with ⟨heq, h1, h2, h3, h4⟩ | hm
  · exact h2 heq.symm
  · revert hm; decide
  · exact h3 heq.symm
  · revert hm; decide

theorem escape_no_angle (r : List Char) : ¬ '<' ∈ escapeHtml r ∧ ¬ '>' ∈ escapeHtml r := by
  induction r with
  | nil => simp [escapeHtml]
  | cons c cs ih =>
    rw [show escapeHtml (c :: cs) = escChar c ++ escapeHtml cs from rfl]
    constructor <;> intro h <;> rcases List.mem_append.mp h with h | h
    · exact (escChar_no_angle c).1 h
    · exact ih.1 h
    · exact (escChar_no_angle c).2 h
    · exact ih.2 h

theorem escape_mem {x : Char} : ∀ {r : List Char}, x ∈ escapeHtml r →
    x ∈ r ∨ x ∈ ['&', 'a', 'm', 'p', ';', 'l', 't', 'g', 'n', 'b', 's']
  | [], h => by simp [escapeHtml] at h
  | c :: cs, h => by
    rw [show escapeHtml (c :: cs) = escChar c ++ escapeHtml cs from rfl] at h
    rcases List.mem_append.mp h with h | h
    · rcases mem_escChar h with ⟨rfl, _⟩ | hm
      · exact Or.inl (List.mem_cons_self _ _)
      · exact Or.inr hm
    · rcases escape_mem h with h | h
      · exact Or.inl (List.mem_cons_of_mem _ h)
      · exact Or.inr h

theorem pfx_single_head {c : Char} {l : List Char} :
    pfx [c] l = true ↔ l.head? = some c := by
  cases l with
  | nil => simp [pfx]
  | cons d ds =>
    have h1 : pfx [c] (d :: ds) = (c == d && true) := rfl
    rw [h1]
    constructor
    · intro h
      have h2 : c = d := by simpa using h
      simp [h2]
    · intro h
      have h2 : d = c := by simpa using h
      simp [h2]

theorem escape_head {r : List Char} {c : Char} (hc : ¬ c = '&')
    (h : (escapeHtml r).head? = some c) : r.head? = some c := by
  cases r with
  | nil => simp [escapeHtml] at h
  | cons d ds =>
    rw [show escapeHtml (d :: ds) = escChar d ++ escapeHtml ds from rfl] at h
    rcases escChar_cases d with ⟨he, _⟩ | (he | he | he | he) <;> rw [he] at h
    · simpa using h
    · rw [amp_data] at h; simp at h; exact absurd h.symm hc
    · rw [lt_data] at h; simp at h; exact absurd h.symm hc
    · rw [gt_data] at h; simp at h; exact absurd h.symm hc
    · rw [nbsp_data] at h; simp at h; exact absurd h.symm hc

/-! ## Blank lines and the paragraph step -/

theorem noNN_tail {c : Char} {l : List Char} (h : noNN (c :: l) = true) :
    noNN l = true := by
  cases l with
  | nil => rfl
  | cons b t =>
    have h' : (!(c == '\n' && b == '\n') && noNN (b :: t)) = true := h
    rw [Bool.and_eq_true] at h'
    exact h'.2

theorem not_nn_beq {a b : Char} (h1 : ¬(a = '\n' ∧ b = '\n')) :
    (!(a == '\n' && b == '\n')) = true := by
  cases hx : ((a == '\n') && (b == '\n'))
  · rfl
  · exfalso
    rw [Bool.and_eq_true] at hx
    exact h1 ⟨by simpa using hx.1, by simpa using hx.2⟩

theorem nn_beq_false {a b : Char} (h : (!(a == '\n' && b == '\n')) = true) :
    ((a == '\n') && (b == '\n')) = false := by
  cases hx : ((a == '\n') && (b == '\n'))
  · rfl
  · rw [hx] at h
    exact absurd h (by decide)

theorem beq_comm_char (a b : Char) : (a == b) = (b == a) := by
  by_cases h : a = b
  · rw [h]
  · rw [beq_eq_false_iff_ne.mpr h, beq_eq_false_iff_ne.mpr (fun hh => h hh.symm)]

theorem pfx_nn {a b : Char} {t : List Char} :
    pfx "\n\n".data (a :: b :: t) = ((a == '\n') && (b == '\n')) := by
  show (('\n' == a) && (('\n' == b) && true)) = ((a == '\n') && (b == '\n'))
  rw [Bool.and_true, beq_comm_char '\n' a, beq_comm_char '\n' b]

theorem noNN_no_pfx : ∀ {s : List Char}, noNN s = true → pfx "\n\n".data s = false
  | [], _ => rfl
  | [x], _ => by
    show (('\n' == x) && false) = false
    rw [Bool.and_false]
  | a :: b :: t, h => by
    rw [pfx_nn]
    have h' : (!(a == '\n' && b == '\n') && noNN (b :: t)) = true := h
    rw [Bool.and_eq_true] at h'
    exact nn_beq_false h'.1

theorem noNN_suffix : ∀ (a t : List Char), noNN (a ++ t) = true → noNN t = true
  | [], _, h => h
  | _ :: a, t, h => noNN_suffix a t (noNN_tail h)

theorem tryPara_none {t : List Char} (p : Option Char) (h : noNN t = true) :
    tryPara p t = none := by
  unfold tryPara
  rw [if_neg]
  intro hp
  rw [noNN_no_pfx h] at hp
  exact Bool.false_ne_true hp

theorem noNN_append : ∀ (x y : List Char), noNN x = true → noNN y = true →
    ¬(x.getLast? = some '\n' ∧ y.head? = some '\n') → noNN (x ++ y) = true
  | [], _, _, hy, _ => hy
  | [a], y, _, hy, hb => by
    cases y with
    | nil => rfl
    | cons b t =>
      show (!(a == '\n' && b == '\n') && noNN (b :: t)) = true
      rw [Bool.and_eq_true]
      refine ⟨?_, hy⟩
      have h1 : ¬(a = '\n' ∧ b = '\n') := by
        rintro ⟨rfl, rfl⟩
        exact hb ⟨rfl, rfl⟩
      exact not_nn_beq h1
  | a :: b :: x, y, hx, hy, hb => by
    have hx' : (!(a == '\n' && b == '\n') && noNN (b :: x)) = true := hx
    rw [Bool.and_eq_true] at hx'
    have ih := noNN_append (b :: x) y hx'.2 hy (by
      rintro ⟨h1, h2⟩
      refine hb ⟨?_, h2⟩
      rw [List.getLast?_cons_cons]
      exact h1)
    show (!(a == '\n' && b == '\n') && noNN ((b :: x) ++ y)) = true
    rw [Bool.and_eq_true]
    exact ⟨hx'.1, ih⟩

theorem noNN_escChar (c : Char) : noNN (escChar c) = true := by
  rcases escChar_cases c with ⟨he, _⟩ | (he | he | he | he) <;> rw [he]
  · rfl
  · rw [amp_data]; decide
  · rw [lt_data]; decide
  · rw [gt_data]; decide
  · rw [nbsp_data]; decide

theorem escChar_last_nl {c : Char} (h : (escChar c).getLast? = some '\n') :
    c = '\n' := by
  rcases escChar_cases c with ⟨he, _⟩ | (he | he | he | he) <;> rw [he] at h
  · simpa using h
  · rw [amp_data] at h; exact absurd h (by decide)
  · rw [lt_data] at h; exact absurd h (by decide)
  · rw [gt_data] at h; exact absurd h (by decide)
  · rw [nbsp_data] at h; exact absurd h (by decide)

theorem noNN_escape : ∀ {r : List Char}, noNN r = true → noNN (escapeHtml r) = true
  | [], _ => rfl
  | c :: cs, h => by
    show noNN (escChar c ++ escapeHtml cs) = true
    apply noNN_append _ _ (noNN_escChar c) (noNN_escape (noNN_tail h))
    rintro ⟨h1, h2⟩
    have hc : c = '\n' := escChar_last_nl h1
    have hcs : cs.head? = some '\n' := escape_head (by decide) h2
    cases cs with
    | nil => simp at hcs
    | cons b t =>
      have hb : b = '\n' := by simpa using hcs
      have h' : (!(c == '\n' && b == '\n') && noNN (b :: t)) = true := h
      rw [Bool.and_eq_true, hc, hb] at h'
      simp at h'

/-! ## Line-start splits of escaped text are aligned with the raw text

A position in `escapeHtml raw` that sits right after a line terminator (or
at the beginning) cannot be inside an entity (entities contain no line
terminators), so it corresponds to a position in `raw`. -/

theorem entity_no_term {e : List Char}
    (hee : e = "&amp;".data ∨ e = "&lt;".data ∨ e = "&gt;".data ∨ e = "&nbsp;".data)
    {x : Char} (hx : x ∈ e) : isLineTerm x = false := by
  rcases hee with rfl | rfl | rfl | rfl
  · rw [amp_data] at hx
    rcases (by simpa using hx : x = '&' ∨ x = 'a' ∨ x = 'm' ∨ x = 'p' ∨ x = ';')
      with rfl | rfl | rfl | rfl | rfl <;> rfl
  · rw [lt_data] at hx
    rcases (by simpa using hx : x = '&' ∨ x = 'l' ∨ x = 't' ∨ x = ';')
      with rfl | rfl | rfl | rfl <;> rfl
  · rw [gt_data] at hx
    rcases (by simpa using hx : x = '&' ∨ x = 'g' ∨ x = 't' ∨ x = ';')
      with rfl | rfl | rfl | rfl <;> rfl
  · rw [nbsp_data] at hx
    rcases (by simpa using hx : x = '&' ∨ x = 'n' ∨ x = 'b' ∨ x = 's' ∨ x = 'p' ∨ x = ';')
      with rfl | rfl | rfl | rfl | rfl | rfl <;> rfl

theorem escape_aligned_split : ∀ (raw a t : List Char),
    escapeHtml raw = a ++ t →
    (a = [] ∨ ∃ c0, a.getLast? = some c0 ∧ isLineTerm c0 = true) →
    ∃ r₁ r₂, raw = r₁ ++ r₂ ∧ a = escapeHtml r₁ ∧ t = escapeHtml r₂ ∧
      (r₁ = [] ∨ ∃ c0, r₁.getLast? = some c0 ∧ isLineTerm c0 = true)
  | [], a, t, h, _ => by
    have h2 : a = [] ∧ t = [] := List.append_eq_nil.mp h.symm
    exact ⟨[], [], rfl, by rw [h2.1]; rfl, by rw [h2.2]; rfl, Or.inl rfl⟩
  | c :: cs, a, t, h, hend => by
    rw [show escapeHtml (c :: cs) = escChar c ++ escapeHtml cs from rfl] at h
    rcases List.append_eq_append_iff.mp h with ⟨a', ha, hcs⟩ | ⟨c', hc, ht⟩
    · by_cases hnil : a' = []
      · subst hnil
        rw [List.append_nil] at ha
        rw [List.nil_append] at hcs
        rcases hend with rfl | ⟨c0, hc0, hterm⟩
        · exact absurd ha.symm (escChar_ne_nil c)
        · have hc0' : (escChar c).getLast? = some c0 := ha ▸ hc0
          rcases escChar_cases c with ⟨he, _⟩ | (he | he | he | he)
          · rw [he] at hc0'
            have hcc : c0 = c := by
              have := hc0'
              simp at this
              exact this.symm
            subst hcc
            refine ⟨[c0], cs, rfl, ?_, hcs.symm, Or.inr ⟨c0, by simp, hterm⟩⟩
            rw [ha]
            show escChar c0 = escChar c0 ++ escapeHtml []
            rw [show escapeHtml [] = [] from rfl, List.append_nil]
          · rw [he, amp_data] at hc0'
            have hcc : c0 = ';' := by
              have := hc0'
              simp at this
              exact this.symm
            subst hcc
            exact absurd hterm (by decide)
          · rw [he, lt_data] at hc0'
            have hcc : c0 = ';' := by
              have := hc0'
              simp at this
              exact this.symm
            subst hcc
            exact absurd hterm (by decide)
          · rw [he, gt_data] at hc0'
            have hcc : c0 = ';' := by
              have := hc0'
              simp at this
              exact this.symm
            subst hcc
            exact absurd hterm (by decide)
          · rw [he, nbsp_data] at hc0'
            have hcc : c0 = ';' := by
              have := hc0'
              simp at this
              exact this.symm
            subst hcc
            exact absurd hterm (by decide)
      · have hend' : a' = [] ∨ ∃ c0, a'.getLast? = some c0 ∧ isLineTerm c0 = true := by
          rcases hend with rfl | ⟨c0, hc0, hterm⟩
          · exact absurd (List.append_eq_nil.mp ha.symm).1 (escChar_ne_nil c)
          · right
            refine ⟨c0, ?_, hterm⟩
            rw [ha] at hc0
            rwa [List.getLast?_append_of_ne_nil _ hnil] at hc0
        obtain ⟨r₁', r₂', hsplit, ha'', ht'', hend''⟩ :=
          escape_aligned_split cs a' t hcs hend'
        refine ⟨c :: r₁', r₂', by rw [hsplit]; rfl, ?_, ht'', ?_⟩
        · rw [ha, ha'']
          rfl
        · right
          rcases hend'' with rfl | ⟨c0, hc0, hterm⟩
          · exact absurd (by rw [ha'']; rfl : a' = []) hnil
          · refine ⟨c0, ?_, hterm⟩
            show ([c] ++ r₁').getLast? = some c0
            rw [List.getLast?_append_of_ne_nil _ (by
              intro hq
              rw [hq] at hc0
              simp at hc0)]
            exact hc0
    · rcases hend with rfl | ⟨c0, hc0, hterm⟩
      · refine ⟨[], c :: cs, rfl, rfl, ?_, Or.inl rfl⟩
        rw [List.nil_append] at hc
        rw [ht, ← hc]
        rfl
      · rcases escChar_cases c with ⟨he, _⟩ | (he | he | he | he)
        · rw [he] at hc
          have hane : ¬ a = [] := by
            intro hq
            rw [hq] at hc0
            simp at hc0
          cases a with
          | nil => exact absurd rfl hane
          | cons x xs =>
            rw [List.cons_append] at hc
            have hx1 : x = c := by
              have h1 := congrArg List.head? hc
              simp at h1
              exact h1.symm
            have h2 : xs ++ c' = [] := by
              have h1 := congrArg List.tail hc
              simpa using h1
            have hxs : xs = [] := (List.append_eq_nil.mp h2).1
            have hc'n : c' = [] := (List.append_eq_nil.mp h2).2
            subst hx1
            subst hxs
            refine ⟨[x], cs, rfl, ?_, ?_, Or.inr ⟨c0, hc0, hterm⟩⟩
            · show [x] = escChar x ++ escapeHtml []
              rw [he, show escapeHtml [] = [] from rfl, List.append_nil]
            · rw [ht, hc'n]
              rfl
        all_goals
          exfalso
          have hmem : c0 ∈ escChar c := by
            rw [hc]
            exact List.mem_append_left _ (List.mem_of_mem_getLast? hc0)
          rw [he] at hmem
          have hft : isLineTerm c0 = false :=
            entity_no_term (by
              first
                | exact Or.inl rfl
                | exact Or.inr (Or.inl rfl)
                | exact Or.inr (Or.inr (Or.inl rfl))
                | exact Or.inr (Or.inr (Or.inr rfl))) hmem
          rw [hft] at hterm
          exact Bool.false_ne_true hterm

/-! ## Markdown-free inputs kill the anchored matchers -/

theorem markdownFree_parts {l : List Char} (h : markdownFree l = true) :
    (∀ c ∈ l, (c == '`') = false) ∧ (∀ c ∈ l, (c == '*') = false) ∧
      lineBad l = false ∧ mdLines l = true := by
  unfold markdownFree at h
  simp only [Bool.and_eq_true] at h
  obtain ⟨⟨⟨h1, h2⟩, h3⟩, h4⟩ := h
  refine ⟨?_, ?_, ?_, h4⟩
  · intro c hc
    have := List.all_eq_true.mp h1 c hc
    simpa using this
  · intro c hc
    have := List.all_eq_true.mp h2 c hc
    simpa using this
  · simpa using h3

theorem mdLines_split : ∀ (x y : List Char) (c : Char), mdLines (x ++ c :: y) = true →
    isLineTerm c = true → lineBad y = false
  | [], y, c, h, hc => by
    have h' : ((!(isLineTerm c) || !(lineBad y)) && mdLines y) = true := h
    rw [Bool.and_eq_true] at h'
    have h1 := h'.1
    rw [hc] at h1
    simp at h1
    cases hx : lineBad y
    · rfl
    · rw [hx] at h1
      exact absurd h1 (by decide)
  | _ :: x, y, c, h, hc => by
    have h' : ((!(isLineTerm _) || !(lineBad (x ++ c :: y))) && mdLines (x ++ c :: y)) = true := h
    rw [Bool.and_eq_true] at h'
    exact mdLines_split x y c h'.2 hc

theorem markdownFree_suffix_lineBad {raw r₁ r₂ : List Char}
    (hmf : markdownFree raw = true) (hsplit : raw = r₁ ++ r₂)
    (hend : r₁ = [] ∨ ∃ c, r₁.getLast? = some c ∧ isLineTerm c = true) :
    lineBad r₂ = false := by
  rcases hend with rfl | ⟨c, hc, hterm⟩
  · rw [List.nil_append] at hsplit
    rw [← hsplit]
    exact (markdownFree_parts hmf).2.2.1
  · rcases List.getLast?_eq_some_iff.mp hc with ⟨r₁', rfl⟩
    have hm := (markdownFree_parts hmf).2.2.2
    rw [hsplit] at hm
    rw [List.append_assoc] at hm
    exact mdLines_split r₁' r₂ c (by simpa using hm) hterm

/-! ## `dropWhile`/`takeWhile` versus `escapeHtml` -/

theorem dropWhile_drop_takeWhile (q : Char → Bool) : ∀ l : List Char,
    l.drop (l.takeWhile q).length = l.dropWhile q
  | [] => rfl
  | c :: cs => by
    by_cases h : q c = true
    · rw [List.takeWhile_cons_of_pos h, List.dropWhile_cons_of_pos h]
      simpa using dropWhile_drop_takeWhile q cs
    · rw [List.takeWhile_cons_of_neg h, List.dropWhile_cons_of_neg h]
      rfl

theorem escape_dropWs : ∀ r : List Char,
    (escapeHtml r).dropWhile isWs = [] ∨
    (pfx "&".data ((escapeHtml r).dropWhile isWs) = true ∧
      ∃ u, (escapeHtml r).dropWhile isWs = escapeHtml u) ∨
    (∃ c rest, (escapeHtml r).dropWhile isWs = c :: escapeHtml rest ∧ escChar c = [c] ∧
      isWs c = false ∧ r.dropWhile isWs = c :: rest)
  | [] => Or.inl rfl
  | c :: cs => by
    have hE : escapeHtml (c :: cs) = escChar c ++ escapeHtml cs := rfl
    rcases escChar_cases c with ⟨he, h1, h2, h3, h4⟩ | (he | he | he | he)
    · by_cases hws : isWs c = true
      · have hstep : (escapeHtml (c :: cs)).dropWhile isWs =
            (escapeHtml cs).dropWhile isWs := by
          rw [hE, he, List.cons_append, List.nil_append,
            List.dropWhile_cons_of_pos hws]
        have hstepr : (c :: cs).dropWhile isWs = cs.dropWhile isWs :=
          List.dropWhile_cons_of_pos hws
        rw [hstep, hstepr]
        exact escape_dropWs cs
      · right; right
        have hws' : isWs c = false := by
          cases hx : isWs c
          · rfl
          · exact absurd hx hws
        refine ⟨c, cs, ?_, he, hws', List.dropWhile_cons_of_neg hws⟩
        rw [hE, he, List.cons_append, List.nil_append,
          List.dropWhile_cons_of_neg hws]
    all_goals
      right; left
      have hdw : (escapeHtml (c :: cs)).dropWhile isWs = escapeHtml (c :: cs) := by
        rw [hE, he]
        first
          | rw [amp_data] | rw [lt_data] | rw [gt_data] | rw [nbsp_data]
        rw [List.cons_append, List.dropWhile_cons_of_neg (by decide)]
      rw [hdw]
      refine ⟨?_, ⟨c :: cs, rfl⟩⟩
      rw [hE, he]
      first
        | rw [amp_data] | rw [lt_data] | rw [gt_data] | rw [nbsp_data]
      rw [List.cons_append]
      exact pfx_single.2 ⟨_, rfl⟩

theorem pfx_one (x c : Char) (t : List Char) : pfx [x] (c :: t) = (x == c) := by
  show (x == c && true) = _
  rw [Bool.and_true]

theorem escape_digits : ∀ r : List Char,
    (escapeHtml r).takeWhile isDigitC = r.takeWhile isDigitC ∧
    (escapeHtml r).drop (r.takeWhile isDigitC).length =
      escapeHtml (r.drop (r.takeWhile isDigitC).length)
  | [] => ⟨rfl, rfl⟩
  | c :: cs => by
    have hE : escapeHtml (c :: cs) = escChar c ++ escapeHtml cs := rfl
    by_cases hd : isDigitC c = true
    · have hne1 : ¬ c = '&' := fun hq => by rw [hq] at hd; exact absurd hd (by decide)
      have hne2 : ¬ c = '<' := fun hq => by rw [hq] at hd; exact absurd hd (by decide)
      have hne3 : ¬ c = '>' := fun hq => by rw [hq] at hd; exact absurd hd (by decide)
      have hne4 : ¬ c = ' ' := fun hq => by rw [hq] at hd; exact absurd hd (by decide)
      have hesc : escChar c = [c] := by
        unfold escChar
        simp [hne1, hne2, hne3, hne4]
      rw [hE, hesc, List.cons_append, List.nil_append]
      constructor
      · rw [List.takeWhile_cons_of_pos hd, List.takeWhile_cons_of_pos hd,
          (escape_digits cs).1]
      · rw [List.takeWhile_cons_of_pos hd]
        simp only [List.length_cons, List.drop_succ_cons]
        exact (escape_digits cs).2
    · constructor
      · rw [List.takeWhile_cons_of_neg hd]
        rcases escChar_cases c with ⟨he, _⟩ | (he | he | he | he) <;>
          rw [hE, he] <;>
          first
            | rw [List.cons_append, List.nil_append, List.takeWhile_cons_of_neg hd]
            | (rw [amp_data, List.cons_append, List.takeWhile_cons_of_neg (by decide)])
            | (rw [lt_data, List.cons_append, List.takeWhile_cons_of_neg (by decide)])
            | (rw [gt_data, List.cons_append, List.takeWhile_cons_of_neg (by decide)])
            | (rw [nbsp_data, List.cons_append, List.takeWhile_cons_of_neg (by decide)])
      · rw [List.takeWhile_cons_of_neg hd]
        simp

/-! ## Failure of the anchored matchers on markdown-free lines -/

theorem lineBad_parts {r₂ : List Char} (hlb : lineBad r₂ = false) :
    pfx "-".data (r₂.dropWhile isWs) = false ∧
    pfx "*".data (r₂.dropWhile isWs) = false ∧
    pfx "+".data (r₂.dropWhile isWs) = false ∧
    pfx "#".data (r₂.dropWhile isWs) = false ∧
    (!((r₂.dropWhile isWs).takeWhile isDigitC).isEmpty &&
      pfx ".".data ((r₂.dropWhile isWs).drop
        (((r₂.dropWhile isWs).takeWhile isDigitC)).length)) = false := by
  unfold lineBad at hlb
  simp only [Bool.or_eq_false_iff] at hlb
  exact ⟨hlb.1.1.1.1, hlb.1.1.1.2, hlb.1.1.2, hlb.1.2, hlb.2⟩

theorem tryUl_nls {t : List Char} {p : Option Char} (h : isLineStart p = false) :
    tryUl p t = none := by
  unfold tryUl
  rw [if_neg (by rw [h]; exact Bool.false_ne_true)]

theorem tryOl_nls {t : List Char} {p : Option Char} (h : isLineStart p = false) :
    tryOl p t = none := by
  unfold tryOl
  rw [if_neg (by rw [h]; exact Bool.false_ne_true)]

theorem tryH3_nls {t : List Char} {p : Option Char} (h : isLineStart p = false) :
    tryH3 p t = none := by
  unfold tryH3
  rw [if_neg (by rw [h, Bool.false_and]; exact Bool.false_ne_true)]

theorem tryH2_nls {t : List Char} {p : Option Char} (h : isLineStart p = false) :
    tryH2 p t = none := by
  unfold tryH2
  rw [if_neg (by rw [h, Bool.false_and]; exact Bool.false_ne_true)]

theorem tryH1_nls {t : List Char} {p : Option Char} (h : isLineStart p = false) :
    tryH1 p t = none := by
  unfold tryH1
  rw [if_neg (by rw [h, Bool.false_and]; exact Bool.false_ne_true)]

theorem tryUl_none_line {r₂ : List Char} (hlb : lineBad r₂ = false) (p : Option Char) :
    tryUl p (escapeHtml r₂) = none := by
  obtain ⟨hA, hB, hC, -, -⟩ := lineBad_parts hlb
  unfold tryUl
  by_cases hls : isLineStart p = true
  · rw [if_pos hls]
    have hr1eq : List.drop (List.takeWhile isWs (escapeHtml r₂)).length (escapeHtml r₂) =
        List.dropWhile isWs (escapeHtml r₂) := dropWhile_drop_takeWhile isWs _
    simp only [hr1eq]
    rcases escape_dropWs r₂ with hnil | ⟨hamp, -⟩ | ⟨c, rest, hX, -, -, hraw⟩
    · rw [hnil]
      rfl
    · rcases pfx_single.1 hamp with ⟨tt, hX⟩
      rw [hX]
      rw [if_neg]
      intro hcond
      simp only [pfx_one, Bool.or_eq_true, beq_iff_eq] at hcond
      rcases hcond with (hq | hq) | hq <;> exact absurd hq (by decide)
    · rw [hX]
      rw [hraw] at hA hB hC
      rw [if_neg]
      intro hcond
      simp only [pfx_one, Bool.or_eq_true] at hcond
      rw [pfx_one] at hA hB hC
      rcases hcond with (hq | hq) | hq
      · rw [hq] at hA; exact absurd hA (by decide)
      · rw [hq] at hB; exact absurd hB (by decide)
      · rw [hq] at hC; exact absurd hC (by decide)
  · exact tryUl_nls (by cases hq : isLineStart p; rfl; exact absurd hq hls)

theorem tryOl_none_line {r₂ : List Char} (hlb : lineBad r₂ = false) (p : Option Char) :
    tryOl p (escapeHtml r₂) = none := by
  obtain ⟨-, -, -, -, hE⟩ := lineBad_parts hlb
  unfold tryOl
  by_cases hls : isLineStart p = true
  · rw [if_pos hls]
    have hr1eq : List.drop (List.takeWhile isWs (escapeHtml r₂)).length (escapeHtml r₂) =
        List.dropWhile isWs (escapeHtml r₂) := dropWhile_drop_takeWhile isWs _
    simp only [hr1eq]
    rcases escape_dropWs r₂ with hnil | ⟨hamp, u, hu⟩ | ⟨c, rest, hX, hesc, -, hraw⟩
    · rw [hnil]
      rfl
    · rcases pfx_single.1 hamp with ⟨tt, hX⟩
      rw [hX, List.takeWhile_cons_of_neg (by decide)]
      rfl
    · rw [hX]
      have hXesc : (c :: escapeHtml rest) = escapeHtml (c :: rest) := by
        rw [show escapeHtml (c :: rest) = escChar c ++ escapeHtml rest from rfl, hesc,
          List.cons_append, List.nil_append]
      rw [hXesc]
      rw [(escape_digits (c :: rest)).1]
      by_cases hds : ((c :: rest).takeWhile isDigitC).isEmpty = true
      · rw [if_pos hds]
      · rw [if_neg hds]
        rw [(escape_digits (c :: rest)).2]
        rw [if_neg]
        intro hdot
        have hdot' : pfx ".".data ((c :: rest).drop
            ((c :: rest).takeWhile isDigitC).length) = true := by
          have hh := pfx_single_head.mp hdot
          exact pfx_single_head.mpr (escape_head (by decide) hh)
        rw [hraw] at hE
        rw [Bool.and_eq_false_iff] at hE
        rcases hE with hE | hE
        · cases hb : (List.takeWhile isDigitC (c :: rest)).isEmpty
          · rw [hb] at hE
            exact absurd hE (by decide)
          · exact hds hb
        · rw [hdot'] at hE
          exact absurd hE (by decide)
  · exact tryOl_nls (by cases hq : isLineStart p; rfl; exact absurd hq hls)

theorem heading_pfx_kill {r₂ : List Char} (hlb : lineBad r₂ = false)
    (h : pfx "#".data (escapeHtml r₂) = true) : False := by
  obtain ⟨-, -, -, hD, -⟩ := lineBad_parts hlb
  have hh : (escapeHtml r₂).head? = some '#' := pfx_single_head.mp h
  have hr : r₂.head? = some '#' := escape_head (by decide) hh
  cases r₂ with
  | nil => simp at hr
  | cons d ds =>
    have hd : d = '#' := by simpa using hr
    subst hd
    rw [List.dropWhile_cons_of_neg (by decide)] at hD
    rw [pfx_one] at hD
    exact absurd hD (by decide)

theorem tryH3_none_line {r₂ : List Char} (hlb : lineBad r₂ = false) (p : Option Char) :
    tryH3 p (escapeHtml r₂) = none := by
  unfold tryH3
  rw [if_neg]
  intro hcond
  rw [Bool.and_eq_true] at hcond
  exact heading_pfx_kill hlb (pfx_head hcond.2)

theorem tryH2_none_line {r₂ : List Char} (hlb : lineBad r₂ = false) (p : Option Char) :
    tryH2 p (escapeHtml r₂) = none := by
  unfold tryH2
  rw [if_neg]
  intro hcond
  rw [Bool.and_eq_true] at hcond
  exact heading_pfx_kill hlb (pfx_head hcond.2)

theorem tryH1_none_line {r₂ : List Char} (hlb : lineBad r₂ = false) (p : Option Char) :
    tryH1 p (escapeHtml r₂) = none := by
  unfold tryH1
  rw [if_neg]
  intro hcond
  rw [Bool.and_eq_true] at hcond
  exact heading_pfx_kill hlb hcond.2

theorem anchored_split_none (raw : List Char) (hmf : markdownFree raw = true)
    (tm : Option Char → List Char → Option (List Char × Nat))
    (hline : ∀ (r₂ : List Char) (p : Option Char), lineBad r₂ = false →
      tm p (escapeHtml r₂) = none)
    (hnls : ∀ (t : List Char) (p : Option Char), isLineStart p = false → tm p t = none) :
    ∀ a t, escapeHtml raw = a ++ t → tm a.getLast? t = none := by
  intro a t hsplit
  by_cases hls : isLineStart a.getLast? = true
  · have hend : a = [] ∨ ∃ c0, a.getLast? = some c0 ∧ isLineTerm c0 = true := by
      cases ha : a.getLast? with
      | none => exact Or.inl (List.getLast?_eq_none_iff.mp ha)
      | some c0 =>
        right
        refine ⟨c0, rfl, ?_⟩
        rw [ha] at hls
        exact hls
    obtain ⟨r₁, r₂, hraw, -, ht, hend'⟩ := escape_aligned_split raw a t hsplit hend
    rw [ht]
    exact hline r₂ _ (markdownFree_suffix_lineBad hmf hraw hend')
  · exact hnls t _ (by cases hq : isLineStart a.getLast?; rfl; exact absurd hq hls)

/-- The fourteen replacement steps are all the identity on the escaped form
of a markdown-free text with no blank line. -/
theorem steps_id_on_plain (raw : List Char) (hmf : markdownFree raw = true)
    (hnn : noNN raw = true) :
    mdPipe raw = trimJS (brStep (escapeHtml raw)) := by
  have parts := markdownFree_parts hmf
  have hbt : ¬ '`' ∈ escapeHtml raw := by
    intro hm
    rcases escape_mem hm with h | h
    · exact absurd (parts.1 '`' h) (by decide)
    · exact absurd h (by decide)
  have hst : ¬ '*' ∈ escapeHtml raw := by
    intro hm
    rcases escape_mem hm with h | h
    · exact absurd (parts.2.1 '*' h) (by decide)
    · exact absurd h (by decide)
  have hlt : ¬ '<' ∈ escapeHtml raw := (escape_no_angle _).1
  have hnnE : noNN (escapeHtml raw) = true := noNN_escape hnn
  have hsub : ∀ (a t : List Char), escapeHtml raw = a ++ t →
      ∀ x : Char, x ∈ t → x ∈ escapeHtml raw := by
    intro a t hsp x hm
    rw [hsp]
    exact List.mem_append_right a hm
  have h01 : runStep tryFence (escapeHtml raw) = escapeHtml raw :=
    runStep_id _ _ (fun a t hsp => tryFence_none _ (fun hm => hbt (hsub a t hsp _ hm)))
  have h02 : runStep tryInline (escapeHtml raw) = escapeHtml raw :=
    runStep_id _ _ (fun a t hsp => tryInline_none _ (fun hm => hbt (hsub a t hsp _ hm)))
  have h03 : runStep tryBold (escapeHtml raw) = escapeHtml raw :=
    runStep_id _ _ (fun a t hsp => tryBold_none _ (fun hm => hst (hsub a t hsp _ hm)))
  have h04 : runStep tryItalic (escapeHtml raw) = escapeHtml raw :=
    runStep_id _ _ (fun a t hsp => tryItalic_none _ (fun hm => hst (hsub a t hsp _ hm)))
  have h05 : runStep tryUl (escapeHtml raw) = escapeHtml raw :=
    runStep_id _ _ (anchored_split_none raw hmf tryUl
      (fun r₂ p hlb => tryUl_none_line hlb p) (fun t p h => tryUl_nls h))
  have h06 : runStep tryJoinUl (escapeHtml raw) = escapeHtml raw :=
    runStep_id _ _ (fun a t hsp => tryJoinUl_none _ (fun hm => hlt (hsub a t hsp _ hm)))
  have h07 : runStep tryUlOpen (escapeHtml raw) = escapeHtml raw :=
    runStep_id _ _ (fun a t hsp => tryUlOpen_none _ (fun hm => hlt (hsub a t hsp _ hm)))
  have h08 : runStep tryUlClose (escapeHtml raw) = escapeHtml raw :=
    runStep_id _ _ (fun a t hsp => tryUlClose_none _ (fun hm => hlt (hsub a t hsp _ hm)))
  have h09 : runStep tryOl (escapeHtml raw) = escapeHtml raw :=
    runStep_id _ _ (anchored_split_none raw hmf tryOl
      (fun r₂ p hlb => tryOl_none_line hlb p) (fun t p h => tryOl_nls h))
  have h10 : runStep tryOlJoin (escapeHtml raw) = escapeHtml raw :=
    runStep_id _ _ (fun a t hsp => tryOlJoin_none _ (fun hm => hlt (hsub a t hsp _ hm)))
  have h11 : runStep tryOlOpen (escapeHtml raw) = escapeHtml raw :=
    runStep_id _ _ (fun a t hsp => tryOlOpen_none _ (fun hm => hlt (hsub a t hsp _ hm)))
  have h12 : runStep tryOlClose (escapeHtml raw) = escapeHtml raw :=
    runStep_id _ _ (fun a t hsp => tryOlClose_none _ (fun hm => hlt (hsub a t hsp _ hm)))
  have h13 : runStep tryH3 (escapeHtml raw) = escapeHtml raw :=
    runStep_id _ _ (anchored_split_none raw hmf tryH3
      (fun r₂ p hlb => tryH3_none_line hlb p) (fun t p h => tryH3_nls h))
  have h14 : runStep tryH2 (escapeHtml raw) = escapeHtml raw :=
    runStep_id _ _ (anchored_split_none raw hmf tryH2
      (fun r₂ p hlb => tryH2_none_line hlb p) (fun t p h => tryH2_nls h))
  have h15 : runStep tryH1 (escapeHtml raw) = escapeHtml raw :=
    runStep_id _ _ (anchored_split_none raw hmf tryH1
      (fun r₂ p hlb => tryH1_none_line hlb p) (fun t p h => tryH1_nls h))
  have h16 : runStep tryPara (escapeHtml raw) = escapeHtml raw :=
    runStep_id _ _ (fun a t hsp => tryPara_none _ (noNN_suffix a t (hsp ▸ hnnE)))
  have h17 : runStep tryCleanup (escapeHtml raw) = escapeHtml raw :=
    runStep_id _ _ (fun a t hsp => tryCleanup_none _ (fun hm => hlt (hsub a t hsp _ hm)))
  unfold mdPipe
  simp only [h01, h02, h03, h04, h05, h06, h07, h08, h09, h10, h11, h12, h13, h14,
    h15, h16, h17]

/-! ## Single-line markdown-free texts: trimming preserves the predicates -/

theorem ltrim_eq_dropWhile : ∀ l : List Char, ltrimJS l = l.dropWhile isWs
  | [] => rfl
  | c :: cs => by
    by_cases h : isWs c = true
    · rw [List.dropWhile_cons_of_pos h]
      show (if isWs c then ltrimJS cs else c :: cs) = _
      rw [if_pos h]
      exact ltrim_eq_dropWhile cs
    · rw [List.dropWhile_cons_of_neg h]
      show (if isWs c then ltrimJS cs else c :: cs) = _
      rw [if_neg h]

theorem pfx_rtrim : ∀ l : List Char, pfx (rtrimJS l) l = true
  | [] => rfl
  | c :: cs => by
    unfold rtrimJS
    by_cases hr : (rtrimJS cs).isEmpty = true
    · rw [if_pos hr]
      by_cases hc : isWs c
      · rw [if_pos hc]
        rfl
      · rw [if_neg hc]
        show (c == c && pfx [] cs) = true
        simp [pfx]
    · rw [if_neg hr]
      show (c == c && pfx (rtrimJS cs) cs) = true
      rw [Bool.and_eq_true]
      exact ⟨by simp, pfx_rtrim cs⟩

theorem ltrim_mem {x : Char} : ∀ {l : List Char}, x ∈ ltrimJS l → x ∈ l := by
  intro l h
  rw [ltrim_eq_dropWhile] at h
  exact List.dropWhile_subset _ h

theorem rtrim_mem {x : Char} {l : List Char} (h : x ∈ rtrimJS l) : x ∈ l := by
  rcases (pfx_iff _ _).1 (pfx_rtrim l) with ⟨t, ht⟩
  rw [ht]
  exact List.mem_append_left _ h

theorem trim_mem {x : Char} {l : List Char} (h : x ∈ trimJS l) : x ∈ l :=
  ltrim_mem (rtrim_mem h)

theorem escape_id_of_plain : ∀ {l : List Char},
    (∀ c ∈ l, ¬ c = '&' ∧ ¬ c = '<' ∧ ¬ c = '>' ∧ ¬ c = '\u00A0') → escapeHtml l = l
  | [], _ => rfl
  | c :: cs, h => by
    obtain ⟨h1, h2, h3, h4⟩ := h c (List.mem_cons_self ..)
    show escChar c ++ escapeHtml cs = c :: cs
    rw [show escChar c = [c] by unfold escChar; simp [h1, h2, h3, h4]]
    rw [escape_id_of_plain (fun d hd => h d (List.mem_cons_of_mem _ hd))]
    rfl

theorem brStep_id : ∀ {l : List Char}, (∀ c ∈ l, ¬ c = '\n') → brStep l = l
  | [], _ => rfl
  | c :: cs, h => by
    show (if c == '\n' then "<br>".data else [c]) ++ brStep cs = c :: cs
    rw [if_neg (by simpa using h c (List.mem_cons_self ..))]
    rw [brStep_id (fun d hd => h d (List.mem_cons_of_mem _ hd))]
    rfl

theorem noNN_of_no_nl : ∀ {l : List Char}, (∀ c ∈ l, ¬ c = '\n') → noNN l = true
  | [], _ => rfl
  | [_], _ => rfl
  | a :: b :: t, h => by
    show (!(a == '\n' && b == '\n') && noNN (b :: t)) = true
    rw [Bool.and_eq_true]
    refine ⟨not_nn_beq ?_, noNN_of_no_nl (fun d hd => h d (List.mem_cons_of_mem _ hd))⟩
    rintro ⟨rfl, -⟩
    exact h '\n' (List.mem_cons_self ..) rfl

theorem mdLines_of_no_term : ∀ {l : List Char},
    (∀ c ∈ l, isLineTerm c = false) → mdLines l = true
  | [], _ => rfl
  | c :: cs, h => by
    show ((!(isLineTerm c) || !(lineBad cs)) && mdLines cs) = true
    rw [Bool.and_eq_true]
    constructor
    · rw [h c (List.mem_cons_self ..)]
      rfl
    · exact mdLines_of_no_term (fun d hd => h d (List.mem_cons_of_mem _ hd))

theorem takeWhile_digit_block (ds y : List Char)
    (hds : ∀ d ∈ ds, isDigitC d = true) :
    (ds ++ '.' :: y).takeWhile isDigitC = ds ∧
      (ds ++ '.' :: y).drop ds.length = '.' :: y := by
  constructor
  · induction ds with
    | nil => rw [List.nil_append, List.takeWhile_cons_of_neg (by decide)]
    | cons d ds ih =>
      rw [List.cons_append,
        List.takeWhile_cons_of_pos (hds d (List.mem_cons_self ..))]
      rw [ih (fun e he => hds e (List.mem_cons_of_mem _ he))]
  · exact List.drop_left ds ('.' :: y)

theorem markdownFree_build {l : List Char}
    (h1 : ∀ c ∈ l, (c == '`') = false) (h2 : ∀ c ∈ l, (c == '*') = false)
    (h3 : lineBad l = false) (h4 : mdLines l = true) : markdownFree l = true := by
  unfold markdownFree
  simp only [Bool.and_eq_true]
  exact ⟨⟨⟨List.all_eq_true.mpr (fun c hc => by rw [h1 c hc]; rfl),
    List.all_eq_true.mpr (fun c hc => by rw [h2 c hc]; rfl)⟩,
    by rw [h3]; rfl⟩, h4⟩

/-- A head of the left-trimmed text is not whitespace. -/
theorem ltrim_head_not_ws : ∀ {l : List Char} {c : Char} {cs : List Char},
    ltrimJS l = c :: cs → isWs c = false := by
  intro l
  induction l with
  | nil => intro c cs hx; simp [ltrimJS] at hx
  | cons d ds ih =>
    intro c cs hx
    unfold ltrimJS at hx
    by_cases hd : isWs d
    · rw [if_pos hd] at hx
      exact ih hx
    · rw [if_neg hd] at hx
      injection hx with h1 h2
      cases hq : isWs c
      · rfl
      · rw [← h1] at hq
        exact absurd hq hd

/-- `lineBad` stays false after trimming. -/
theorem lineBad_trim {l : List Char} (hlb : lineBad l = false) :
    lineBad (trimJS l) = false := by
  unfold trimJS
  rcases hx : ltrimJS l with _ | ⟨c, cs⟩
  · rw [show rtrimJS [] = [] from rfl]
    rfl
  · have hc : isWs c = false := ltrim_head_not_ws hx
    rcases rtrimJS_cons_not_ws c cs hc with ⟨t, ht⟩
    rw [ht]
    have hpre : pfx (c :: t) (c :: cs) = true := by
      have h1 := pfx_rtrim (c :: cs)
      rw [ht] at h1
      exact h1
    obtain ⟨hA, hB, hC, hD, hE⟩ := lineBad_parts hlb
    rw [ltrim_eq_dropWhile] at hx
    rw [hx] at hA hB hC hD hE
    unfold lineBad
    rw [List.dropWhile_cons_of_neg (by rw [hc]; exact Bool.false_ne_true)]
    simp only [Bool.or_eq_false_iff]
    refine ⟨⟨⟨⟨?_, ?_⟩, ?_⟩, ?_⟩, ?_⟩
    · rw [pfx_one]; rw [pfx_one] at hA; exact hA
    · rw [pfx_one]; rw [pfx_one] at hB; exact hB
    · rw [pfx_one]; rw [pfx_one] at hC; exact hC
    · rw [pfx_one]; rw [pfx_one] at hD; exact hD
    · rw [Bool.and_eq_false_iff]
      by_cases hds : ((c :: t).takeWhile isDigitC).isEmpty = true
      · exact Or.inl (by rw [hds]; rfl)
      · right
        cases hdot : pfx ".".data ((c :: t).drop ((c :: t).takeWhile isDigitC).length)
        · rfl
        · exfalso
          rw [dropWhile_drop_takeWhile] at hdot
          rcases pfx_single.1 hdot with ⟨y, hy⟩
          have hsplit : (c :: t) = ((c :: t).takeWhile isDigitC) ++ '.' :: y := by
            conv_lhs => rw [← List.takeWhile_append_dropWhile (p := isDigitC) (l := c :: t)]
            rw [hy]
          have hdig : ∀ d ∈ (c :: t).takeWhile isDigitC, isDigitC d = true :=
            fun d hd => List.mem_takeWhile_imp hd
          have hpre2 : pfx (((c :: t).takeWhile isDigitC) ++ ['.']) (c :: cs) = true := by
            apply pfx_trans _ hpre
            apply (pfx_iff _ _).2
            refine ⟨y, ?_⟩
            conv_lhs => rw [hsplit]
            simp
          rcases (pfx_iff _ _).1 hpre2 with ⟨z, hz⟩
          have hz' : (c :: cs) = ((c :: t).takeWhile isDigitC) ++ '.' :: z := by
            rw [hz]
            simp
          obtain ⟨htw, hdr⟩ := takeWhile_digit_block _ z hdig
          rw [← hz'] at htw hdr
          rw [Bool.and_eq_false_iff] at hE
          rcases hE with hE | hE
          · rw [htw] at hE
            cases hb : ((c :: t).takeWhile isDigitC).isEmpty
            · rw [hb] at hE
              exact absurd hE (by decide)
            · exact hds hb
          · rw [htw, hdr] at hE
            rw [pfx_one] at hE
            exact absurd hE (by decide)

/-- Helper: `makeApiCall` never emits an `appendUser` effect. -/
theorem makeApiCall_no_appendUser (st : SubmitState) (resp : HttpResponse) :
    ∀ e ∈ (makeApiCall st resp).1, isAppendUser e = false := by
  intro e he
  unfold makeApiCall at he
  cases hok : resp.ok
  · rw [hok] at he
    simp at he
    rcases he with h | h <;> subst h <;> rfl
  · rw [hok] at he
    cases herr : truthy resp.body.error <;> rw [herr] at he <;> simp at he <;>
      rcases he with h | h <;> subst h <;> rfl

/-- Helper: `makeApiCall` emits an `appendBot` effect only for a 2xx
response whose `error` field is falsy (script.js 132-144). -/
theorem appendBot_only_on_success (st : SubmitState) (resp : HttpResponse) (hh : String)
    (hmem : Effect.appendBot hh ∈ (makeApiCall st resp).1) :
    resp.ok = true ∧ truthy resp.body.error = false := by
  unfold makeApiCall at hmem
  cases hok : resp.ok with
  | false => simp [hok] at hmem
  | true =>
    cases herr : truthy resp.body.error with
    | true => simp [hok, herr] at hmem
    | false => exact ⟨rfl, rfl⟩

/-- C8: the fenced block ```` ```python\nprint(1)\n``` ```` renders to
exactly `<pre><code class="language-python">print(1)</code></pre>`, with no
additional tags introduced by the later steps. -/
theorem fence_example_renders_to_pre_code :
    advancedMarkdownToHtml "```python\nprint(1)\n```" =
      "<pre><code class=\"language-python\">print(1)</code></pre>" := by decide

/-- C5: `advancedMarkdownToHtml` is a total function (it is a Lean `def`,
defined on every `String`); the empty input returns the empty string, and an
unterminated triple-backtick fence is not matched as a code block: it stays
as literal escaped text (with the newline turned into `<br>` by the final
step), rather than crashing. -/
theorem renderer_totality_edge_cases :
    advancedMarkdownToHtml "" = "" ∧
    advancedMarkdownToHtml "```python\nprint(1)" = "```python<br>print(1)" := by decide

/-- C3 counterexample: `"a\n\nb"` contains no markdown tokens, yet the
renderer wraps the run after the blank line in `<p>…</p>`, so the output is
not the escaped input with newlines turned into `<br>`. -/
theorem render_plain_text_counterexample :
    advancedMarkdownToHtml "a\n\nb" = "a<br><br><p>b</p>" ∧
    renderPlainSpec "a\n\nb" = "a<br><br>b" ∧
    advancedMarkdownToHtml "a\n\nb" ≠ renderPlainSpec "a\n\nb" := by decide

/-- C7 counterexample: the DOM-based `escapeHtml` re-escapes the ampersand
of an entity it produced, so rendering is not idempotent on the
markdown-free input `"&"`: `render "&" = "&amp;"` but
`render (render "&") = "&amp;amp;"`. -/
theorem render_idempotent_counterexample :
    advancedMarkdownToHtml "&" = "&amp;" ∧
    advancedMarkdownToHtml (advancedMarkdownToHtml "&") = "&amp;amp;" ∧
    advancedMarkdownToHtml (advancedMarkdownToHtml "&") ≠ advancedMarkdownToHtml "&" := by
  decide

/-- C3 amended: for every input with no markdown tokens and no blank line
(no two consecutive newlines), the renderer output equals the HTML-escaped
input with every newline turned into `<br>`, trimmed.  (The blank-line
restriction is forced by the counterexample: a blank line triggers the
paragraph-wrapping step.) -/
theorem render_plain_text_amended (raw : String)
    (hmf : markdownFree raw.data = true) (hnn : noNN raw.data = true) :
    advancedMarkdownToHtml raw = renderPlainSpec raw := by
  by_cases hraw : raw = ""
  · subst hraw
    rfl
  · unfold advancedMarkdownToHtml renderPlainSpec
    rw [if_neg hraw, steps_id_on_plain raw.data hmf hnn]

/-- Witness for `render_plain_text_amended`: markdown-free text with HTML
metacharacters and a newline. -/
theorem render_plain_text_amended_witness :
    markdownFree ("Hello & <world>\nbye").data = true ∧
    noNN ("Hello & <world>\nbye").data = true ∧
    advancedMarkdownToHtml "Hello & <world>\nbye" =
      renderPlainSpec "Hello & <world>\nbye" :=
  ⟨by decide, by decide, render_plain_text_amended _ (by decide) (by decide)⟩

/-- C7 amended: the renderer is idempotent on markdown-free inputs that
contain no character the escaping step rewrites (`&`, `<`, `>`, U+00A0) and
no line breaks.  (The exclusions are forced: `escapeHtml` re-escapes the
`&` of entities it just produced, and a rendered `<br>` would be
re-escaped on the second pass.) -/
theorem render_idempotent_amended (raw : String)
    (hmf : markdownFree raw.data = true)
    (hch : ∀ c ∈ raw.data, ¬ c = '&' ∧ ¬ c = '<' ∧ ¬ c = '>' ∧ ¬ c = ' ' ∧
      ¬ c = '\n' ∧ ¬ c = '\r') :
    advancedMarkdownToHtml (advancedMarkdownToHtml raw) = advancedMarkdownToHtml raw := by
  by_cases hraw : raw = ""
  · subst hraw
    rfl
  · have hesc : escapeHtml raw.data = raw.data :=
      escape_id_of_plain (fun c hc =>
        ⟨(hch c hc).1, (hch c hc).2.1, (hch c hc).2.2.1, (hch c hc).2.2.2.1⟩)
    have hnn : noNN raw.data = true :=
      noNN_of_no_nl (fun c hc => (hch c hc).2.2.2.2.1)
    have hbr : brStep raw.data = raw.data :=
      brStep_id (fun c hc => (hch c hc).2.2.2.2.1)
    have hfirst : advancedMarkdownToHtml raw = (⟨trimJS raw.data⟩ : String) := by
      unfold advancedMarkdownToHtml
      rw [if_neg hraw, steps_id_on_plain raw.data hmf hnn, hesc, hbr]
    rw [hfirst]
    by_cases hTe : (⟨trimJS raw.data⟩ : String) = ""
    · rw [hTe]
      rfl
    · have hTdata : (⟨trimJS raw.data⟩ : String).data = trimJS raw.data := rfl
      have hsubT : ∀ c ∈ (⟨trimJS raw.data⟩ : String).data, c ∈ raw.data :=
        fun c hc => trim_mem hc
      have hmfT : markdownFree (⟨trimJS raw.data⟩ : String).data = true := by
        apply markdownFree_build
        · intro c hc
          exact (markdownFree_parts hmf).1 c (hsubT c hc)
        · intro c hc
          exact (markdownFree_parts hmf).2.1 c (hsubT c hc)
        · exact lineBad_trim (markdownFree_parts hmf).2.2.1
        · refine mdLines_of_no_term (fun c hc => ?_)
          obtain ⟨-, -, -, -, h5, h6⟩ := hch c (hsubT c hc)
          unfold isLineTerm
          simp [h5, h6]
      have hescT : escapeHtml (⟨trimJS raw.data⟩ : String).data =
          (⟨trimJS raw.data⟩ : String).data :=
        escape_id_of_plain (fun c hc =>
          ⟨(hch c (hsubT c hc)).1, (hch c (hsubT c hc)).2.1,
            (hch c (hsubT c hc)).2.2.1, (hch c (hsubT c hc)).2.2.2.1⟩)
      have hnnT : noNN (⟨trimJS raw.data⟩ : String).data = true :=
        noNN_of_no_nl (fun c hc => (hch c (hsubT c hc)).2.2.2.2.1)
      have hbrT : brStep (⟨trimJS raw.data⟩ : String).data =
          (⟨trimJS raw.data⟩ : String).data :=
        brStep_id (fun c hc => (hch c (hsubT c hc)).2.2.2.2.1)
      unfold advancedMarkdownToHtml
      rw [if_neg hTe, steps_id_on_plain _ hmfT hnnT, hescT, hbrT]
      rw [hTdata, trimJS_idem]

/-- Witness for `render_idempotent_amended`: plain text. -/
theorem render_idempotent_amended_witness :
    markdownFree ("hello world").data = true ∧
    advancedMarkdownToHtml (advancedMarkdownToHtml "hello world") =
      advancedMarkdownToHtml "hello world" :=
  ⟨by decide, render_idempotent_amended "hello world" (by decide) (by decide)⟩

/-- C2 counterexample: for a non-2xx response with
`{error: "Bad input", details: "missing field"}` the client shows
`data.details || data.error || …` (script.js 133), i.e. exactly
`"missing field"` — not the concatenation `"Bad input: missing field"` —
and appends no assistant message. -/
theorem error_notification_counterexample :
    (makeApiCall ⟨"", none⟩ badInputResponse).1 =
      [.hideLoading, .showError "missing field"] ∧
    Effect.showError "Bad input: missing field" ∉ (makeApiCall ⟨"", none⟩ badInputResponse).1 ∧
    (makeApiCall ⟨"", none⟩ badInputResponse).1.all (fun e => !isAppendBot e) = true := by
  decide

/-- C2 amended: for every non-2xx response whose `details` field is truthy,
the notification text is exactly the `details` string (falling back to
`error`, then to a generic server-error string, only when `details` is
falsy), and no assistant message is appended. -/
theorem error_notification_amended (st : SubmitState) (resp : HttpResponse)
    (hok : resp.ok = false) (hd : truthy resp.body.details = true) :
    (makeApiCall st resp).1 =
      [.hideLoading, .showError (resp.body.details.getD "")] ∧
    (makeApiCall st resp).1.all (fun e => !isAppendBot e) = true := by
  rcases hdet : resp.body.details with _ | s
  · rw [hdet] at hd; simp [truthy] at hd
  · have hs : (s != "") = true := by rw [hdet] at hd; simpa [truthy] using hd
    have hs' : ¬(s = "") := by simpa using hs
    constructor
    · unfold makeApiCall
      simp [hok, jsOr, truthy, hdet, hs, hs']
    · unfold makeApiCall
      simp [hok, jsOr, truthy, hdet, hs, hs', isAppendBot]

/-- Witness for `error_notification_amended` at the concrete response of the
claim. -/
theorem error_notification_amended_witness :
    badInputResponse.ok = false ∧ truthy badInputResponse.body.details = true ∧
    (makeApiCall ⟨"", none⟩ badInputResponse).1 =
      [.hideLoading, .showError (badInputResponse.body.details.getD "")] :=
  ⟨rfl, rfl, (error_notification_amended ⟨"", none⟩ badInputResponse rfl rfl).1⟩

/-- C6: an empty submission (trimmed text empty, no image) only shows the
validation message; no API call, no transcript append, and the pending
submission state is returned unchanged. -/
theorem empty_submission_rejected (st : SubmitState) (rres : ReadResult)
    (resp : HttpResponse) (h1 : trimS st.messageInput = "")
    (h2 : st.selectedImage = none) :
    handleSubmit st rres resp =
      ([.showError "Please enter a message or upload an image."], st) ∧
    (handleSubmit st rres resp).1.all
      (fun e => !isApiCall e && !isAppendUser e && !isAppendBot e) = true := by
  have hmain : handleSubmit st rres resp =
      ([.showError "Please enter a message or upload an image."], st) := by
    unfold handleSubmit; simp [h1, h2]
  exact ⟨hmain, by rw [hmain]; rfl⟩

/-- Witness for `empty_submission_rejected`: whitespace-only text, no
image. -/
theorem empty_submission_rejected_witness :
    trimS " " = "" ∧
    handleSubmit ⟨" ", none⟩ .failure sampleOk =
      ([.showError "Please enter a message or upload an image."], ⟨" ", none⟩) :=
  ⟨by decide, (empty_submission_rejected ⟨" ", none⟩ .failure sampleOk (by decide) rfl).1⟩

/-- C4 counterexample: an image-only submission (empty text, image
selected) issues the API call but appends no user message, because
`addUserMessage` returns early on text that trims to empty (script.js
158). -/
theorem image_only_submission_counterexample :
    (handleSubmit ⟨"", some "IMG"⟩ (.success "B64") sampleOk).1.all
      (fun e => !isAppendUser e) = true ∧
    (handleSubmit ⟨"", some "IMG"⟩ (.success "B64") sampleOk).1.any isApiCall = true := by
  decide

/-- C4 amended: for every accepted submission, the user's message is
appended synchronously as the first effect — before the API call — exactly
when the trimmed text is nonempty; an image-only submission with empty text
appends no user message at all; and the assistant message is appended only
on a 2xx response with a falsy `error` field. -/
theorem user_append_ordering_amended (st : SubmitState) (rres : ReadResult)
    (resp : HttpResponse) (h : ¬(trimS st.messageInput = "" ∧ st.selectedImage = none)) :
    (trimS st.messageInput ≠ "" →
      (handleSubmit st rres resp).1.head? =
        some (.appendUser (userMessageHtml (trimS st.messageInput)))) ∧
    (trimS st.messageInput = "" →
      (handleSubmit st rres resp).1.all (fun e => !isAppendUser e) = true) ∧
    (∀ hh, Effect.appendBot hh ∈ (handleSubmit st rres resp).1 →
      resp.ok = true ∧ truthy resp.body.error = false) := by
  have hidem : trimS (trimS st.messageInput) = trimS st.messageInput :=
    congrArg String.mk (trimJS_idem _)
  have h0 : trimS "" = "" := rfl
  have hbotU := makeApiCall_no_appendUser (⟨"", none⟩ : SubmitState) resp
  by_cases hst : trimS st.messageInput = ""
  · rcases himg : st.selectedImage with _ | img
    · exact absurd ⟨hst, himg⟩ h
    · cases rres with
      | success b64 =>
        refine ⟨fun hn => absurd hst hn, fun _ => ?_, fun hh hmem => ?_⟩
        · simp only [handleSubmit, himg, hst, hidem, h0]
          simp [h0, isAppendUser]
          exact fun x hx => hbotU x hx
        · simp only [handleSubmit, himg, hst, hidem, h0] at hmem
          simp [h0] at hmem
          exact appendBot_only_on_success _ resp hh hmem
      | failure =>
        refine ⟨fun hn => absurd hst hn, fun _ => ?_, fun hh hmem => ?_⟩
        · simp only [handleSubmit, himg, hst, hidem, h0]
          simp [h0, isAppendUser]
        · simp only [handleSubmit, himg, hst, hidem, h0] at hmem
          simp [h0] at hmem
  · have hsplit : ¬(trimS st.messageInput = "" ∧ st.selectedImage = none) := fun hc => hst hc.1
    rcases himg : st.selectedImage with _ | img
    · refine ⟨fun _ => ?_, fun hn => absurd hn hst, fun hh hmem => ?_⟩
      · simp only [handleSubmit, himg, hidem]
        simp [hst]
      · simp only [handleSubmit, himg, hidem] at hmem
        simp [hst] at hmem
        exact appendBot_only_on_success _ resp hh hmem
    · cases rres with
      | success b64 =>
        refine ⟨fun _ => ?_, fun hn => absurd hn hst, fun hh hmem => ?_⟩
        · simp only [handleSubmit, himg, hidem]
          simp [hst]
        · simp only [handleSubmit, himg, hidem] at hmem
          simp [hst] at hmem
          exact appendBot_only_on_success _ resp hh hmem
      | failure =>
        refine ⟨fun _ => ?_, fun hn => absurd hn hst, fun hh hmem => ?_⟩
        · simp only [handleSubmit, himg, hidem]
          simp [hst]
        · simp only [handleSubmit, himg, hidem] at hmem
          simp [hst] at hmem

/-- Witness for `user_append_ordering_amended`: nonempty text and no
image. -/
theorem user_append_ordering_amended_witness :
    ¬(trimS "hi" = "" ∧ (none : Option String) = none) ∧
    (handleSubmit ⟨"hi", none⟩ .failure sampleOk).1.head? =
      some (.appendUser (userMessageHtml (trimS "hi"))) := by
  refine ⟨by decide, ?_⟩
  exact (user_append_ordering_amended ⟨"hi", none⟩ .failure sampleOk
    (by intro hc; exact absurd hc.1 (by decide))).1 (by decide)

/-- C9: the free-form `response` field is rendered only when all three
structured fields are falsy; whenever at least one structured field is
present the built assistant HTML does not depend on `response` at all
(script.js 214-216). -/
theorem response_field_ignored_when_structured (d : SolveResponseBody)
    (h : (truthy d.solution || truthy d.explanation || truthy d.practice_questions) = true) :
    addBotMessageHtml d = addBotMessageHtml {d with response := none} := by
  cases hs : truthy d.solution <;> cases he : truthy d.explanation <;>
    cases hp : truthy d.practice_questions <;>
    simp_all [addBotMessageHtml, truthy]

/-- Witness for `response_field_ignored_when_structured`: a response with a
solution and a `response` field. -/
theorem response_field_ignored_when_structured_witness :
    (truthy structuredData.solution || truthy structuredData.explanation ||
      truthy structuredData.practice_questions) = true ∧
    addBotMessageHtml structuredData =
      addBotMessageHtml {structuredData with response := none} :=
  ⟨by decide, response_field_ignored_when_structured structuredData (by decide)⟩

/-- C10: a truthy `image_url` is interpolated verbatim — with no escaping or
validation — as the `src` attribute appended after the sections, regardless
of the other fields (script.js 219-221). -/
theorem image_url_interpolated_verbatim (d : SolveResponseBody) (u : String)
    (h1 : d.image_url = some u) (h2 : u ≠ "") :
    addBotMessageHtml d =
      addBotMessageHtml {d with image_url := none} ++
        ("<img src=\"" ++ u ++ "\" alt=\"Response Image\" class=\"message-image\">") := by
  unfold addBotMessageHtml
  simp [h1, truthy, h2]

/-- Witness for `image_url_interpolated_verbatim`: an `image_url` carrying
attribute-injecting markup is emitted unsanitized. -/
theorem image_url_interpolated_verbatim_witness :
    xssData.image_url = some "x\" onerror=\"alert(1)" ∧
    addBotMessageHtml xssData =
      addBotMessageHtml {xssData with image_url := none} ++
        ("<img src=\"" ++ "x\" onerror=\"alert(1)" ++
          "\" alt=\"Response Image\" class=\"message-image\">") :=
  ⟨rfl, image_url_interpolated_verbatim xssData "x\" onerror=\"alert(1)" rfl (by decide)⟩

/-! ## Well-taggedness: the tag scanner -/

theorem scanTag_sound : ∀ {y b r : List Char}, scanTag y = some (b, r) →
    y = b ++ '>' :: r ∧ ∀ x ∈ b, ¬ x = '>'
  | [], b, r, h => by simp [scanTag] at h
  | c :: cs, b, r, h => by
    unfold scanTag at h
    by_cases hc : c = '>'
    · rw [if_pos (by simp [hc])] at h
      injection h with h
      injection h with h1 h2
      subst hc
      rw [← h1, ← h2]
      exact ⟨rfl, by intro x hx; simp at hx⟩
    · rw [if_neg (by simp [hc])] at h
      cases hs : scanTag cs with
      | none => rw [hs] at h; exact absurd h (by simp)
      | some br =>
        obtain ⟨b2, r2⟩ := br
        rw [hs] at h
        injection h with h
        injection h with h1 h2
        obtain ⟨he, hb⟩ := scanTag_sound hs
        subst h1
        rw [← h2, he]
        refine ⟨rfl, ?_⟩
        intro x hx
        rcases List.mem_cons.mp hx with rfl | hx2
        · exact hc
        · exact hb x hx2

theorem scanTag_complete : ∀ (b r : List Char), (∀ x ∈ b, ¬ x = '>') →
    scanTag (b ++ '>' :: r) = some (b, r)
  | [], r, _ => by simp [scanTag]
  | c :: b, r, h => by
    have hc : ¬ c = '>' := h c (List.mem_cons_self c b)
    show scanTag (c :: (b ++ '>' :: r)) = some (c :: b, r)
    unfold scanTag
    rw [if_neg (by simp [hc]),
      scanTag_complete b r (fun x hx => h x (List.mem_cons_of_mem c hx))]

theorem wtF_congr : ∀ (f : Nat) (s : List Char) (g : Nat),
    s.length ≤ f → s.length ≤ g → wtF f s = wtF g s := by
  intro f
  induction f with
  | zero =>
    intro s g hf _
    have hs : s = [] := List.length_eq_zero.mp (Nat.le_zero.mp hf)
    subst hs
    cases g <;> rfl
  | succ f ih =>
    intro s g hf hg
    cases s with
    | nil => cases g <;> rfl
    | cons c cs =>
      match g, hg with
      | g' + 1, hg =>
        show wtF (f + 1) (c :: cs) = wtF (g' + 1) (c :: cs)
        have hlen : cs.length ≤ f := by
          have := hf; simp only [List.length_cons] at this; omega
        have hlen2 : cs.length ≤ g' := by
          have := hg; simp only [List.length_cons] at this; omega
        unfold wtF
        by_cases hc : c = '<'
        · rw [if_pos (by simp [hc]), if_pos (by simp [hc])]
          cases hs : scanTag cs with
          | none => rfl
          | some br =>
            obtain ⟨b, r⟩ := br
            obtain ⟨he, _⟩ := scanTag_sound hs
            have hr : r.length ≤ cs.length := by
              rw [he]; simp only [List.length_append, List.length_cons]; omega
            show (allowedBody b && wtF f r) = (allowedBody b && wtF g' r)
            rw [ih r g' (le_trans hr hlen) (le_trans hr hlen2)]
        · by_cases hc2 : c = '>'
          · subst hc2
            rfl
          · have h3 := ih cs g' hlen hlen2
            simp only [if_neg (show ¬ ((c == '<') = true) from by simp [hc]),
              if_neg (show ¬ ((c == '>') = true) from by simp [hc2]), h3]

theorem wt_gt (s : List Char) : wt ('>' :: s) = false := by
  show wtF (s.length + 1) ('>' :: s) = false
  unfold wtF
  rw [if_neg (by decide), if_pos (by decide)]

theorem wt_cons_chr {c : Char} (s : List Char) (h1 : ¬ c = '<') (h2 : ¬ c = '>') :
    wt (c :: s) = wt s := by
  show wtF (s.length + 1) (c :: s) = wt s
  unfold wtF
  rw [if_neg (by simp [h1]), if_neg (by simp [h2])]
  rfl

theorem wt_tag (bd r : List Char) (hgt : ∀ x ∈ bd, ¬ x = '>') :
    wt ('<' :: (bd ++ '>' :: r)) = (allowedBody bd && wt r) := by
  show wtF ((bd ++ '>' :: r).length + 1) ('<' :: (bd ++ '>' :: r)) = _
  unfold wtF
  rw [if_pos (by decide), scanTag_complete bd r hgt]
  show (allowedBody bd && wtF (bd ++ '>' :: r).length r) = _
  have hr : r.length ≤ (bd ++ '>' :: r).length := by
    simp only [List.length_append, List.length_cons]; omega
  rw [wtF_congr _ r r.length hr le_rfl]
  rfl

theorem wt_lt_inv {u : List Char} (h : wt ('<' :: u) = true) :
    ∃ bd r, u = bd ++ '>' :: r ∧ (∀ x ∈ bd, ¬ x = '>') ∧
      allowedBody bd = true ∧ wt r = true := by
  have h' : wtF (u.length + 1) ('<' :: u) = true := h
  unfold wtF at h'
  rw [if_pos (by decide)] at h'
  cases hs : scanTag u with
  | none => rw [hs] at h'; exact absurd h' (by simp)
  | some br =>
    obtain ⟨bd, r⟩ := br
    rw [hs] at h'
    have h2 : (allowedBody bd && wtF u.length r) = true := h'
    rw [Bool.and_eq_true] at h2
    obtain ⟨he, hb⟩ := scanTag_sound hs
    refine ⟨bd, r, he, hb, h2.1, ?_⟩
    have hr : r.length ≤ u.length := by
      rw [he]; simp only [List.length_append, List.length_cons]; omega
    show wtF r.length r = true
    rw [← wtF_congr u.length r r.length hr le_rfl]
    exact h2.2

theorem first_gt_unique {a b c d : List Char}
    (he : a ++ '>' :: b = c ++ '>' :: d)
    (ha : ∀ x ∈ a, ¬ x = '>') (hc : ∀ x ∈ c, ¬ x = '>') :
    a = c ∧ b = d := by
  rcases List.append_eq_append_iff.mp he with ⟨e, h1, h2⟩ | ⟨e, h1, h2⟩
  · cases e with
    | nil =>
      rw [List.append_nil] at h1
      rw [List.nil_append] at h2
      injection h2 with _ h3
      exact ⟨h1.symm, h3⟩
    | cons x e' =>
      exfalso
      injection h2 with hx _
      have hmem : x ∈ c := by
        rw [h1]; exact List.mem_append_right a (List.mem_cons_self _ _)
      exact hc x hmem hx.symm
  · cases e with
    | nil =>
      rw [List.append_nil] at h1
      rw [List.nil_append] at h2
      injection h2 with _ h3
      exact ⟨h1, h3.symm⟩
    | cons x e' =>
      exfalso
      injection h2 with hx _
      have hmem : x ∈ a := by
        rw [h1]; exact List.mem_append_right c (List.mem_cons_self _ _)
      exact ha x hmem hx.symm

/-! ## Characters of allowed tag bodies -/

theorem isClassBody_inv {b : List Char} (h : isClassBody b = true) :
    ∃ mid, b = "code class=\"language-".data ++ mid ++ ['"'] ∧
      ∀ x ∈ mid, isLower x = true := by
  unfold isClassBody at h
  rw [Bool.and_eq_true] at h
  obtain ⟨hp, he⟩ := h
  obtain ⟨t, ht⟩ := (pfx_iff _ _).1 hp
  have hd : b.drop ("code class=\"language-".data).length = t := by
    rw [ht, List.drop_left]
  rw [hd] at he
  have he2 : t.dropWhile isLower = ['"'] := by simpa using he
  refine ⟨t.takeWhile isLower, ?_, fun x hx => List.mem_takeWhile_imp hx⟩
  rw [ht, List.append_assoc, ← he2, List.takeWhile_append_dropWhile]

theorem allowedBody_chars {bd : List Char} (h : allowedBody bd = true) :
    ∀ x ∈ bd, ¬ x = '<' ∧ ¬ x = '>' ∧ ¬ x = '`' ∧ ¬ x = '*' ∧
      ¬ x = '\n' ∧ ¬ x = '\r' := by
  unfold allowedBody at h
  rw [Bool.or_eq_true] at h
  rcases h with h | h
  · have hmem : bd ∈ fixedBodies := by simpa using h
    simp only [fixedBodies, List.mem_cons, List.not_mem_nil, or_false] at hmem
    rcases hmem with rfl | rfl | rfl | rfl | rfl | rfl | rfl | rfl | rfl | rfl |
      rfl | rfl | rfl | rfl | rfl | rfl | rfl | rfl | rfl | rfl | rfl | rfl |
      rfl <;> decide
  · obtain ⟨mid, rfl, hml⟩ := isClassBody_inv h
    have hpre : ∀ x ∈ "code class=\"language-".data,
        ¬ x = '<' ∧ ¬ x = '>' ∧ ¬ x = '`' ∧ ¬ x = '*' ∧
          ¬ x = '\n' ∧ ¬ x = '\r' := by decide
    have hq : ∀ x ∈ ['"'],
        ¬ x = '<' ∧ ¬ x = '>' ∧ ¬ x = '`' ∧ ¬ x = '*' ∧
          ¬ x = '\n' ∧ ¬ x = '\r' := by decide
    intro x hx
    rcases List.mem_append.mp hx with hx1 | hx2
    · rcases List.mem_append.mp hx1 with hx3 | hx4
      · exact hpre x hx3
      · have hl := hml x hx4
        refine ⟨?_, ?_, ?_, ?_, ?_, ?_⟩ <;>
          (rintro rfl; exact absurd hl (by decide))
    · exact hq x hx2

/-! ## Appending and splitting well-tagged strings -/

theorem wt_append_free : ∀ (x u : List Char),
    (∀ c ∈ x, ¬ c = '<' ∧ ¬ c = '>') → wt (x ++ u) = wt u
  | [], _, _ => rfl
  | c :: x, u, h => by
    have hc := h c (List.mem_cons_self _ _)
    show wt (c :: (x ++ u)) = wt u
    rw [wt_cons_chr _ hc.1 hc.2,
      wt_append_free x u (fun d hd => h d (List.mem_cons_of_mem c hd))]

theorem wt_of_no_angle {s : List Char} (h : ∀ c ∈ s, ¬ c = '<' ∧ ¬ c = '>') :
    wt s = true := by
  have h2 := wt_append_free s [] h
  rw [List.append_nil] at h2
  rw [h2]
  rfl

theorem wt_append_right_n : ∀ (n : Nat) (a b : List Char), a.length ≤ n →
    wt a = true → wt (a ++ b) = wt b := by
  intro n
  induction n with
  | zero =>
    intro a b ha _
    have h0 : a = [] := List.length_eq_zero.mp (Nat.le_zero.mp ha)
    subst h0; rfl
  | succ n ih =>
    intro a b ha hwt
    cases a with
    | nil => rfl
    | cons c cs =>
      by_cases hlt : c = '<'
      · subst hlt
        obtain ⟨bd, r, he, hgt, hab, hr⟩ := wt_lt_inv hwt
        subst he
        show wt ('<' :: ((bd ++ '>' :: r) ++ b)) = wt b
        have hre : (bd ++ '>' :: r) ++ b = bd ++ '>' :: (r ++ b) := by simp
        rw [hre, wt_tag _ _ hgt, hab, Bool.true_and]
        have hrlen : r.length ≤ n := by
          have h2 := ha
          simp only [List.length_cons, List.length_append] at h2
          omega
        exact ih r b hrlen hr
      · by_cases hgtc : c = '>'
        · subst hgtc; rw [wt_gt] at hwt; exact absurd hwt (by decide)
        · show wt (c :: (cs ++ b)) = wt b
          rw [wt_cons_chr _ hlt hgtc]
          rw [wt_cons_chr _ hlt hgtc] at hwt
          have hlen : cs.length ≤ n := by
            have h2 := ha
            simp only [List.length_cons] at h2
            omega
          exact ih cs b hlen hwt

theorem wt_append_right (a b : List Char) (h : wt a = true) :
    wt (a ++ b) = wt b :=
  wt_append_right_n a.length a b le_rfl h

theorem wt_append {a b : List Char} (ha : wt a = true) (hb : wt b = true) :
    wt (a ++ b) = true := by
  rw [wt_append_right a b ha]; exact hb

theorem wt_split_at_lt_n : ∀ (n : Nat) (a b : List Char), a.length ≤ n →
    wt (a ++ '<' :: b) = true → wt a = true ∧ wt ('<' :: b) = true := by
  intro n
  induction n with
  | zero =>
    intro a b ha h
    have h0 : a = [] := List.length_eq_zero.mp (Nat.le_zero.mp ha)
    subst h0
    exact ⟨rfl, h⟩
  | succ n ih =>
    intro a b ha h
    cases a with
    | nil => exact ⟨rfl, h⟩
    | cons c cs =>
      by_cases hlt : c = '<'
      · subst hlt
        have h' : wt ('<' :: (cs ++ '<' :: b)) = true := h
        obtain ⟨bd, r, he, hgt, hab, hr⟩ := wt_lt_inv h'
        have hblt : ∀ x ∈ bd, ¬ x = '<' :=
          fun x hx => (allowedBody_chars hab x hx).1
        rcases List.append_eq_append_iff.mp he with ⟨e, h1, h2⟩ | ⟨e, h1, h2⟩
        · cases e with
          | nil =>
            rw [List.nil_append] at h2
            injection h2 with hx _
            exact absurd hx (by decide)
          | cons y e' =>
            exfalso
            injection h2 with hy _
            apply hblt y ?_ hy.symm
            rw [h1]
            exact List.mem_append_right cs (List.mem_cons_self _ _)
        · cases e with
          | nil =>
            rw [List.nil_append] at h2
            injection h2 with hx _
            exact absurd hx (by decide)
          | cons y e' =>
            injection h2 with hy h3
            subst hy
            -- h1 : cs = bd ++ '>' :: e', h3 : r = e' ++ '<' :: b
            have helen : e'.length ≤ n := by
              have h4 := ha
              rw [h1] at h4
              simp only [List.length_cons, List.length_append] at h4
              omega
            rw [h3] at hr
            obtain ⟨hwe, hwb⟩ := ih e' b helen hr
            refine ⟨?_, hwb⟩
            show wt ('<' :: cs) = true
            rw [h1, wt_tag bd e' hgt, hab, Bool.true_and]
            exact hwe
      · by_cases hgtc : c = '>'
        · subst hgtc
          have h' : wt ('>' :: (cs ++ '<' :: b)) = true := h
          rw [wt_gt] at h'
          exact absurd h' (by decide)
        · have h' : wt (c :: (cs ++ '<' :: b)) = true := h
          rw [wt_cons_chr _ hlt hgtc] at h'
          have hlen : cs.length ≤ n := by
            have h2 := ha
            simp only [List.length_cons] at h2
            omega
          obtain ⟨hwc, hwb⟩ := ih cs b hlen h'
          refine ⟨?_, hwb⟩
          rw [wt_cons_chr _ hlt hgtc]
          exact hwc

theorem wt_split_at_lt {a b : List Char} (h : wt (a ++ '<' :: b) = true) :
    wt a = true ∧ wt ('<' :: b) = true :=
  wt_split_at_lt_n a.length a b le_rfl h

theorem wt_split_safe_n : ∀ (n : Nat) (a : List Char) (c : Char) (b : List Char),
    a.length ≤ n →
    (∀ bd, allowedBody bd = true → ¬ c ∈ bd) → ¬ c = '<' → ¬ c = '>' →
    wt (a ++ c :: b) = true → wt a = true ∧ wt b = true := by
  intro n
  induction n with
  | zero =>
    intro a c b ha hsafe hc1 hc2 h
    have h0 : a = [] := List.length_eq_zero.mp (Nat.le_zero.mp ha)
    subst h0
    refine ⟨rfl, ?_⟩
    have h' : wt (c :: b) = true := h
    rw [wt_cons_chr _ hc1 hc2] at h'
    exact h'
  | succ n ih =>
    intro a c b ha hsafe hc1 hc2 h
    cases a with
    | nil =>
      refine ⟨rfl, ?_⟩
      have h' : wt (c :: b) = true := h
      rw [wt_cons_chr _ hc1 hc2] at h'
      exact h'
    | cons d ds =>
      by_cases hlt : d = '<'
      · subst hlt
        have h' : wt ('<' :: (ds ++ c :: b)) = true := h
        obtain ⟨bd, r, he, hgt, hab, hr⟩ := wt_lt_inv h'
        rcases List.append_eq_append_iff.mp he with ⟨e, h1, h2⟩ | ⟨e, h1, h2⟩
        · cases e with
          | nil =>
            rw [List.nil_append] at h2
            injection h2 with hx _
            exact absurd hx hc2
          | cons y e' =>
            exfalso
            injection h2 with hy _
            apply hsafe bd hab
            rw [h1, hy]
            exact List.mem_append_right ds (List.mem_cons_self _ _)
        · cases e with
          | nil =>
            rw [List.nil_append] at h2
            injection h2 with hx _
            exact absurd hx.symm hc2
          | cons y e' =>
            injection h2 with hy h3
            subst hy
            have helen : e'.length ≤ n := by
              have h4 := ha
              rw [h1] at h4
              simp only [List.length_cons, List.length_append] at h4
              omega
            rw [h3] at hr
            obtain ⟨hwe, hwb⟩ := ih e' c b helen hsafe hc1 hc2 hr
            refine ⟨?_, hwb⟩
            show wt ('<' :: ds) = true
            rw [h1, wt_tag bd e' hgt, hab, Bool.true_and]
            exact hwe
      · by_cases hgtc : d = '>'
        · subst hgtc
          have h' : wt ('>' :: (ds ++ c :: b)) = true := h
          rw [wt_gt] at h'
          exact absurd h' (by decide)
        · have h' : wt (d :: (ds ++ c :: b)) = true := h
          rw [wt_cons_chr _ hlt hgtc] at h'
          have hlen : ds.length ≤ n := by
            have h2 := ha
            simp only [List.length_cons] at h2
            omega
          obtain ⟨hwc, hwb⟩ := ih ds c b hlen hsafe hc1 hc2 h'
          refine ⟨?_, hwb⟩
          rw [wt_cons_chr _ hlt hgtc]
          exact hwc

theorem wt_split_safe {a : List Char} {c : Char} {b : List Char}
    (hsafe : ∀ bd, allowedBody bd = true → ¬ c ∈ bd)
    (hc1 : ¬ c = '<') (hc2 : ¬ c = '>')
    (h : wt (a ++ c :: b) = true) : wt a = true ∧ wt b = true :=
  wt_split_safe_n a.length a c b le_rfl hsafe hc1 hc2 h

theorem wt_drop_right_n : ∀ (n : Nat) (a w : List Char), a.length ≤ n →
    (∀ c ∈ w, ¬ c = '<' ∧ ¬ c = '>') →
    wt (a ++ w) = true → wt a = true := by
  intro n
  induction n with
  | zero =>
    intro a w ha _ _
    have h0 : a = [] := List.length_eq_zero.mp (Nat.le_zero.mp ha)
    subst h0; rfl
  | succ n ih =>
    intro a w ha hw h
    cases a with
    | nil => rfl
    | cons c cs =>
      by_cases hlt : c = '<'
      · subst hlt
        have h' : wt ('<' :: (cs ++ w)) = true := h
        obtain ⟨bd, r, he, hgt, hab, hr⟩ := wt_lt_inv h'
        rcases List.append_eq_append_iff.mp he with ⟨e, h1, h2⟩ | ⟨e, h1, h2⟩
        · exfalso
          have hgtw : '>' ∈ w := by
            rw [h2]
            exact List.mem_append_right e (List.mem_cons_self _ _)
          exact (hw '>' hgtw).2 rfl
        · cases e with
          | nil =>
            exfalso
            rw [List.nil_append] at h2
            have hgtw : '>' ∈ w := by rw [← h2]; exact List.mem_cons_self _ _
            exact (hw '>' hgtw).2 rfl
          | cons y e' =>
            injection h2 with hy h3
            subst hy
            have helen : e'.length ≤ n := by
              have h4 := ha
              rw [h1] at h4
              simp only [List.length_cons, List.length_append] at h4
              omega
            rw [h3] at hr
            have hwe := ih e' w helen hw hr
            show wt ('<' :: cs) = true
            rw [h1, wt_tag bd e' hgt, hab, Bool.true_and]
            exact hwe
      · by_cases hgtc : c = '>'
        · subst hgtc
          have h' : wt ('>' :: (cs ++ w)) = true := h
          rw [wt_gt] at h'
          exact absurd h' (by decide)
        · have h' : wt (c :: (cs ++ w)) = true := h
          rw [wt_cons_chr _ hlt hgtc] at h'
          have hlen : cs.length ≤ n := by
            have h2 := ha
            simp only [List.length_cons] at h2
            omega
          rw [wt_cons_chr _ hlt hgtc]
          exact ih cs w hlen hw h'

theorem wt_drop_right {a w : List Char}
    (hw : ∀ c ∈ w, ¬ c = '<' ∧ ¬ c = '>') (h : wt (a ++ w) = true) :
    wt a = true :=
  wt_drop_right_n a.length a w le_rfl hw h

/-! ## Fuel irrelevance and stepping of the replacement scanner -/

theorem raGo_congr (tm : Option Char → List Char → Option (List Char × Nat)) :
    ∀ (f : Nat) (s : List Char) (g : Nat) (p : Option Char),
    s.length ≤ f → s.length ≤ g → raGo tm f p s = raGo tm g p s := by
  intro f
  induction f with
  | zero =>
    intro s g p hf _
    have h0 : s = [] := List.length_eq_zero.mp (Nat.le_zero.mp hf)
    subst h0
    cases g <;> rfl
  | succ f ih =>
    intro s g p hf hg
    cases s with
    | nil => cases g <;> rfl
    | cons c cs =>
      match g, hg with
      | g' + 1, hg =>
        show raGo tm (f + 1) p (c :: cs) = raGo tm (g' + 1) p (c :: cs)
        have hlen : cs.length ≤ f := by
          have h2 := hf; simp only [List.length_cons] at h2; omega
        have hlen2 : cs.length ≤ g' := by
          have h2 := hg; simp only [List.length_cons] at h2; omega
        cases htm : tm p (c :: cs) with
        | none =>
          simp only [raGo, htm]
          rw [ih cs g' (some c) hlen hlen2]
        | some rk =>
          obtain ⟨rep, k⟩ := rk
          simp only [raGo, htm]
          have hdl : (cs.drop k).length ≤ cs.length := by
            simp only [List.length_drop]; omega
          rw [ih (cs.drop k) g' _ (le_trans hdl hlen) (le_trans hdl hlen2)]

theorem runStep_raGoW (tm : Option Char → List Char → Option (List Char × Nat))
    (l : List Char) : runStep tm l = raGoW tm none l := rfl

theorem raGoW_none {tm : Option Char → List Char → Option (List Char × Nat)}
    {p : Option Char} {c : Char} {cs : List Char}
    (h : tm p (c :: cs) = none) :
    raGoW tm p (c :: cs) = c :: raGoW tm (some c) cs := by
  show raGo tm (cs.length + 1) p (c :: cs) = _
  simp only [raGo, h]
  rfl

theorem raGoW_some {tm : Option Char → List Char → Option (List Char × Nat)}
    {p : Option Char} {c : Char} {cs : List Char} {rep : List Char} {k : Nat}
    (h : tm p (c :: cs) = some (rep, k)) :
    raGoW tm p (c :: cs) =
      rep ++ raGoW tm (some ((c :: cs).getD k c)) (cs.drop k) := by
  show raGo tm (cs.length + 1) p (c :: cs) = _
  simp only [raGo, h]
  have hdl : (cs.drop k).length ≤ cs.length := by
    simp only [List.length_drop]; omega
  rw [raGo_congr tm cs.length (cs.drop k) (cs.drop k).length _ hdl le_rfl]
  rfl

theorem lastP_cons (p : Option Char) (c : Char) (x : List Char) :
    lastP p (c :: x) = lastP (some c) x := by
  cases x with
  | nil => rfl
  | cons d t =>
    show lastP p (c :: d :: t) = lastP (some c) (d :: t)
    unfold lastP
    rw [List.getLast?_cons_cons]
    cases hg : (d :: t).getLast? with
    | none => exact absurd (List.getLast?_eq_none_iff.mp hg) (by simp)
    | some e => rfl

theorem raGoW_skip (tm : Option Char → List Char → Option (List Char × Nat)) :
    ∀ (x rest : List Char) (p : Option Char),
    (∀ (x₁ : List Char) (c : Char) (x₂ : List Char), x = x₁ ++ c :: x₂ →
      tm (lastP p x₁) (c :: (x₂ ++ rest)) = none) →
    raGoW tm p (x ++ rest) = x ++ raGoW tm (lastP p x) rest
  | [], rest, p, _ => rfl
  | c :: x', rest, p, h => by
    have h0 : tm p (c :: (x' ++ rest)) = none := h [] c x' rfl
    show raGoW tm p (c :: (x' ++ rest)) = _
    rw [raGoW_none h0]
    have ih := raGoW_skip tm x' rest (some c) (fun x₁ d x₂ hx => by
      have h2 := h (c :: x₁) d x₂ (by rw [hx]; rfl)
      rwa [lastP_cons] at h2)
    rw [ih, lastP_cons]
    rfl

/-! ## Splitting positions of a tag -/

theorem tag_mem_split {bd : List Char} {x₁ : List Char} {c : Char}
    {x₂ : List Char} (h : '<' :: (bd ++ ['>']) = x₁ ++ c :: x₂) :
    (x₁ = [] ∧ c = '<' ∧ x₂ = bd ++ ['>']) ∨ c ∈ bd ∨ c = '>' := by
  cases x₁ with
  | nil =>
    rw [List.nil_append] at h
    injection h with h1 h2
    exact Or.inl ⟨rfl, h1.symm, h2.symm⟩
  | cons y x₁' =>
    injection h with h1 h2
    right
    have hc : c ∈ bd ++ ['>'] := by
      rw [h2]
      exact List.mem_append_right x₁' (List.mem_cons_self _ _)
    rcases List.mem_append.mp hc with hb | hs
    · exact Or.inl hb
    · exact Or.inr (by simpa using hs)

theorem tag_last_mem {bd : List Char} {x₁ : List Char} {c : Char}
    {x₂ : List Char} (h : '<' :: (bd ++ ['>']) = x₁ ++ c :: x₂)
    (hne : x₁ ≠ []) :
    ∃ d, x₁.getLast? = some d ∧ (d = '<' ∨ d ∈ bd) := by
  have h' : ('<' :: bd) ++ ['>'] = x₁ ++ c :: x₂ := by simpa using h
  cases hd : x₁.getLast? with
  | none => exact absurd (List.getLast?_eq_none_iff.mp hd) hne
  | some d =>
    refine ⟨d, rfl, ?_⟩
    have hdm : d ∈ x₁ := List.mem_of_mem_getLast? hd
    rcases List.append_eq_append_iff.mp h' with ⟨e, h1, h2⟩ | ⟨e, h1, h2⟩
    · cases e with
      | nil =>
        rw [List.append_nil] at h1
        rw [h1] at hdm
        exact List.mem_cons.mp hdm
      | cons y e' =>
        exfalso
        injection h2 with _ h3
        exact List.cons_ne_nil c x₂ (List.append_eq_nil.mp h3.symm).2
    · have hdm2 : d ∈ '<' :: bd := by
        rw [h1]
        exact List.mem_append_left e hdm
      rcases List.mem_cons.mp hdm2 with rfl | hb
      · exact Or.inl rfl
      · exact Or.inr hb

theorem wt_tag_skip_out (tm : Option Char → List Char → Option (List Char × Nat))
    {bd r : List Char} {p : Option Char}
    (hbd : allowedBody bd = true) (hgt : ∀ x ∈ bd, ¬ x = '>')
    (h0 : tm p ('<' :: (bd ++ '>' :: r)) = none)
    (hin : ∀ (d q : Char) (u : List Char), (d = '<' ∨ d ∈ bd) →
      (q ∈ bd ∨ q = '>') → tm (some d) (q :: u) = none)
    (hr : wt (raGoW tm (some '>') r) = true) :
    wt (raGoW tm p ('<' :: (bd ++ '>' :: r))) = true := by
  have hfail : ∀ (x₁ : List Char) (c : Char) (x₂ : List Char),
      '<' :: (bd ++ ['>']) = x₁ ++ c :: x₂ →
      tm (lastP p x₁) (c :: (x₂ ++ r)) = none := by
    intro x₁ c x₂ hsplit
    rcases tag_mem_split hsplit with ⟨h1, h2, h3⟩ | hcm
    · subst h1; subst h2; subst h3
      show tm p ('<' :: ((bd ++ ['>']) ++ r)) = none
      rw [show (bd ++ ['>']) ++ r = bd ++ '>' :: r by simp]
      exact h0
    · have hne : x₁ ≠ [] := by
        rintro rfl
        rw [List.nil_append] at hsplit
        injection hsplit with hc _
        rcases hcm with hcb | rfl
        · exact (allowedBody_chars hbd c hcb).1 hc.symm
        · exact absurd hc (by decide)
      obtain ⟨d, hd, hdm⟩ := tag_last_mem hsplit hne
      have hl : lastP p x₁ = some d := by unfold lastP; rw [hd]
      rw [hl]
      exact hin d c _ hdm hcm
  have hx : '<' :: (bd ++ '>' :: r) = ('<' :: (bd ++ ['>'])) ++ r := by simp
  rw [hx, raGoW_skip tm ('<' :: (bd ++ ['>'])) r p hfail]
  have hlast : lastP p ('<' :: (bd ++ ['>'])) = some '>' := by
    unfold lastP
    rw [show ('<' :: (bd ++ ['>'])).getLast? = some '>' from by
      rw [show '<' :: (bd ++ ['>']) = ('<' :: bd) ++ ['>'] by simp,
        List.getLast?_concat]]
  rw [hlast]
  have htag : wt ('<' :: (bd ++ ['>'])) = true := by
    rw [show bd ++ ['>'] = bd ++ '>' :: [] from rfl, wt_tag bd [] hgt, hbd]
    rfl
  exact wt_append htag hr

/-! ## Head-failure of the character-triggered matchers -/

theorem pfx_cons_head {c q : Char} {pp u : List Char}
    (h : pfx (c :: pp) (q :: u) = true) : c = q := by
  have h' : (c == q && pfx pp u) = true := h
  rw [Bool.and_eq_true] at h'
  exact eq_of_beq h'.1

theorem tryInline_hd {q : Char} {u : List Char} (p : Option Char)
    (h : ¬ q = '`') : tryInline p (q :: u) = none := by
  unfold tryInline
  rw [if_neg]
  intro hp
  exact h (pfx_cons_head hp).symm

theorem tryBold_hd {q : Char} {u : List Char} (p : Option Char)
    (h : ¬ q = '*') : tryBold p (q :: u) = none := by
  unfold tryBold
  rw [if_neg]
  intro hp
  exact h (pfx_cons_head hp).symm

theorem tryItalic_hd {q : Char} {u : List Char} (p : Option Char)
    (h : ¬ q = '*') : tryItalic p (q :: u) = none := by
  unfold tryItalic
  rw [if_neg]
  intro hp
  exact h (pfx_cons_head hp).symm

theorem tryJoinUl_hd {q : Char} {u : List Char} (p : Option Char)
    (h : ¬ q = '<') : tryJoinUl p (q :: u) = none := by
  unfold tryJoinUl
  rw [if_neg]
  intro hp
  exact h (pfx_cons_head hp).symm

theorem tryOlJoin_hd {q : Char} {u : List Char} (p : Option Char)
    (h : ¬ q = '<') : tryOlJoin p (q :: u) = none := by
  unfold tryOlJoin
  by_cases hp : (p == some '\n') = true
  · rw [if_pos hp]
  · rw [if_neg hp, if_neg]
    intro hpf
    exact h (pfx_cons_head hpf).symm

theorem tryUlClose_hd {q : Char} {u : List Char} (p : Option Char)
    (h : ¬ q = '<') : tryUlClose p (q :: u) = none := by
  unfold tryUlClose
  rw [if_neg]
  intro hp
  exact h (pfx_cons_head hp).symm

theorem tryOlClose_hd {q : Char} {u : List Char} (p : Option Char)
    (h : ¬ q = '<') : tryOlClose p (q :: u) = none := by
  unfold tryOlClose
  rw [if_neg]
  intro hp
  exact h (pfx_cons_head hp).symm

theorem tryCleanup_hd {q : Char} {u : List Char} (p : Option Char)
    (h : ¬ q = '<') : tryCleanup p (q :: u) = none := by
  unfold tryCleanup
  rw [if_neg]
  intro hp
  exact h (pfx_cons_head hp).symm

theorem tryPara_hd {q : Char} {u : List Char} (p : Option Char)
    (h : ¬ q = '\n') : tryPara p (q :: u) = none := by
  unfold tryPara
  rw [if_neg]
  intro hp
  exact h (pfx_cons_head hp).symm

/-! ## Shared facts for the per-step preservation proofs -/

theorem tag_q_facts {bd : List Char} (hbd : allowedBody bd = true) {q : Char}
    (hq : q ∈ bd ∨ q = '>') :
    ¬ q = '`' ∧ ¬ q = '*' ∧ ¬ q = '<' ∧ ¬ q = '\n' := by
  rcases hq with hq | rfl
  · obtain ⟨h1, _, h3, h4, h5, _⟩ := allowedBody_chars hbd q hq
    exact ⟨h3, h4, h1, h5⟩
  · exact ⟨by decide, by decide, by decide, by decide⟩

theorem tag_d_nls {bd : List Char} (hbd : allowedBody bd = true) {d : Char}
    (hd : d = '<' ∨ d ∈ bd) : isLineStart (some d) = false := by
  show isLineTerm d = false
  rcases hd with rfl | hd
  · rfl
  · obtain ⟨_, _, _, _, h5, h6⟩ := allowedBody_chars hbd d hd
    unfold isLineTerm
    simp [h5, h6]

theorem safe_tick : ∀ bd, allowedBody bd = true → ¬ '`' ∈ bd :=
  fun _ hbd hm => (allowedBody_chars hbd '`' hm).2.2.1 rfl

theorem safe_star : ∀ bd, allowedBody bd = true → ¬ '*' ∈ bd :=
  fun _ hbd hm => (allowedBody_chars hbd '*' hm).2.2.2.1 rfl

theorem safe_nl : ∀ bd, allowedBody bd = true → ¬ '\n' ∈ bd :=
  fun _ hbd hm => (allowedBody_chars hbd '\n' hm).2.2.2.2.1 rfl

theorem safe_cr : ∀ bd, allowedBody bd = true → ¬ '\r' ∈ bd :=
  fun _ hbd hm => (allowedBody_chars hbd '\r' hm).2.2.2.2.2 rfl

theorem isWs_good {c : Char} (h : isWs c = true) : ¬ c = '<' ∧ ¬ c = '>' := by
  constructor <;> rintro rfl <;> exact absurd h (by decide)

theorem isDigitC_good {c : Char} (h : isDigitC c = true) :
    ¬ c = '<' ∧ ¬ c = '>' := by
  constructor <;> rintro rfl <;> exact absurd h (by decide)

/-- The common no-match case of the preservation proofs: on a tag the scanner
walks through (using the step's in-tag failure), on a plain character it
copies. -/
theorem wt_pres_none_case (tm : Option Char → List Char → Option (List Char × Nat))
    {n : Nat}
    (ih : ∀ (s : List Char) (p : Option Char), s.length ≤ n → wt s = true →
      wt (raGoW tm p s) = true)
    {c : Char} {cs : List Char} {p : Option Char}
    (hle : (c :: cs).length ≤ n + 1) (hwt : wt (c :: cs) = true)
    (htm : tm p (c :: cs) = none)
    (hin : ∀ {bd : List Char}, allowedBody bd = true →
      ∀ (d q : Char) (u : List Char), (d = '<' ∨ d ∈ bd) → (q ∈ bd ∨ q = '>') →
      tm (some d) (q :: u) = none) :
    wt (raGoW tm p (c :: cs)) = true := by
  have hlen : cs.length ≤ n := by
    have h2 := hle; simp only [List.length_cons] at h2; omega
  by_cases hc : c = '<'
  · subst hc
    obtain ⟨bd, r, he, hgt, hab, hr⟩ := wt_lt_inv hwt
    subst he
    have hrlen : r.length ≤ n := by
      have h2 := hle
      simp only [List.length_cons, List.length_append] at h2
      omega
    exact wt_tag_skip_out tm hab hgt htm (hin hab) (ih r (some '>') hrlen hr)
  · by_cases hc2 : c = '>'
    · subst hc2; rw [wt_gt] at hwt; exact absurd hwt (by decide)
    · rw [raGoW_none htm, wt_cons_chr _ hc hc2]
      rw [wt_cons_chr _ hc hc2] at hwt
      exact ih cs (some c) hlen hwt

/-! ## Soundness of the lazy scans -/

theorem dotScanUntil_sound (stop : List Char) : ∀ (y x : List Char),
    dotScanUntil stop y = some x → ∃ r, y = x ++ stop ++ r
  | [], x, h => by
    unfold dotScanUntil at h
    by_cases hp : pfx stop [] = true
    · rw [if_pos hp] at h
      injection h with h1
      have hstop : stop = [] := by
        cases stop with
        | nil => rfl
        | cons a s => exact absurd hp (by simp [pfx])
      exact ⟨[], by rw [← h1, hstop]; rfl⟩
    · rw [if_neg hp] at h; exact absurd h (by simp)
  | c :: cs, x, h => by
    unfold dotScanUntil at h
    by_cases hp : pfx stop (c :: cs) = true
    · rw [if_pos hp] at h
      injection h with h1
      obtain ⟨t, ht⟩ := (pfx_iff _ _).1 hp
      exact ⟨t, by rw [← h1, List.nil_append]; exact ht⟩
    · rw [if_neg hp] at h
      by_cases hlt : isLineTerm c = true
      · rw [if_pos hlt] at h; exact absurd h (by simp)
      · rw [if_neg hlt] at h
        cases hs : dotScanUntil stop cs with
        | none => rw [hs] at h; exact absurd h (by simp)
        | some x2 =>
          rw [hs] at h
          injection h with h1
          obtain ⟨r, hr⟩ := dotScanUntil_sound stop cs x2 hs
          subst h1
          exact ⟨r, by simp [hr]⟩

theorem paraTake_sound : ∀ (y : List Char),
    ∃ tail, y = paraTake y ++ tail ∧
      (tail = [] ∨ pfx "\n\n".data tail = true)
  | [] => ⟨[], rfl, Or.inl rfl⟩
  | c :: cs => by
    unfold paraTake
    by_cases hp : pfx "\n\n".data (c :: cs) = true
    · rw [if_pos hp]
      exact ⟨c :: cs, rfl, Or.inr hp⟩
    · rw [if_neg hp]
      obtain ⟨tail, ht, hor⟩ := paraTake_sound cs
      refine ⟨tail, ?_, hor⟩
      rw [List.cons_append, ← ht]

theorem fenceSplit_sound : ∀ (y code r : List Char),
    fenceSplit y = some (code, r) → y = code ++ "\n```".data ++ r
  | [], code, r, h => by simp [fenceSplit] at h
  | c :: cs, code, r, h => by
    unfold fenceSplit at h
    by_cases hp : pfx "\n```".data (c :: cs) = true
    · rw [if_pos hp] at h
      injection h with h1
      injection h1 with h2 h3
      obtain ⟨t, ht⟩ := (pfx_iff _ _).1 hp
      injection ht with hc hcs
      subst hc
      rw [← h2, List.nil_append, ← h3, hcs]
      rfl
    · rw [if_neg hp] at h
      cases hs : fenceSplit cs with
      | none => rw [hs] at h; exact absurd h (by simp)
      | some xr =>
        obtain ⟨x2, r2⟩ := xr
        rw [hs] at h
        injection h with h1
        injection h1 with h2 h3
        have hr := fenceSplit_sound cs x2 r2 hs
        rw [← h2, ← h3]
        simp [hr]

/-! ## Preservation of well-taggedness, step by step -/

theorem wt_pres_inline : ∀ (n : Nat) (s : List Char) (p : Option Char),
    s.length ≤ n → wt s = true → wt (raGoW tryInline p s) = true := by
  intro n
  induction n with
  | zero =>
    intro s p hle _
    have h0 : s = [] := List.length_eq_zero.mp (Nat.le_zero.mp hle)
    subst h0; rfl
  | succ n ih =>
    intro s p hle hwt
    cases s with
    | nil => rfl
    | cons c cs =>
      cases htm : tryInline p (c :: cs) with
      | none =>
        exact wt_pres_none_case tryInline ih hle hwt htm
          (fun {bd} hbd d q u _ hq => tryInline_hd (some d) (tag_q_facts hbd hq).1)
      | some rk =>
        obtain ⟨rep, k⟩ := rk
        by_cases hc : c = '`'
        case neg =>
          rw [tryInline_hd p hc] at htm
          exact absurd htm (by simp)
        subst hc
        have hsome := htm
        have hpf : pfx "`".data ('`' :: cs) = true := by
          rw [show "`".data = ['`'] from rfl, pfx_one]
          decide
        have heval : tryInline p ('`' :: cs) =
            (if (cs.takeWhile (fun x => !(x == '`'))).isEmpty = true then none
             else if pfx "`".data
                 (cs.drop (cs.takeWhile (fun x => !(x == '`'))).length) = true
               then some ("<code>".data ++ cs.takeWhile (fun x => !(x == '`')) ++
                 "</code>".data,
                 (cs.takeWhile (fun x => !(x == '`'))).length + 1)
             else none) := by
          unfold tryInline
          rw [if_pos hpf]
          rfl
        rw [heval] at htm
        by_cases hem : (cs.takeWhile (fun x => !(x == '`'))).isEmpty = true
        · rw [if_pos hem] at htm; exact absurd htm (by simp)
        rw [if_neg hem] at htm
        by_cases hp2 : pfx "`".data
            (cs.drop (cs.takeWhile (fun x => !(x == '`'))).length) = true
        case neg => rw [if_neg hp2] at htm; exact absurd htm (by simp)
        rw [if_pos hp2] at htm
        injection htm with htm
        injection htm with hrep hk
        -- name the pieces
        rw [dropWhile_drop_takeWhile] at hp2
        obtain ⟨rest, hdw⟩ := (pfx_iff _ _).1 hp2
        have hcs : cs = cs.takeWhile (fun x => !(x == '`')) ++ '`' :: rest := by
          conv_lhs => rw [← List.takeWhile_append_dropWhile
            (p := fun x => !(x == '`')) (l := cs)]
          rw [hdw]
          rfl
        have hmid : ∀ x ∈ cs.takeWhile (fun x => !(x == '`')), ¬ x = '`' := by
          intro x hx
          have h2 := List.mem_takeWhile_imp hx
          simpa using h2
        -- the input is well-tagged around the match
        have hwcs : wt cs = true := by
          rw [wt_cons_chr _ (by decide) (by decide)] at hwt
          exact hwt
        rw [hcs] at hwcs
        obtain ⟨hwmid, hwrest⟩ :=
          wt_split_safe safe_tick (by decide) (by decide) hwcs
        -- the replacement is well-tagged
        have hwrep : wt rep = true := by
          rw [← hrep]
          exact wt_append (wt_append (by decide) hwmid) (by decide)
        -- the continuation
        have hdrop : cs.drop k = rest := by
          have h5 : cs = (cs.takeWhile (fun x => !(x == '`')) ++ ['`']) ++ rest := by
            rw [List.append_assoc]
            exact hcs
          rw [h5, List.drop_left']
          simp only [List.length_append, List.length_cons, List.length_nil]
          omega
        have hrlen : rest.length ≤ n := by
          have h2 := hle
          rw [hcs] at h2
          simp only [List.length_cons, List.length_append] at h2
          omega
        rw [raGoW_some hsome, hdrop]
        exact wt_append hwrep (ih rest _ hrlen hwrest)

theorem wt_pres_bold : ∀ (n : Nat) (s : List Char) (p : Option Char),
    s.length ≤ n → wt s = true → wt (raGoW tryBold p s) = true := by
  intro n
  induction n with
  | zero =>
    intro s p hle _
    have h0 : s = [] := List.length_eq_zero.mp (Nat.le_zero.mp hle)
    subst h0; rfl
  | succ n ih =>
    intro s p hle hwt
    cases s with
    | nil => rfl
    | cons c cs =>
      cases htm : tryBold p (c :: cs) with
      | none =>
        exact wt_pres_none_case tryBold ih hle hwt htm
          (fun {bd} hbd d q u _ hq => tryBold_hd (some d) (tag_q_facts hbd hq).2.1)
      | some rk =>
        obtain ⟨rep, k⟩ := rk
        by_cases hc : c = '*'
        case neg =>
          rw [tryBold_hd p hc] at htm
          exact absurd htm (by simp)
        subst hc
        have hsome := htm
        by_cases hpf : pfx "**".data ('*' :: cs) = true
        case neg =>
          have hnone : tryBold p ('*' :: cs) = none := by
            unfold tryBold; rw [if_neg hpf]
          rw [hnone] at htm
          exact absurd htm (by simp)
        obtain ⟨t, ht⟩ := (pfx_iff _ _).1 hpf
        have hcst : cs = '*' :: t := by
          injection ht with _ h
        subst hcst
        have heval : tryBold p ('*' :: '*' :: t) =
            (if (t.takeWhile (fun x => !(x == '*'))).isEmpty = true then none
             else if pfx "**".data
                 (t.drop (t.takeWhile (fun x => !(x == '*'))).length) = true
               then some ("<strong>".data ++ t.takeWhile (fun x => !(x == '*')) ++
                 "</strong>".data,
                 (t.takeWhile (fun x => !(x == '*'))).length + 3)
             else none) := by
          unfold tryBold
          rw [if_pos hpf]
          rfl
        rw [heval] at htm
        by_cases hem : (t.takeWhile (fun x => !(x == '*'))).isEmpty = true
        · rw [if_pos hem] at htm; exact absurd htm (by simp)
        rw [if_neg hem] at htm
        by_cases hp2 : pfx "**".data
            (t.drop (t.takeWhile (fun x => !(x == '*'))).length) = true
        case neg => rw [if_neg hp2] at htm; exact absurd htm (by simp)
        rw [if_pos hp2] at htm
        injection htm with htm
        injection htm with hrep hk
        rw [dropWhile_drop_takeWhile] at hp2
        obtain ⟨rest, hdw⟩ := (pfx_iff _ _).1 hp2
        have hcs : t = t.takeWhile (fun x => !(x == '*')) ++ '*' :: '*' :: rest := by
          conv_lhs => rw [← List.takeWhile_append_dropWhile
            (p := fun x => !(x == '*')) (l := t)]
          rw [hdw]
          rfl
        have hwt2 : wt t = true := by
          rw [wt_cons_chr _ (by decide) (by decide),
            wt_cons_chr _ (by decide) (by decide)] at hwt
          exact hwt
        rw [hcs] at hwt2
        obtain ⟨hwmid, hwr0⟩ :=
          wt_split_safe safe_star (by decide) (by decide) hwt2
        have hwrest : wt rest = true := by
          rw [wt_cons_chr _ (by decide) (by decide)] at hwr0
          exact hwr0
        have hwrep : wt rep = true := by
          rw [← hrep]
          exact wt_append (wt_append (by decide) hwmid) (by decide)
        have hdrop : ('*' :: t).drop k = rest := by
          have h5 : '*' :: t =
              (('*' :: t.takeWhile (fun x => !(x == '*'))) ++ ['*', '*']) ++ rest := by
            conv_lhs => rw [hcs]
            simp
          rw [h5, List.drop_left']
          simp only [List.length_append, List.length_cons, List.length_nil]
          omega
        have hrlen : rest.length ≤ n := by
          have h2 := hle
          rw [hcs] at h2
          simp only [List.length_cons, List.length_append] at h2
          omega
        rw [raGoW_some hsome, hdrop]
        exact wt_append hwrep (ih rest _ hrlen hwrest)

theorem wt_pres_italic : ∀ (n : Nat) (s : List Char) (p : Option Char),
    s.length ≤ n → wt s = true → wt (raGoW tryItalic p s) = true := by
  intro n
  induction n with
  | zero =>
    intro s p hle _
    have h0 : s = [] := List.length_eq_zero.mp (Nat.le_zero.mp hle)
    subst h0; rfl
  | succ n ih =>
    intro s p hle hwt
    cases s with
    | nil => rfl
    | cons c cs =>
      cases htm : tryItalic p (c :: cs) with
      | none =>
        exact wt_pres_none_case tryItalic ih hle hwt htm
          (fun {bd} hbd d q u _ hq => tryItalic_hd (some d) (tag_q_facts hbd hq).2.1)
      | some rk =>
        obtain ⟨rep, k⟩ := rk
        by_cases hc : c = '*'
        case neg =>
          rw [tryItalic_hd p hc] at htm
          exact absurd htm (by simp)
        subst hc
        have hsome := htm
        have hpf : pfx "*".data ('*' :: cs) = true := by
          rw [show "*".data = ['*'] from rfl, pfx_one]
          decide
        have heval : tryItalic p ('*' :: cs) =
            (if (cs.takeWhile (fun x => !(x == '*'))).isEmpty = true then none
             else if pfx "*".data
                 (cs.drop (cs.takeWhile (fun x => !(x == '*'))).length) = true
               then some ("<em>".data ++ cs.takeWhile (fun x => !(x == '*')) ++
                 "</em>".data,
                 (cs.takeWhile (fun x => !(x == '*'))).length + 1)
             else none) := by
          unfold tryItalic
          rw [if_pos hpf]
          rfl
        rw [heval] at htm
        by_cases hem : (cs.takeWhile (fun x => !(x == '*'))).isEmpty = true
        · rw [if_pos hem] at htm; exact absurd htm (by simp)
        rw [if_neg hem] at htm
        by_cases hp2 : pfx "*".data
            (cs.drop (cs.takeWhile (fun x => !(x == '*'))).length) = true
        case neg => rw [if_neg hp2] at htm; exact absurd htm (by simp)
        rw [if_pos hp2] at htm
        injection htm with htm
        injection htm with hrep hk
        rw [dropWhile_drop_takeWhile] at hp2
        obtain ⟨rest, hdw⟩ := (pfx_iff _ _).1 hp2
        have hcs : cs = cs.takeWhile (fun x => !(x == '*')) ++ '*' :: rest := by
          conv_lhs => rw [← List.takeWhile_append_dropWhile
            (p := fun x => !(x == '*')) (l := cs)]
          rw [hdw]
          rfl
        have hwcs : wt cs = true := by
          rw [wt_cons_chr _ (by decide) (by decide)] at hwt
          exact hwt
        rw [hcs] at hwcs
        obtain ⟨hwmid, hwrest⟩ :=
          wt_split_safe safe_star (by decide) (by decide) hwcs
        have hwrep : wt rep = true := by
          rw [← hrep]
          exact wt_append (wt_append (by decide) hwmid) (by decide)
        have hdrop : cs.drop k = rest := by
          have h5 : cs = (cs.takeWhile (fun x => !(x == '*')) ++ ['*']) ++ rest := by
            rw [List.append_assoc]
            exact hcs
          rw [h5, List.drop_left']
          simp only [List.length_append, List.length_cons, List.length_nil]
          omega
        have hrlen : rest.length ≤ n := by
          have h2 := hle
          rw [hcs] at h2
          simp only [List.length_cons, List.length_append] at h2
          omega
        rw [raGoW_some hsome, hdrop]
        exact wt_append hwrep (ih rest _ hrlen hwrest)

theorem wt_pres_ulclose : ∀ (n : Nat) (s : List Char) (p : Option Char),
    s.length ≤ n → wt s = true → wt (raGoW tryUlClose p s) = true := by
  intro n
  induction n with
  | zero =>
    intro s p hle _
    have h0 : s = [] := List.length_eq_zero.mp (Nat.le_zero.mp hle)
    subst h0; rfl
  | succ n ih =>
    intro s p hle hwt
    cases s with
    | nil => rfl
    | cons c cs =>
      cases htm : tryUlClose p (c :: cs) with
      | none =>
        exact wt_pres_none_case tryUlClose ih hle hwt htm
          (fun {bd} hbd d q u _ hq =>
            tryUlClose_hd (some d) (tag_q_facts hbd hq).2.2.1)
      | some rk =>
        obtain ⟨rep, k⟩ := rk
        by_cases hpf : pfx "</li>".data (c :: cs) = true
        case neg =>
          have hnone : tryUlClose p (c :: cs) = none := by
            unfold tryUlClose; rw [if_neg hpf]
          rw [hnone] at htm; exact absurd htm (by simp)
        obtain ⟨t, ht⟩ := (pfx_iff _ _).1 hpf
        have hc : c = '<' := (pfx_cons_head hpf).symm
        subst hc
        have hcs : cs = "/li>".data ++ t := by injection ht with _ h
        subst hcs
        have hsome := htm
        have heval : tryUlClose p ('<' :: ("/li>".data ++ t)) =
            (if pfx "\n".data t = true then
               (if liLA (t.drop 1) = true then none
                else some ("</li></ul>".data, 5))
             else if t.isEmpty = true then
               (if liLA [] = true then none else some ("</li></ul>".data, 4))
             else none) := by
          unfold tryUlClose
          rw [if_pos hpf]
          rfl
        rw [heval] at htm
        by_cases hnl : pfx "\n".data t = true
        · rw [if_pos hnl] at htm
          obtain ⟨t₂, ht2⟩ := (pfx_iff _ _).1 hnl
          rw [show ("\n".data ++ t₂ : List Char) = '\n' :: t₂ from rfl] at ht2
          subst ht2
          by_cases hli : liLA (('\n' :: t₂).drop 1) = true
          · rw [if_pos hli] at htm; exact absurd htm (by simp)
          rw [if_neg hli] at htm
          injection htm with htm
          injection htm with hrep hk
          subst hrep
          subst hk
          have hwt2 : wt ("</li>".data ++ '\n' :: t₂) = true := hwt
          rw [wt_append_right _ _ (by decide),
            wt_cons_chr _ (by decide) (by decide)] at hwt2
          have hdrop : ("/li>".data ++ '\n' :: t₂).drop 5 = t₂ := rfl
          rw [raGoW_some hsome, hdrop]
          have hrlen : t₂.length ≤ n := by
            have h2 := hle
            simp only [List.length_cons, List.length_append] at h2
            omega
          exact wt_append (by decide) (ih t₂ _ hrlen hwt2)
        · rw [if_neg hnl] at htm
          by_cases hemp : t.isEmpty = true
          · rw [if_pos hemp] at htm
            by_cases hli : liLA [] = true
            · rw [if_pos hli] at htm; exact absurd htm (by simp)
            rw [if_neg hli] at htm
            injection htm with htm
            injection htm with hrep hk
            subst hrep
            subst hk
            have ht0 : t = [] := by
              cases t with
              | nil => rfl
              | cons a b => exact absurd hemp (by simp)
            subst ht0
            have hdrop : ("/li>".data ++ ([] : List Char)).drop 4 = [] := rfl
            rw [raGoW_some hsome, hdrop]
            exact wt_append (by decide) (ih [] _ (Nat.zero_le n) rfl)
          · rw [if_neg hemp] at htm
            exact absurd htm (by simp)

theorem wt_pres_olclose : ∀ (n : Nat) (s : List Char) (p : Option Char),
    s.length ≤ n → wt s = true → wt (raGoW tryOlClose p s) = true := by
  intro n
  induction n with
  | zero =>
    intro s p hle _
    have h0 : s = [] := List.length_eq_zero.mp (Nat.le_zero.mp hle)
    subst h0; rfl
  | succ n ih =>
    intro s p hle hwt
    cases s with
    | nil => rfl
    | cons c cs =>
      cases htm : tryOlClose p (c :: cs) with
      | none =>
        exact wt_pres_none_case tryOlClose ih hle hwt htm
          (fun {bd} hbd d q u _ hq =>
            tryOlClose_hd (some d) (tag_q_facts hbd hq).2.2.1)
      | some rk =>
        obtain ⟨rep, k⟩ := rk
        by_cases hpf : pfx "</li>".data (c :: cs) = true
        case neg =>
          have hnone : tryOlClose p (c :: cs) = none := by
            unfold tryOlClose; rw [if_neg hpf]
          rw [hnone] at htm; exact absurd htm (by simp)
        obtain ⟨t, ht⟩ := (pfx_iff _ _).1 hpf
        have hc : c = '<' := (pfx_cons_head hpf).symm
        subst hc
        have hcs : cs = "/li>".data ++ t := by injection ht with _ h
        subst hcs
        have hsome := htm
        have heval : tryOlClose p ('<' :: ("/li>".data ++ t)) =
            (if pfx "\n".data t = true then
               (if liLA (t.drop 1) = true then none
                else some ("</li></ol>".data, 5))
             else if t.isEmpty = true then
               (if liLA [] = true then none else some ("</li></ol>".data, 4))
             else none) := by
          unfold tryOlClose
          rw [if_pos hpf]
          rfl
        rw [heval] at htm
        by_cases hnl : pfx "\n".data t = true
        · rw [if_pos hnl] at htm
          obtain ⟨t₂, ht2⟩ := (pfx_iff _ _).1 hnl
          rw [show ("\n".data ++ t₂ : List Char) = '\n' :: t₂ from rfl] at ht2
          subst ht2
          by_cases hli : liLA (('\n' :: t₂).drop 1) = true
          · rw [if_pos hli] at htm; exact absurd htm (by simp)
          rw [if_neg hli] at htm
          injection htm with htm
          injection htm with hrep hk
          subst hrep
          subst hk
          have hwt2 : wt ("</li>".data ++ '\n' :: t₂) = true := hwt
          rw [wt_append_right _ _ (by decide),
            wt_cons_chr _ (by decide) (by decide)] at hwt2
          have hdrop : ("/li>".data ++ '\n' :: t₂).drop 5 = t₂ := rfl
          rw [raGoW_some hsome, hdrop]
          have hrlen : t₂.length ≤ n := by
            have h2 := hle
            simp only [List.length_cons, List.length_append] at h2
            omega
          exact wt_append (by decide) (ih t₂ _ hrlen hwt2)
        · rw [if_neg hnl] at htm
          by_cases hemp : t.isEmpty = true
          · rw [if_pos hemp] at htm
            by_cases hli : liLA [] = true
            · rw [if_pos hli] at htm; exact absurd htm (by simp)
            rw [if_neg hli] at htm
            injection htm with htm
            injection htm with hrep hk
            subst hrep
            subst hk
            have ht0 : t = [] := by
              cases t with
              | nil => rfl
              | cons a b => exact absurd hemp (by simp)
            subst ht0
            have hdrop : ("/li>".data ++ ([] : List Char)).drop 4 = [] := rfl
            rw [raGoW_some hsome, hdrop]
            exact wt_append (by decide) (ih [] _ (Nat.zero_le n) rfl)
          · rw [if_neg hemp] at htm
            exact absurd htm (by simp)

theorem wt_pres_joinul : ∀ (n : Nat) (s : List Char) (p : Option Char),
    s.length ≤ n → wt s = true → wt (raGoW tryJoinUl p s) = true := by
  intro n
  induction n with
  | zero =>
    intro s p hle _
    have h0 : s = [] := List.length_eq_zero.mp (Nat.le_zero.mp hle)
    subst h0; rfl
  | succ n ih =>
    intro s p hle hwt
    cases s with
    | nil => rfl
    | cons c cs =>
      cases htm : tryJoinUl p (c :: cs) with
      | none =>
        exact wt_pres_none_case tryJoinUl ih hle hwt htm
          (fun {bd} hbd d q u _ hq =>
            tryJoinUl_hd (some d) (tag_q_facts hbd hq).2.2.1)
      | some rk =>
        obtain ⟨rep, k⟩ := rk
        by_cases hpf : pfx "<li>".data (c :: cs) = true
        case neg =>
          have hnone : tryJoinUl p (c :: cs) = none := by
            unfold tryJoinUl; rw [if_neg hpf]
          rw [hnone] at htm; exact absurd htm (by simp)
        obtain ⟨t, ht⟩ := (pfx_iff _ _).1 hpf
        have hc : c = '<' := (pfx_cons_head hpf).symm
        subst hc
        have hcs : cs = "li>".data ++ t := by injection ht with _ h
        subst hcs
        have hsome := htm
        have heval : tryJoinUl p ('<' :: ("li>".data ++ t)) =
            (match dotScanUntil "</li>\n<li>".data t with
             | some x =>
               some ("<li>".data ++ x ++ "</li>".data ++ "<li>".data,
                 13 + x.length)
             | none => none) := by
          unfold tryJoinUl
          rw [if_pos hpf]
          rfl
        rw [heval] at htm
        cases hscan : dotScanUntil "</li>\n<li>".data t with
        | none => rw [hscan] at htm; exact absurd htm (by simp)
        | some x =>
          rw [hscan] at htm
          injection htm with htm
          injection htm with hrep hk
          subst hrep
          subst hk
          obtain ⟨r, hts⟩ := dotScanUntil_sound _ t x hscan
          subst hts
          -- the input around the match
          have hwt2 : wt ("<li>".data ++ ((x ++ "</li>\n<li>".data) ++ r)) = true :=
            hwt
          rw [wt_append_right _ _ (by decide), List.append_assoc] at hwt2
          have hwt3 : wt (x ++ '<' :: ("/li>\n<li>".data ++ r)) = true := hwt2
          obtain ⟨hwx, hwlt⟩ := wt_split_at_lt hwt3
          have hwlt2 : wt ("</li>".data ++ '\n' :: ("<li>".data ++ r)) = true :=
            hwlt
          rw [wt_append_right _ _ (by decide),
            wt_cons_chr _ (by decide) (by decide),
            wt_append_right _ _ (by decide)] at hwlt2
          -- the replacement
          have hwrep : wt ("<li>".data ++ x ++ "</li>".data ++ "<li>".data)
              = true :=
            wt_append (wt_append (wt_append (by decide) hwx) (by decide))
              (by decide)
          -- the continuation
          have hdrop : ("li>".data ++ ((x ++ "</li>\n<li>".data) ++ r)).drop
              (13 + x.length) = r := by
            rw [show ("li>".data ++ ((x ++ "</li>\n<li>".data) ++ r)) =
              ("li>".data ++ (x ++ "</li>\n<li>".data)) ++ r by simp, List.drop_left']
            simp only [List.length_append, show "li>".data.length = 3 from rfl,
              show "</li>\n<li>".data.length = 10 from rfl]
            omega
          rw [raGoW_some hsome, hdrop]
          have hrlen : r.length ≤ n := by
            have h2 := hle
            simp only [List.length_cons, List.length_append,
              show "li>".data.length = 3 from rfl,
              show "</li>\n<li>".data.length = 10 from rfl] at h2
            omega
          exact wt_append hwrep (ih r _ hrlen hwlt2)

theorem wt_pres_oljoin : ∀ (n : Nat) (s : List Char) (p : Option Char),
    s.length ≤ n → wt s = true → wt (raGoW tryOlJoin p s) = true := by
  intro n
  induction n with
  | zero =>
    intro s p hle _
    have h0 : s = [] := List.length_eq_zero.mp (Nat.le_zero.mp hle)
    subst h0; rfl
  | succ n ih =>
    intro s p hle hwt
    cases s with
    | nil => rfl
    | cons c cs =>
      cases htm : tryOlJoin p (c :: cs) with
      | none =>
        exact wt_pres_none_case tryOlJoin ih hle hwt htm
          (fun {bd} hbd d q u _ hq =>
            tryOlJoin_hd (some d) (tag_q_facts hbd hq).2.2.1)
      | some rk =>
        obtain ⟨rep, k⟩ := rk
        by_cases hprev : (p == some '\n') = true
        case pos =>
          have hnone : tryOlJoin p (c :: cs) = none := by
            unfold tryOlJoin; rw [if_pos hprev]
          rw [hnone] at htm; exact absurd htm (by simp)
        by_cases hpf : pfx "<li>".data (c :: cs) = true
        case neg =>
          have hnone : tryOlJoin p (c :: cs) = none := by
            unfold tryOlJoin; rw [if_neg hprev, if_neg hpf]
          rw [hnone] at htm; exact absurd htm (by simp)
        obtain ⟨t, ht⟩ := (pfx_iff _ _).1 hpf
        have hc : c = '<' := (pfx_cons_head hpf).symm
        subst hc
        have hcs : cs = "li>".data ++ t := by injection ht with _ h
        subst hcs
        have hsome := htm
        have heval : tryOlJoin p ('<' :: ("li>".data ++ t)) =
            (match dotScanUntil "</li>\n<li>".data t with
             | some x =>
               some ("<li>".data ++ ("<li>".data ++ x ++ "</li>\n<li>".data),
                 13 + x.length)
             | none => none) := by
          unfold tryOlJoin
          rw [if_neg hprev, if_pos hpf]
          rfl
        rw [heval] at htm
        cases hscan : dotScanUntil "</li>\n<li>".data t with
        | none => rw [hscan] at htm; exact absurd htm (by simp)
        | some x =>
          rw [hscan] at htm
          injection htm with htm
          injection htm with hrep hk
          subst hrep
          subst hk
          obtain ⟨r, hts⟩ := dotScanUntil_sound _ t x hscan
          subst hts
          have hwt2 : wt ("<li>".data ++ ((x ++ "</li>\n<li>".data) ++ r)) = true :=
            hwt
          rw [wt_append_right _ _ (by decide), List.append_assoc] at hwt2
          have hwt3 : wt (x ++ '<' :: ("/li>\n<li>".data ++ r)) = true := hwt2
          obtain ⟨hwx, hwlt⟩ := wt_split_at_lt hwt3
          have hwlt2 : wt ("</li>".data ++ '\n' :: ("<li>".data ++ r)) = true :=
            hwlt
          rw [wt_append_right _ _ (by decide),
            wt_cons_chr _ (by decide) (by decide),
            wt_append_right _ _ (by decide)] at hwlt2
          have hwrep : wt ("<li>".data ++
              ("<li>".data ++ x ++ "</li>\n<li>".data)) = true :=
            wt_append (by decide)
              (wt_append (wt_append (by decide) hwx) (by decide))
          have hdrop : ("li>".data ++ ((x ++ "</li>\n<li>".data) ++ r)).drop
              (13 + x.length) = r := by
            rw [show ("li>".data ++ ((x ++ "</li>\n<li>".data) ++ r)) =
              ("li>".data ++ (x ++ "</li>\n<li>".data)) ++ r by simp, List.drop_left']
            simp only [List.length_append, show "li>".data.length = 3 from rfl,
              show "</li>\n<li>".data.length = 10 from rfl]
            omega
          rw [raGoW_some hsome, hdrop]
          have hrlen : r.length ≤ n := by
            have h2 := hle
            simp only [List.length_cons, List.length_append,
              show "li>".data.length = 3 from rfl,
              show "</li>\n<li>".data.length = 10 from rfl] at h2
            omega
          exact wt_append hwrep (ih r _ hrlen hwlt2)

theorem dropWhile_head_false (q : Char → Bool) :
    ∀ (l : List Char) {c : Char} {t : List Char},
    l.dropWhile q = c :: t → q c = false
  | [], c, t, h => by simp at h
  | a :: l, c, t, h => by
    by_cases hq : q a = true
    · rw [List.dropWhile_cons_of_pos hq] at h
      exact dropWhile_head_false q l h
    · rw [List.dropWhile_cons_of_neg hq] at h
      injection h with h1 _
      subst h1
      cases hqa : q a
      · rfl
      · exact absurd hqa hq

theorem wt_pres_ul : ∀ (n : Nat) (s : List Char) (p : Option Char),
    s.length ≤ n → wt s = true → wt (raGoW tryUl p s) = true := by
  intro n
  induction n with
  | zero =>
    intro s p hle _
    have h0 : s = [] := List.length_eq_zero.mp (Nat.le_zero.mp hle)
    subst h0; rfl
  | succ n ih =>
    intro s p hle hwt
    cases s with
    | nil => rfl
    | cons c cs =>
      cases htm : tryUl p (c :: cs) with
      | none =>
        exact wt_pres_none_case tryUl ih hle hwt htm
          (fun {bd} hbd d q u hd _ => tryUl_nls (tag_d_nls hbd hd))
      | some rk =>
        obtain ⟨rep, k⟩ := rk
        by_cases hls : isLineStart p = true
        case neg =>
          rw [tryUl_nls (by simpa using hls)] at htm
          exact absurd htm (by simp)
        have hsome := htm
        unfold tryUl at htm
        rw [if_pos hls] at htm
        simp only [] at htm
        rw [dropWhile_drop_takeWhile] at htm
        generalize hws1 : (c :: cs).takeWhile isWs = ws1 at htm
        generalize hr1 : (c :: cs).dropWhile isWs = r1 at htm
        generalize hr2 : r1.drop 1 = r2 at htm
        rw [dropWhile_drop_takeWhile] at htm
        generalize hws2 : r2.takeWhile isWs = ws2 at htm
        generalize hbody : r2.dropWhile isWs = body at htm
        generalize hcontent : body.takeWhile isDotC = content at htm
        by_cases hmark :
            (pfx "-".data r1 || pfx "*".data r1 || pfx "+".data r1) = true
        case neg => rw [if_neg hmark] at htm; exact absurd htm (by simp)
        rw [if_pos hmark] at htm
        by_cases hws2e : ws2.isEmpty = true
        · rw [if_pos hws2e] at htm; exact absurd htm (by simp)
        rw [if_neg hws2e] at htm
        injection htm with htm
        injection htm with hrep hk
        subst hrep
        subst hk
        have hm2 : ∃ mk t, r1 = mk :: t ∧ (mk = '-' ∨ mk = '*' ∨ mk = '+') := by
          rw [Bool.or_eq_true, Bool.or_eq_true] at hmark
          rcases hmark with (hm | hm) | hm <;>
            obtain ⟨t, ht1⟩ := (pfx_iff _ _).1 hm
          · exact ⟨'-', t, ht1, Or.inl rfl⟩
          · exact ⟨'*', t, ht1, Or.inr (Or.inl rfl)⟩
          · exact ⟨'+', t, ht1, Or.inr (Or.inr rfl)⟩
        obtain ⟨mk, t, ht1, hmk⟩ := hm2
        have hr2t : r2 = t := by
          rw [← hr2, ht1]
          rfl
        have ht2 : r1 = mk :: r2 := by
          rw [hr2t]; exact ht1
        have hmk1 : ¬ mk = '<' := by rcases hmk with rfl | rfl | rfl <;> decide
        have hmk2 : ¬ mk = '>' := by rcases hmk with rfl | rfl | rfl <;> decide
        have hs_split : c :: cs = ws1 ++ r1 := by
          rw [← hws1, ← hr1, List.takeWhile_append_dropWhile]
        have hr2_split : r2 = ws2 ++ body := by
          rw [← hws2, ← hbody, List.takeWhile_append_dropWhile]
        have hbody_split : body = content ++ body.dropWhile isDotC := by
          rw [← hcontent, List.takeWhile_append_dropWhile]
        generalize htail : body.dropWhile isDotC = tail at hbody_split
        have hws1f : ∀ x ∈ ws1, isWs x = true := by
          rw [← hws1]
          intro x hx
          exact List.mem_takeWhile_imp hx
        have hws2f : ∀ x ∈ ws2, isWs x = true := by
          rw [← hws2]
          intro x hx
          exact List.mem_takeWhile_imp hx
        have hbig : c :: cs = ws1 ++ (mk :: (ws2 ++ (content ++ tail))) := by
          rw [hs_split, ht2, hr2_split, hbody_split]
        have hwt1 : wt (content ++ tail) = true := by
          have h2 : wt (ws1 ++ (mk :: (ws2 ++ (content ++ tail)))) = true := by
            rw [← hbig]; exact hwt
          rw [wt_append_free ws1 _ (fun x hx => isWs_good (hws1f x hx)),
            wt_cons_chr _ hmk1 hmk2,
            wt_append_free ws2 _ (fun x hx => isWs_good (hws2f x hx))] at h2
          exact h2
        have hboth : wt content = true ∧ wt tail = true := by
          cases tail with
          | nil =>
            rw [List.append_nil] at hwt1
            exact ⟨hwt1, rfl⟩
          | cons lt t₃ =>
            have hdot : isDotC lt = false := dropWhile_head_false _ body htail
            have hlt : isLineTerm lt = true := by
              unfold isDotC at hdot
              simpa using hdot
            have hlt2 : lt = '\n' ∨ lt = '\r' := by
              simpa [isLineTerm] using hlt
            rcases hlt2 with rfl | rfl
            · obtain ⟨hwc, hw3⟩ :=
                wt_split_safe safe_nl (by decide) (by decide) hwt1
              exact ⟨hwc, by rw [wt_cons_chr _ (by decide) (by decide)]; exact hw3⟩
            · obtain ⟨hwc, hw3⟩ :=
                wt_split_safe safe_cr (by decide) (by decide) hwt1
              exact ⟨hwc, by rw [wt_cons_chr _ (by decide) (by decide)]; exact hw3⟩
        have hwrep : wt ("<li>".data ++ content ++ "</li>".data) = true :=
          wt_append (wt_append (by decide) hboth.1) (by decide)
        have h5 : (c :: cs).drop
            ((ws1.length + ws2.length + content.length) + 1) = tail := by
          rw [hbig, show ws1 ++ (mk :: (ws2 ++ (content ++ tail))) =
            (ws1 ++ (mk :: (ws2 ++ content))) ++ tail by simp, List.drop_left']
          simp only [List.length_append, List.length_cons]
          omega
        have hdrop : cs.drop (ws1.length + ws2.length + content.length) = tail :=
          h5
        rw [raGoW_some hsome, hdrop]
        have hrlen : tail.length ≤ n := by
          have h2 := hle
          rw [hbig] at h2
          simp only [List.length_cons, List.length_append] at h2
          omega
        exact wt_append hwrep (ih tail _ hrlen hboth.2)

theorem wt_content_tail {body content tail : List Char}
    (htail : body.dropWhile isDotC = tail)
    (hwt1 : wt (content ++ tail) = true) :
    wt content = true ∧ wt tail = true := by
  cases tail with
  | nil => rw [List.append_nil] at hwt1; exact ⟨hwt1, rfl⟩
  | cons lt t₃ =>
    have hdot : isDotC lt = false := dropWhile_head_false _ body htail
    have hlt : isLineTerm lt = true := by
      unfold isDotC at hdot; simpa using hdot
    have hlt2 : lt = '\n' ∨ lt = '\r' := by simpa [isLineTerm] using hlt
    rcases hlt2 with rfl | rfl
    · obtain ⟨hwc, hw3⟩ := wt_split_safe safe_nl (by decide) (by decide) hwt1
      exact ⟨hwc, by rw [wt_cons_chr _ (by decide) (by decide)]; exact hw3⟩
    · obtain ⟨hwc, hw3⟩ := wt_split_safe safe_cr (by decide) (by decide) hwt1
      exact ⟨hwc, by rw [wt_cons_chr _ (by decide) (by decide)]; exact hw3⟩

theorem wt_pres_ol : ∀ (n : Nat) (s : List Char) (p : Option Char),
    s.length ≤ n → wt s = true → wt (raGoW tryOl p s) = true := by
  intro n
  induction n with
  | zero =>
    intro s p hle _
    have h0 : s = [] := List.length_eq_zero.mp (Nat.le_zero.mp hle)
    subst h0; rfl
  | succ n ih =>
    intro s p hle hwt
    cases s with
    | nil => rfl
    | cons c cs =>
      cases htm : tryOl p (c :: cs) with
      | none =>
        exact wt_pres_none_case tryOl ih hle hwt htm
          (fun {bd} hbd d q u hd _ => tryOl_nls (tag_d_nls hbd hd))
      | some rk =>
        obtain ⟨rep, k⟩ := rk
        by_cases hls : isLineStart p = true
        case neg =>
          rw [tryOl_nls (by simpa using hls)] at htm
          exact absurd htm (by simp)
        have hsome := htm
        unfold tryOl at htm
        rw [if_pos hls] at htm
        simp only [] at htm
        rw [dropWhile_drop_takeWhile] at htm
        generalize hws1 : (c :: cs).takeWhile isWs = ws1 at htm
        generalize hr1 : (c :: cs).dropWhile isWs = r1 at htm
        rw [dropWhile_drop_takeWhile] at htm
        generalize hds : r1.takeWhile isDigitC = ds at htm
        generalize hd1 : r1.dropWhile isDigitC = d1 at htm
        generalize hr2 : d1.drop 1 = r2 at htm
        rw [dropWhile_drop_takeWhile] at htm
        generalize hws2 : r2.takeWhile isWs = ws2 at htm
        generalize hbody : r2.dropWhile isWs = body at htm
        generalize hcontent : body.takeWhile isDotC = content at htm
        by_cases hdse : ds.isEmpty = true
        · rw [if_pos hdse] at htm; exact absurd htm (by simp)
        rw [if_neg hdse] at htm
        by_cases hdot : pfx ".".data d1 = true
        case neg => rw [if_neg hdot] at htm; exact absurd htm (by simp)
        rw [if_pos hdot] at htm
        by_cases hws2e : ws2.isEmpty = true
        · rw [if_pos hws2e] at htm; exact absurd htm (by simp)
        rw [if_neg hws2e] at htm
        injection htm with htm
        injection htm with hrep hk
        subst hrep
        subst hk
        obtain ⟨t, ht1⟩ := (pfx_iff _ _).1 hdot
        have hr2t : r2 = t := by
          rw [← hr2, ht1]
          rfl
        have ht2 : d1 = '.' :: r2 := by
          rw [hr2t]; exact ht1
        have hs_split : c :: cs = ws1 ++ r1 := by
          rw [← hws1, ← hr1, List.takeWhile_append_dropWhile]
        have hr1_split : r1 = ds ++ d1 := by
          rw [← hds, ← hd1, List.takeWhile_append_dropWhile]
        have hr2_split : r2 = ws2 ++ body := by
          rw [← hws2, ← hbody, List.takeWhile_append_dropWhile]
        have hbody_split : body = content ++ body.dropWhile isDotC := by
          rw [← hcontent, List.takeWhile_append_dropWhile]
        generalize htail : body.dropWhile isDotC = tail at hbody_split
        have hws1f : ∀ x ∈ ws1, isWs x = true := by
          rw [← hws1]; intro x hx; exact List.mem_takeWhile_imp hx
        have hws2f : ∀ x ∈ ws2, isWs x = true := by
          rw [← hws2]; intro x hx; exact List.mem_takeWhile_imp hx
        have hdsf : ∀ x ∈ ds, isDigitC x = true := by
          rw [← hds]; intro x hx; exact List.mem_takeWhile_imp hx
        have hbig : c :: cs =
            ws1 ++ (ds ++ ('.' :: (ws2 ++ (content ++ tail)))) := by
          rw [hs_split, hr1_split, ht2, hr2_split, hbody_split]
        have hwt1 : wt (content ++ tail) = true := by
          have h2 : wt (ws1 ++ (ds ++ ('.' :: (ws2 ++ (content ++ tail))))) =
              true := by
            rw [← hbig]; exact hwt
          rw [wt_append_free ws1 _ (fun x hx => isWs_good (hws1f x hx)),
            wt_append_free ds _ (fun x hx => isDigitC_good (hdsf x hx)),
            wt_cons_chr _ (by decide) (by decide),
            wt_append_free ws2 _ (fun x hx => isWs_good (hws2f x hx))] at h2
          exact h2
        obtain ⟨hwc, hwtail⟩ := wt_content_tail htail hwt1
        have hwrep : wt ("<li>".data ++ content ++ "</li>".data) = true :=
          wt_append (wt_append (by decide) hwc) (by decide)
        have h5 : (c :: cs).drop
            ((ws1.length + ds.length + ws2.length + content.length) + 1) =
            tail := by
          rw [hbig, show ws1 ++ (ds ++ ('.' :: (ws2 ++ (content ++ tail)))) =
            (ws1 ++ (ds ++ ('.' :: (ws2 ++ content)))) ++ tail by simp,
            List.drop_left']
          simp only [List.length_append, List.length_cons]
          omega
        have hdrop : cs.drop
            (ws1.length + ds.length + ws2.length + content.length) = tail := h5
        rw [raGoW_some hsome, hdrop]
        have hrlen : tail.length ≤ n := by
          have h2 := hle
          rw [hbig] at h2
          simp only [List.length_cons, List.length_append] at h2
          omega
        exact wt_append hwrep (ih tail _ hrlen hwtail)

theorem wt_pres_h3 : ∀ (n : Nat) (s : List Char) (p : Option Char),
    s.length ≤ n → wt s = true → wt (raGoW tryH3 p s) = true := by
  intro n
  induction n with
  | zero =>
    intro s p hle _
    have h0 : s = [] := List.length_eq_zero.mp (Nat.le_zero.mp hle)
    subst h0; rfl
  | succ n ih =>
    intro s p hle hwt
    cases s with
    | nil => rfl
    | cons c cs =>
      cases htm : tryH3 p (c :: cs) with
      | none =>
        exact wt_pres_none_case tryH3 ih hle hwt htm
          (fun {bd} hbd d q u hd _ => tryH3_nls (tag_d_nls hbd hd))
      | some rk =>
        obtain ⟨rep, k⟩ := rk
        by_cases hcond : (isLineStart p && pfx "###".data (c :: cs)) = true
        case neg =>
          have hnone : tryH3 p (c :: cs) = none := by
            unfold tryH3; rw [if_neg hcond]
          rw [hnone] at htm; exact absurd htm (by simp)
        have hpf : pfx "###".data (c :: cs) = true := by
          have h2 := hcond; rw [Bool.and_eq_true] at h2; exact h2.2
        obtain ⟨t, ht⟩ := (pfx_iff _ _).1 hpf
        have hc : c = '#' := (pfx_cons_head hpf).symm
        subst hc
        have hcs : cs = "##".data ++ t := by injection ht with _ h
        subst hcs
        have hsome := htm
        unfold tryH3 at htm
        rw [if_pos hcond] at htm
        simp only [] at htm
        have hrt : ('#' :: ("##".data ++ t)).drop 3 = t := rfl
        rw [hrt, dropWhile_drop_takeWhile] at htm
        generalize hws : t.takeWhile isWs = ws at htm
        generalize hbody : t.dropWhile isWs = body at htm
        generalize hcontent : body.takeWhile isDotC = content at htm
        by_cases hwse : ws.isEmpty = true
        · rw [if_pos hwse] at htm; exact absurd htm (by simp)
        rw [if_neg hwse] at htm
        injection htm with htm
        injection htm with hrep hk
        subst hrep
        subst hk
        have ht_split : t = ws ++ body := by
          rw [← hws, ← hbody, List.takeWhile_append_dropWhile]
        have hbody_split : body = content ++ body.dropWhile isDotC := by
          rw [← hcontent, List.takeWhile_append_dropWhile]
        generalize htail : body.dropWhile isDotC = tail at hbody_split
        have hwsf : ∀ x ∈ ws, isWs x = true := by
          rw [← hws]; intro x hx; exact List.mem_takeWhile_imp hx
        have hbig : '#' :: ("##".data ++ t) =
            '#' :: ('#' :: ('#' :: (ws ++ (content ++ tail)))) := by
          rw [ht_split, hbody_split]
          rfl
        have hwt1 : wt (content ++ tail) = true := by
          have h2 : wt ('#' :: ('#' :: ('#' :: (ws ++ (content ++ tail))))) =
              true := by
            rw [← hbig]; exact hwt
          rw [wt_cons_chr _ (by decide) (by decide),
            wt_cons_chr _ (by decide) (by decide),
            wt_cons_chr _ (by decide) (by decide),
            wt_append_free ws _ (fun x hx => isWs_good (hwsf x hx))] at h2
          exact h2
        obtain ⟨hwc, hwtail⟩ := wt_content_tail htail hwt1
        have hwrep : wt ("<h3>".data ++ content ++ "</h3>".data) = true :=
          wt_append (wt_append (by decide) hwc) (by decide)
        have h5 : ('#' :: ("##".data ++ t)).drop
            ((2 + ws.length + content.length) + 1) = tail := by
          rw [hbig, show '#' :: ('#' :: ('#' :: (ws ++ (content ++ tail)))) =
            ('#' :: ('#' :: ('#' :: (ws ++ content)))) ++ tail by simp,
            List.drop_left']
          simp only [List.length_append, List.length_cons]
          omega
        have hdrop : ("##".data ++ t).drop (2 + ws.length + content.length) =
            tail := h5
        rw [raGoW_some hsome, hdrop]
        have hrlen : tail.length ≤ n := by
          have h2 := hle
          rw [hbig] at h2
          simp only [List.length_cons, List.length_append] at h2
          omega
        exact wt_append hwrep (ih tail _ hrlen hwtail)

theorem wt_pres_h2 : ∀ (n : Nat) (s : List Char) (p : Option Char),
    s.length ≤ n → wt s = true → wt (raGoW tryH2 p s) = true := by
  intro n
  induction n with
  | zero =>
    intro s p hle _
    have h0 : s = [] := List.length_eq_zero.mp (Nat.le_zero.mp hle)
    subst h0; rfl
  | succ n ih =>
    intro s p hle hwt
    cases s with
    | nil => rfl
    | cons c cs =>
      cases htm : tryH2 p (c :: cs) with
      | none =>
        exact wt_pres_none_case tryH2 ih hle hwt htm
          (fun {bd} hbd d q u hd _ => tryH2_nls (tag_d_nls hbd hd))
      | some rk =>
        obtain ⟨rep, k⟩ := rk
        by_cases hcond : (isLineStart p && pfx "##".data (c :: cs)) = true
        case neg =>
          have hnone : tryH2 p (c :: cs) = none := by
            unfold tryH2; rw [if_neg hcond]
          rw [hnone] at htm; exact absurd htm (by simp)
        have hpf : pfx "##".data (c :: cs) = true := by
          have h2 := hcond; rw [Bool.and_eq_true] at h2; exact h2.2
        obtain ⟨t, ht⟩ := (pfx_iff _ _).1 hpf
        have hc : c = '#' := (pfx_cons_head hpf).symm
        subst hc
        have hcs : cs = "#".data ++ t := by injection ht with _ h
        subst hcs
        have hsome := htm
        unfold tryH2 at htm
        rw [if_pos hcond] at htm
        simp only [] at htm
        have hrt : ('#' :: ("#".data ++ t)).drop 2 = t := rfl
        rw [hrt, dropWhile_drop_takeWhile] at htm
        generalize hws : t.takeWhile isWs = ws at htm
        generalize hbody : t.dropWhile isWs = body at htm
        generalize hcontent : body.takeWhile isDotC = content at htm
        by_cases hwse : ws.isEmpty = true
        · rw [if_pos hwse] at htm; exact absurd htm (by simp)
        rw [if_neg hwse] at htm
        injection htm with htm
        injection htm with hrep hk
        subst hrep
        subst hk
        have ht_split : t = ws ++ body := by
          rw [← hws, ← hbody, List.takeWhile_append_dropWhile]
        have hbody_split : body = content ++ body.dropWhile isDotC := by
          rw [← hcontent, List.takeWhile_append_dropWhile]
        generalize htail : body.dropWhile isDotC = tail at hbody_split
        have hwsf : ∀ x ∈ ws, isWs x = true := by
          rw [← hws]; intro x hx; exact List.mem_takeWhile_imp hx
        have hbig : '#' :: ("#".data ++ t) =
            '#' :: ('#' :: (ws ++ (content ++ tail))) := by
          rw [ht_split, hbody_split]
          rfl
        have hwt1 : wt (content ++ tail) = true := by
          have h2 : wt ('#' :: ('#' :: (ws ++ (content ++ tail)))) = true := by
            rw [← hbig]; exact hwt
          rw [wt_cons_chr _ (by decide) (by decide),
            wt_cons_chr _ (by decide) (by decide),
            wt_append_free ws _ (fun x hx => isWs_good (hwsf x hx))] at h2
          exact h2
        obtain ⟨hwc, hwtail⟩ := wt_content_tail htail hwt1
        have hwrep : wt ("<h2>".data ++ content ++ "</h2>".data) = true :=
          wt_append (wt_append (by decide) hwc) (by decide)
        have h5 : ('#' :: ("#".data ++ t)).drop
            ((1 + ws.length + content.length) + 1) = tail := by
          rw [hbig, show '#' :: ('#' :: (ws ++ (content ++ tail))) =
            ('#' :: ('#' :: (ws ++ content))) ++ tail by simp,
            List.drop_left']
          simp only [List.length_append, List.length_cons]
          omega
        have hdrop : ("#".data ++ t).drop (1 + ws.length + content.length) =
            tail := h5
        rw [raGoW_some hsome, hdrop]
        have hrlen : tail.length ≤ n := by
          have h2 := hle
          rw [hbig] at h2
          simp only [List.length_cons, List.length_append] at h2
          omega
        exact wt_append hwrep (ih tail _ hrlen hwtail)

theorem wt_pres_h1 : ∀ (n : Nat) (s : List Char) (p : Option Char),
    s.length ≤ n → wt s = true → wt (raGoW tryH1 p s) = true := by
  intro n
  induction n with
  | zero =>
    intro s p hle _
    have h0 : s = [] := List.length_eq_zero.mp (Nat.le_zero.mp hle)
    subst h0; rfl
  | succ n ih =>
    intro s p hle hwt
    cases s with
    | nil => rfl
    | cons c cs =>
      cases htm : tryH1 p (c :: cs) with
      | none =>
        exact wt_pres_none_case tryH1 ih hle hwt htm
          (fun {bd} hbd d q u hd _ => tryH1_nls (tag_d_nls hbd hd))
      | some rk =>
        obtain ⟨rep, k⟩ := rk
        by_cases hcond : (isLineStart p && pfx "#".data (c :: cs)) = true
        case neg =>
          have hnone : tryH1 p (c :: cs) = none := by
            unfold tryH1; rw [if_neg hcond]
          rw [hnone] at htm; exact absurd htm (by simp)
        have hpf : pfx "#".data (c :: cs) = true := by
          have h2 := hcond; rw [Bool.and_eq_true] at h2; exact h2.2
        have hc : c = '#' := (pfx_cons_head hpf).symm
        subst hc
        have hsome := htm
        unfold tryH1 at htm
        rw [if_pos hcond] at htm
        simp only [] at htm
        have hrt : ('#' :: cs).drop 1 = cs := rfl
        rw [hrt, dropWhile_drop_takeWhile] at htm
        generalize hws : cs.takeWhile isWs = ws at htm
        generalize hbody : cs.dropWhile isWs = body at htm
        generalize hcontent : body.takeWhile isDotC = content at htm
        by_cases hwse : ws.isEmpty = true
        · rw [if_pos hwse] at htm; exact absurd htm (by simp)
        rw [if_neg hwse] at htm
        injection htm with htm
        injection htm with hrep hk
        subst hrep
        subst hk
        have ht_split : cs = ws ++ body := by
          rw [← hws, ← hbody, List.takeWhile_append_dropWhile]
        have hbody_split : body = content ++ body.dropWhile isDotC := by
          rw [← hcontent, List.takeWhile_append_dropWhile]
        generalize htail : body.dropWhile isDotC = tail at hbody_split
        have hwsf : ∀ x ∈ ws, isWs x = true := by
          rw [← hws]; intro x hx; exact List.mem_takeWhile_imp hx
        have hbig : '#' :: cs = '#' :: (ws ++ (content ++ tail)) := by
          rw [ht_split, hbody_split]
        have hwt1 : wt (content ++ tail) = true := by
          have h2 : wt ('#' :: (ws ++ (content ++ tail))) = true := by
            rw [← hbig]; exact hwt
          rw [wt_cons_chr _ (by decide) (by decide),
            wt_append_free ws _ (fun x hx => isWs_good (hwsf x hx))] at h2
          exact h2
        obtain ⟨hwc, hwtail⟩ := wt_content_tail htail hwt1
        have hwrep : wt ("<h1>".data ++ content ++ "</h1>".data) = true :=
          wt_append (wt_append (by decide) hwc) (by decide)
        have h5 : ('#' :: cs).drop ((ws.length + content.length) + 1) =
            tail := by
          rw [hbig, show '#' :: (ws ++ (content ++ tail)) =
            ('#' :: (ws ++ content)) ++ tail by simp, List.drop_left']
          simp only [List.length_append, List.length_cons]
          try omega
        have hdrop : cs.drop (ws.length + content.length) = tail := h5
        rw [raGoW_some hsome, hdrop]
        have hrlen : tail.length ≤ n := by
          have h2 := hle
          rw [hbig] at h2
          simp only [List.length_cons, List.length_append] at h2
          omega
        exact wt_append hwrep (ih tail _ hrlen hwtail)

set_option maxHeartbeats 1000000 in
theorem wt_pres_para : ∀ (n : Nat) (s : List Char) (p : Option Char),
    s.length ≤ n → wt s = true → wt (raGoW tryPara p s) = true := by
  intro n
  induction n with
  | zero =>
    intro s p hle _
    have h0 : s = [] := List.length_eq_zero.mp (Nat.le_zero.mp hle)
    subst h0; rfl
  | succ n ih =>
    intro s p hle hwt
    cases s with
    | nil => rfl
    | cons c cs =>
      cases htm : tryPara p (c :: cs) with
      | none =>
        exact wt_pres_none_case tryPara ih hle hwt htm
          (fun {bd} hbd d q u _ hq => tryPara_hd (some d) (tag_q_facts hbd hq).2.2.2)
      | some rk =>
        obtain ⟨rep, k⟩ := rk
        by_cases hpf : pfx "\n\n".data (c :: cs) = true
        case neg =>
          have hnone : tryPara p (c :: cs) = none := by
            unfold tryPara; rw [if_neg hpf]
          rw [hnone] at htm; exact absurd htm (by simp)
        obtain ⟨t, ht⟩ := (pfx_iff _ _).1 hpf
        have hc : c = '\n' := (pfx_cons_head hpf).symm
        subst hc
        have hcs : cs = "\n".data ++ t := by injection ht with _ h
        subst hcs
        have hsome := htm
        unfold tryPara at htm
        rw [if_pos hpf] at htm
        simp only [] at htm
        have hrt : ('\n' :: ("\n".data ++ t)).drop 2 = t := rfl
        rw [hrt] at htm
        by_cases hemp : t.isEmpty = true
        · rw [if_pos hemp] at htm; exact absurd htm (by simp)
        rw [if_neg hemp] at htm
        generalize hcontent : paraContent t = content at htm
        cases t with
        | nil => exact absurd hemp (by simp)
        | cons t₀ t₁ =>
          have hcon2 : t₀ :: paraTake t₁ = content := hcontent
          obtain ⟨tail, htp, hor⟩ := paraTake_sound t₁
          have ht5 : t₀ :: t₁ = content ++ tail := by
            rw [← hcon2, List.cons_append, ← htp]
          -- well-taggedness of the pieces
          have hwt1 : wt (content ++ tail) = true := by
            have h2 : wt (t₀ :: t₁) = true := by
              rw [show wt ('\n' :: ("\n".data ++ (t₀ :: t₁))) =
                wt (t₀ :: t₁) from by
                  rw [show ('\n' :: ("\n".data ++ (t₀ :: t₁)) : List Char) =
                    '\n' :: '\n' :: (t₀ :: t₁) from rfl,
                    wt_cons_chr _ (by decide) (by decide),
                    wt_cons_chr _ (by decide) (by decide)]] at hwt
              exact hwt
            rw [← ht5]
            exact h2
          have hboth : wt content = true ∧ wt tail = true := by
            rcases hor with rfl | hor
            · rw [List.append_nil] at hwt1
              exact ⟨hwt1, rfl⟩
            · obtain ⟨t₄, htt⟩ := (pfx_iff _ _).1 hor
              have htt2 : tail = '\n' :: ('\n' :: t₄) := htt
              rw [htt2] at hwt1
              obtain ⟨hwc, hw3⟩ :=
                wt_split_safe safe_nl (by decide) (by decide) hwt1
              refine ⟨hwc, ?_⟩
              rw [htt2, wt_cons_chr _ (by decide) (by decide),
                wt_cons_chr _ (by decide) (by decide)]
              rw [wt_cons_chr _ (by decide) (by decide)] at hw3
              exact hw3
          -- the replacement in both branches
          have hdrop : ("\n".data ++ (t₀ :: t₁)).drop (1 + content.length) =
              tail := by
            rw [Nat.add_comm,
              show ("\n".data ++ (t₀ :: t₁) : List Char) =
                '\n' :: (t₀ :: t₁) from rfl,
              List.drop_succ_cons, ht5, List.drop_left]
          have hrlen : tail.length ≤ n := by
            have h2 := hle
            rw [show ('\n' :: ("\n".data ++ (t₀ :: t₁)) : List Char) =
              '\n' :: '\n' :: (t₀ :: t₁) from rfl, ht5] at h2
            simp only [List.length_cons, List.length_append] at h2
            omega
          by_cases hcond : (pfx "<".data (trimJS content) ||
              containsSub "</".data content || containsSub "<li>".data content ||
              containsSub "<code>".data content) = true
          · rw [if_pos hcond] at htm
            injection htm with htm
            injection htm with hrep hk
            subst hrep
            subst hk
            rw [raGoW_some hsome, hdrop]
            refine wt_append ?_ (ih tail _ hrlen hboth.2)
            rw [wt_append_free "\n\n".data content (by decide)]
            exact hboth.1
          · rw [if_neg hcond] at htm
            injection htm with htm
            injection htm with hrep hk
            subst hrep
            subst hk
            rw [raGoW_some hsome, hdrop]
            refine wt_append ?_ (ih tail _ hrlen hboth.2)
            exact wt_append (wt_append (by decide) hboth.1) (by decide)

theorem wt_pres_ulopen : ∀ (n : Nat) (s : List Char) (p : Option Char),
    s.length ≤ n → wt s = true → wt (raGoW tryUlOpen p s) = true := by
  intro n
  induction n with
  | zero =>
    intro s p hle _
    have h0 : s = [] := List.length_eq_zero.mp (Nat.le_zero.mp hle)
    subst h0; rfl
  | succ n ih =>
    intro s p hle hwt
    cases s with
    | nil => rfl
    | cons c cs =>
      cases htm : tryUlOpen p (c :: cs) with
      | some rk =>
        obtain ⟨rep, k⟩ := rk
        have hsome := htm
        unfold tryUlOpen at htm
        by_cases hb1 : (p.isNone && pfx "<li>".data (c :: cs)) = true
        · rw [if_pos hb1] at htm
          injection htm with htm
          injection htm with hrep hk
          subst hrep
          subst hk
          have hpf : pfx "<li>".data (c :: cs) = true := by
            have h2 := hb1; rw [Bool.and_eq_true] at h2; exact h2.2
          obtain ⟨t, ht⟩ := (pfx_iff _ _).1 hpf
          have hc : c = '<' := (pfx_cons_head hpf).symm
          subst hc
          have hcs : cs = "li>".data ++ t := by injection ht with _ h
          subst hcs
          have hdrop : ("li>".data ++ t).drop 3 = t := rfl
          rw [raGoW_some hsome, hdrop]
          have hwt2 : wt ("<li>".data ++ t) = true := hwt
          rw [wt_append_right _ _ (by decide)] at hwt2
          have hrlen : t.length ≤ n := by
            have h2 := hle
            simp only [List.length_cons, List.length_append,
              show "li>".data.length = 3 from rfl] at h2
            omega
          exact wt_append (by decide) (ih t _ hrlen hwt2)
        · rw [if_neg hb1] at htm
          have htm2 : (if (!(c == '<') && pfx "<li>".data cs) = true then
              some (c :: "<ul><li>".data, 4) else none) = some (rep, k) := htm
          by_cases hb2 : (!(c == '<') && pfx "<li>".data cs) = true
          case neg => rw [if_neg hb2] at htm2; exact absurd htm2 (by simp)
          rw [if_pos hb2] at htm2
          injection htm2 with htm2
          injection htm2 with hrep hk
          subst hrep
          subst hk
          have hnc : ¬ c = '<' := fun hh => by subst hh; simp at hb2
          have hpf2 : pfx "<li>".data cs = true := by
            have h2 := hb2; rw [Bool.and_eq_true] at h2; exact h2.2
          obtain ⟨t, ht⟩ := (pfx_iff _ _).1 hpf2
          subst ht
          by_cases hgt : c = '>'
          · subst hgt; rw [wt_gt] at hwt; exact absurd hwt (by decide)
          have hwt2 : wt ("<li>".data ++ t) = true := by
            rw [wt_cons_chr _ hnc hgt] at hwt
            exact hwt
          rw [wt_append_right _ _ (by decide)] at hwt2
          have hdrop : ("<li>".data ++ t).drop 4 = t := rfl
          rw [raGoW_some hsome, hdrop]
          have hwrep : wt (c :: "<ul><li>".data) = true := by
            rw [wt_cons_chr _ hnc hgt]; decide
          have hrlen : t.length ≤ n := by
            have h2 := hle
            simp only [List.length_cons, List.length_append,
              show "<li>".data.length = 4 from rfl] at h2
            omega
          exact wt_append hwrep (ih t _ hrlen hwt2)
      | none =>
        by_cases hc : c = '<'
        · subst hc
          obtain ⟨bd, r, he, hgt, hab, hr⟩ := wt_lt_inv hwt
          subst he
          have hrlen : r.length ≤ n := by
            have h2 := hle
            simp only [List.length_cons, List.length_append] at h2
            omega
          have hfail : ∀ (x₁ : List Char) (q : Char) (x₂ : List Char),
              '<' :: bd = x₁ ++ q :: x₂ →
              tryUlOpen (lastP p x₁) (q :: (x₂ ++ '>' :: r)) = none := by
            intro x₁ q x₂ hsplit
            cases x₁ with
            | nil =>
              rw [List.nil_append] at hsplit
              injection hsplit with h1 h2
              subst h1
              subst h2
              exact htm
            | cons y x₁' =>
              injection hsplit with hy hbd2
              have hq : q ∈ bd := by
                rw [hbd2]
                exact List.mem_append_right x₁' (List.mem_cons_self _ _)
              have hqlt : ¬ q = '<' := (allowedBody_chars hab q hq).1
              cases hgl : (y :: x₁').getLast? with
              | none =>
                exact absurd (List.getLast?_eq_none_iff.mp hgl) (by simp)
              | some d =>
                have hlp : lastP p (y :: x₁') = some d := by
                  unfold lastP; rw [hgl]
                rw [hlp]
                unfold tryUlOpen
                rw [if_neg (by simp)]
                show (if (!(q == '<') && pfx "<li>".data (x₂ ++ '>' :: r)) = true
                  then some (q :: "<ul><li>".data, 4) else none) = none
                rw [if_neg]
                intro hx
                rw [Bool.and_eq_true] at hx
                have hpf3 := hx.2
                cases x₂ with
                | nil => exact absurd (pfx_cons_head hpf3) (by decide)
                | cons e x₂' =>
                  have he2 : e ∈ bd := by
                    rw [hbd2]
                    refine List.mem_append_right x₁' ?_
                    exact List.mem_cons_of_mem q (List.mem_cons_self _ _)
                  exact (allowedBody_chars hab e he2).1 (pfx_cons_head hpf3).symm
          have hx : '<' :: (bd ++ '>' :: r) = ('<' :: bd) ++ ('>' :: r) := by simp
          rw [hx, raGoW_skip tryUlOpen ('<' :: bd) ('>' :: r) p hfail]
          obtain ⟨d₀, hlp0, hd0⟩ :
              ∃ d₀, lastP p ('<' :: bd) = some d₀ ∧ (d₀ = '<' ∨ d₀ ∈ bd) := by
            cases hgl : ('<' :: bd).getLast? with
            | none =>
              exact absurd (List.getLast?_eq_none_iff.mp hgl) (by simp)
            | some d₀ =>
              refine ⟨d₀, by unfold lastP; rw [hgl], ?_⟩
              have hdm : d₀ ∈ '<' :: bd := List.mem_of_mem_getLast? hgl
              rcases List.mem_cons.mp hdm with rfl | hdm2
              · exact Or.inl rfl
              · exact Or.inr hdm2
          rw [hlp0]
          by_cases hli : pfx "<li>".data r = true
          · obtain ⟨r₂, hr2⟩ := (pfx_iff _ _).1 hli
            subst hr2
            have heval2 : tryUlOpen (some d₀) ('>' :: ("<li>".data ++ r₂)) =
                some ('>' :: "<ul><li>".data, 4) := by
              unfold tryUlOpen
              rw [if_neg (by simp)]
              show (if (!('>' == '<') && pfx "<li>".data ("<li>".data ++ r₂)) = true
                then some ('>' :: "<ul><li>".data, 4) else none) =
                some ('>' :: "<ul><li>".data, 4)
              rw [if_pos]
              rw [Bool.and_eq_true]
              exact ⟨by decide, hli⟩
            have hdrop : ("<li>".data ++ r₂).drop 4 = r₂ := rfl
            rw [raGoW_some heval2, hdrop]
            rw [wt_append_right _ _ (by decide)] at hr
            have hr2len : r₂.length ≤ n := by
              have h2 := hrlen
              simp only [List.length_append,
                show "<li>".data.length = 4 from rfl] at h2
              omega
            have hre : ('<' :: bd) ++ (('>' :: "<ul><li>".data) ++
                raGoW tryUlOpen (some (('>' :: ("<li>".data ++ r₂)).getD 4 '>')) r₂) =
                '<' :: (bd ++ '>' :: ("<ul><li>".data ++
                  raGoW tryUlOpen (some (('>' :: ("<li>".data ++ r₂)).getD 4 '>')) r₂)) := by
              simp
            rw [hre, wt_tag _ _ hgt, hab, Bool.true_and]
            exact wt_append (by decide) (ih r₂ _ hr2len hr)
          · have heval2 : tryUlOpen (some d₀) ('>' :: r) = none := by
              unfold tryUlOpen
              rw [if_neg (by simp)]
              show (if (!('>' == '<') && pfx "<li>".data r) = true
                then some ('>' :: "<ul><li>".data, 4) else none) = none
              rw [if_neg]
              intro hx
              rw [Bool.and_eq_true] at hx
              exact hli hx.2
            rw [raGoW_none heval2]
            have hre : ('<' :: bd) ++ ('>' :: raGoW tryUlOpen (some '>') r) =
                '<' :: (bd ++ '>' :: raGoW tryUlOpen (some '>') r) := by simp
            rw [hre, wt_tag _ _ hgt, hab, Bool.true_and]
            exact ih r _ hrlen hr
        · by_cases hc2 : c = '>'
          · subst hc2; rw [wt_gt] at hwt; exact absurd hwt (by decide)
          · rw [raGoW_none htm, wt_cons_chr _ hc hc2]
            rw [wt_cons_chr _ hc hc2] at hwt
            have hlen : cs.length ≤ n := by
              have h2 := hle; simp only [List.length_cons] at h2; omega
            exact ih cs (some c) hlen hwt

theorem wt_pres_olopen : ∀ (n : Nat) (s : List Char) (p : Option Char),
    s.length ≤ n → wt s = true → wt (raGoW tryOlOpen p s) = true := by
  intro n
  induction n with
  | zero =>
    intro s p hle _
    have h0 : s = [] := List.length_eq_zero.mp (Nat.le_zero.mp hle)
    subst h0; rfl
  | succ n ih =>
    intro s p hle hwt
    cases s with
    | nil => rfl
    | cons c cs =>
      cases htm : tryOlOpen p (c :: cs) with
      | some rk =>
        obtain ⟨rep, k⟩ := rk
        have hsome := htm
        unfold tryOlOpen at htm
        by_cases hb1 : (p.isNone && pfx "<li>".data (c :: cs)) = true
        · rw [if_pos hb1] at htm
          injection htm with htm
          injection htm with hrep hk
          subst hrep
          subst hk
          have hpf : pfx "<li>".data (c :: cs) = true := by
            have h2 := hb1; rw [Bool.and_eq_true] at h2; exact h2.2
          obtain ⟨t, ht⟩ := (pfx_iff _ _).1 hpf
          have hc : c = '<' := (pfx_cons_head hpf).symm
          subst hc
          have hcs : cs = "li>".data ++ t := by injection ht with _ h
          subst hcs
          have hdrop : ("li>".data ++ t).drop 3 = t := rfl
          rw [raGoW_some hsome, hdrop]
          have hwt2 : wt ("<li>".data ++ t) = true := hwt
          rw [wt_append_right _ _ (by decide)] at hwt2
          have hrlen : t.length ≤ n := by
            have h2 := hle
            simp only [List.length_cons, List.length_append,
              show "li>".data.length = 3 from rfl] at h2
            omega
          exact wt_append (by decide) (ih t _ hrlen hwt2)
        · rw [if_neg hb1] at htm
          have htm2 : (if (!(c == '<') && pfx "<li>".data cs) = true then
              some (c :: "<ol><li>".data, 4) else none) = some (rep, k) := htm
          by_cases hb2 : (!(c == '<') && pfx "<li>".data cs) = true
          case neg => rw [if_neg hb2] at htm2; exact absurd htm2 (by simp)
          rw [if_pos hb2] at htm2
          injection htm2 with htm2
          injection htm2 with hrep hk
          subst hrep
          subst hk
          have hnc : ¬ c = '<' := fun hh => by subst hh; simp at hb2
          have hpf2 : pfx "<li>".data cs = true := by
            have h2 := hb2; rw [Bool.and_eq_true] at h2; exact h2.2
          obtain ⟨t, ht⟩ := (pfx_iff _ _).1 hpf2
          subst ht
          by_cases hgt : c = '>'
          · subst hgt; rw [wt_gt] at hwt; exact absurd hwt (by decide)
          have hwt2 : wt ("<li>".data ++ t) = true := by
            rw [wt_cons_chr _ hnc hgt] at hwt
            exact hwt
          rw [wt_append_right _ _ (by decide)] at hwt2
          have hdrop : ("<li>".data ++ t).drop 4 = t := rfl
          rw [raGoW_some hsome, hdrop]
          have hwrep : wt (c :: "<ol><li>".data) = true := by
            rw [wt_cons_chr _ hnc hgt]; decide
          have hrlen : t.length ≤ n := by
            have h2 := hle
            simp only [List.length_cons, List.length_append,
              show "<li>".data.length = 4 from rfl] at h2
            omega
          exact wt_append hwrep (ih t _ hrlen hwt2)
      | none =>
        by_cases hc : c = '<'
        · subst hc
          obtain ⟨bd, r, he, hgt, hab, hr⟩ := wt_lt_inv hwt
          subst he
          have hrlen : r.length ≤ n := by
            have h2 := hle
            simp only [List.length_cons, List.length_append] at h2
            omega
          have hfail : ∀ (x₁ : List Char) (q : Char) (x₂ : List Char),
              '<' :: bd = x₁ ++ q :: x₂ →
              tryOlOpen (lastP p x₁) (q :: (x₂ ++ '>' :: r)) = none := by
            intro x₁ q x₂ hsplit
            cases x₁ with
            | nil =>
              rw [List.nil_append] at hsplit
              injection hsplit with h1 h2
              subst h1
              subst h2
              exact htm
            | cons y x₁' =>
              injection hsplit with hy hbd2
              have hq : q ∈ bd := by
                rw [hbd2]
                exact List.mem_append_right x₁' (List.mem_cons_self _ _)
              have hqlt : ¬ q = '<' := (allowedBody_chars hab q hq).1
              cases hgl : (y :: x₁').getLast? with
              | none =>
                exact absurd (List.getLast?_eq_none_iff.mp hgl) (by simp)
              | some d =>
                have hlp : lastP p (y :: x₁') = some d := by
                  unfold lastP; rw [hgl]
                rw [hlp]
                unfold tryOlOpen
                rw [if_neg (by simp)]
                show (if (!(q == '<') && pfx "<li>".data (x₂ ++ '>' :: r)) = true
                  then some (q :: "<ol><li>".data, 4) else none) = none
                rw [if_neg]
                intro hx
                rw [Bool.and_eq_true] at hx
                have hpf3 := hx.2
                cases x₂ with
                | nil => exact absurd (pfx_cons_head hpf3) (by decide)
                | cons e x₂' =>
                  have he2 : e ∈ bd := by
                    rw [hbd2]
                    refine List.mem_append_right x₁' ?_
                    exact List.mem_cons_of_mem q (List.mem_cons_self _ _)
                  exact (allowedBody_chars hab e he2).1 (pfx_cons_head hpf3).symm
          have hx : '<' :: (bd ++ '>' :: r) = ('<' :: bd) ++ ('>' :: r) := by simp
          rw [hx, raGoW_skip tryOlOpen ('<' :: bd) ('>' :: r) p hfail]
          obtain ⟨d₀, hlp0, hd0⟩ :
              ∃ d₀, lastP p ('<' :: bd) = some d₀ ∧ (d₀ = '<' ∨ d₀ ∈ bd) := by
            cases hgl : ('<' :: bd).getLast? with
            | none =>
              exact absurd (List.getLast?_eq_none_iff.mp hgl) (by simp)
            | some d₀ =>
              refine ⟨d₀, by unfold lastP; rw [hgl], ?_⟩
              have hdm : d₀ ∈ '<' :: bd := List.mem_of_mem_getLast? hgl
              rcases List.mem_cons.mp hdm with rfl | hdm2
              · exact Or.inl rfl
              · exact Or.inr hdm2
          rw [hlp0]
          by_cases hli : pfx "<li>".data r = true
          · obtain ⟨r₂, hr2⟩ := (pfx_iff _ _).1 hli
            subst hr2
            have heval2 : tryOlOpen (some d₀) ('>' :: ("<li>".data ++ r₂)) =
                some ('>' :: "<ol><li>".data, 4) := by
              unfold tryOlOpen
              rw [if_neg (by simp)]
              show (if (!('>' == '<') && pfx "<li>".data ("<li>".data ++ r₂)) = true
                then some ('>' :: "<ol><li>".data, 4) else none) =
                some ('>' :: "<ol><li>".data, 4)
              rw [if_pos]
              rw [Bool.and_eq_true]
              exact ⟨by decide, hli⟩
            have hdrop : ("<li>".data ++ r₂).drop 4 = r₂ := rfl
            rw [raGoW_some heval2, hdrop]
            rw [wt_append_right _ _ (by decide)] at hr
            have hr2len : r₂.length ≤ n := by
              have h2 := hrlen
              simp only [List.length_append,
                show "<li>".data.length = 4 from rfl] at h2
              omega
            have hre : ('<' :: bd) ++ (('>' :: "<ol><li>".data) ++
                raGoW tryOlOpen (some (('>' :: ("<li>".data ++ r₂)).getD 4 '>')) r₂) =
                '<' :: (bd ++ '>' :: ("<ol><li>".data ++
                  raGoW tryOlOpen (some (('>' :: ("<li>".data ++ r₂)).getD 4 '>')) r₂)) := by
              simp
            rw [hre, wt_tag _ _ hgt, hab, Bool.true_and]
            exact wt_append (by decide) (ih r₂ _ hr2len hr)
          · have heval2 : tryOlOpen (some d₀) ('>' :: r) = none := by
              unfold tryOlOpen
              rw [if_neg (by simp)]
              show (if (!('>' == '<') && pfx "<li>".data r) = true
                then some ('>' :: "<ol><li>".data, 4) else none) = none
              rw [if_neg]
              intro hx
              rw [Bool.and_eq_true] at hx
              exact hli hx.2
            rw [raGoW_none heval2]
            have hre : ('<' :: bd) ++ ('>' :: raGoW tryOlOpen (some '>') r) =
                '<' :: (bd ++ '>' :: raGoW tryOlOpen (some '>') r) := by simp
            rw [hre, wt_tag _ _ hgt, hab, Bool.true_and]
            exact ih r _ hrlen hr
        · by_cases hc2 : c = '>'
          · subst hc2; rw [wt_gt] at hwt; exact absurd hwt (by decide)
          · rw [raGoW_none htm, wt_cons_chr _ hc hc2]
            rw [wt_cons_chr _ hc hc2] at hwt
            have hlen : cs.length ≤ n := by
              have h2 := hle; simp only [List.length_cons] at h2; omega
            exact ih cs (some c) hlen hwt

theorem dropWhile_append_all {q : Char → Bool} : ∀ {l₁ : List Char}
    (l₂ : List Char), (∀ x ∈ l₁, q x = true) →
    (l₁ ++ l₂).dropWhile q = l₂.dropWhile q
  | [], _, _ => rfl
  | a :: l₁, l₂, h => by
    rw [List.cons_append, List.dropWhile_cons_of_pos (h a (List.mem_cons_self _ _))]
    exact dropWhile_append_all l₂ (fun x hx => h x (List.mem_cons_of_mem a hx))

theorem wt_class_open {lang : List Char} (hl : ∀ x ∈ lang, isLower x = true) :
    wt ("<pre><code class=\"language-".data ++ lang ++ "\">".data) = true := by
  have h1 : "<pre><code class=\"language-".data ++ lang ++ "\">".data =
      "<pre>".data ++
        '<' :: (("code class=\"language-".data ++ lang ++ ['"']) ++ '>' :: []) := by
    simp
  have hgt2 : ∀ x ∈ ("code class=\"language-".data ++ lang ++ ['"']),
      ¬ x = '>' := by
    intro x hx
    rcases List.mem_append.mp hx with hx1 | hx2
    · rcases List.mem_append.mp hx1 with hx3 | hx4
      · have hc : ∀ y ∈ "code class=\"language-".data, ¬ y = '>' := by decide
        exact hc x hx3
      · have hl2 := hl x hx4
        rintro rfl
        exact absurd hl2 (by decide)
    · have hc : ∀ y ∈ ['"'], ¬ y = '>' := by decide
      exact hc x hx2
  rw [h1, wt_append_right _ _ (by decide), wt_tag _ _ hgt2]
  rw [show wt ([] : List Char) = true from rfl, Bool.and_true]
  unfold allowedBody
  rw [Bool.or_eq_true]
  right
  unfold isClassBody
  rw [Bool.and_eq_true]
  constructor
  · rw [pfx_iff]
    exact ⟨lang ++ ['"'], by simp⟩
  · have hd : ("code class=\"language-".data ++ lang ++ ['"']).drop
        ("code class=\"language-".data).length = lang ++ ['"'] := by
      rw [List.append_assoc, List.drop_left]
    rw [hd, dropWhile_append_all _ hl]
    rfl

theorem wt_fence : ∀ (n : Nat) (s : List Char) (p : Option Char),
    s.length ≤ n → (∀ c ∈ s, ¬ c = '<' ∧ ¬ c = '>') →
    wt (raGoW tryFence p s) = true := by
  intro n
  induction n with
  | zero =>
    intro s p hle _
    have h0 : s = [] := List.length_eq_zero.mp (Nat.le_zero.mp hle)
    subst h0; rfl
  | succ n ih =>
    intro s p hle hna
    cases s with
    | nil => rfl
    | cons c cs =>
      have hlen : cs.length ≤ n := by
        have h2 := hle; simp only [List.length_cons] at h2; omega
      cases htm : tryFence p (c :: cs) with
      | none =>
        have hc := hna c (List.mem_cons_self _ _)
        rw [raGoW_none htm, wt_cons_chr _ hc.1 hc.2]
        exact ih cs _ hlen (fun x hx => hna x (List.mem_cons_of_mem c hx))
      | some rk =>
        obtain ⟨rep, k⟩ := rk
        have hsome := htm
        by_cases hpf : pfx "```".data (c :: cs) = true
        case neg =>
          have hnone : tryFence p (c :: cs) = none := by
            unfold tryFence; rw [if_neg hpf]
          rw [hnone] at htm; exact absurd htm (by simp)
        obtain ⟨t, ht⟩ := (pfx_iff _ _).1 hpf
        have hc : c = '`' := (pfx_cons_head hpf).symm
        subst hc
        have hcs : cs = "``".data ++ t := by injection ht with _ h
        subst hcs
        unfold tryFence at htm
        rw [if_pos hpf] at htm
        simp only [] at htm
        have hrt : ('`' :: ("``".data ++ t)).drop 3 = t := rfl
        rw [hrt, dropWhile_drop_takeWhile] at htm
        generalize hlang : t.takeWhile isLower = lang at htm
        generalize hrem : t.dropWhile isLower = rem at htm
        by_cases hnl : pfx "\n".data rem = true
        case neg => rw [if_neg hnl] at htm; exact absurd htm (by simp)
        rw [if_pos hnl] at htm
        obtain ⟨u, hu⟩ := (pfx_iff _ _).1 hnl
        have hru : rem.drop 1 = u := by rw [hu]; rfl
        rw [hru] at htm
        cases hfs : fenceSplit u with
        | none => rw [hfs] at htm; exact absurd htm (by simp)
        | some cr =>
          obtain ⟨code, rest0⟩ := cr
          rw [hfs] at htm
          injection htm with htm
          injection htm with hrep hk
          subst hrep
          subst hk
          have husplit := fenceSplit_sound u code rest0 hfs
          have ht_split : t = lang ++ rem := by
            rw [← hlang, ← hrem, List.takeWhile_append_dropWhile]
          have hlangf : ∀ x ∈ lang, isLower x = true := by
            rw [← hlang]; intro x hx; exact List.mem_takeWhile_imp hx
          have hbig : '`' :: ("``".data ++ t) =
              ("```".data ++ lang) ++
                ('\n' :: ((code ++ "\n```".data) ++ rest0)) := by
            rw [ht_split, hu, husplit]
            simp
          have hnaall : ∀ x ∈ ("```".data ++ lang) ++
              ('\n' :: ((code ++ "\n```".data) ++ rest0)),
              ¬ x = '<' ∧ ¬ x = '>' := by
            rw [← hbig]; exact hna
          have hnacode : ∀ x ∈ code, ¬ x = '<' ∧ ¬ x = '>' := by
            intro x hx
            refine hnaall x ?_
            refine List.mem_append_right _ ?_
            refine List.mem_cons_of_mem _ ?_
            exact List.mem_append_left _ (List.mem_append_left _ hx)
          have hnarest : ∀ x ∈ rest0, ¬ x = '<' ∧ ¬ x = '>' := by
            intro x hx
            refine hnaall x ?_
            refine List.mem_append_right _ ?_
            refine List.mem_cons_of_mem _ ?_
            exact List.mem_append_right _ hx
          have h5 : ('`' :: ("``".data ++ t)).drop
              ((7 + lang.length + code.length) + 1) = rest0 := by
            rw [hbig, show ("```".data ++ lang) ++
              ('\n' :: ((code ++ "\n```".data) ++ rest0)) =
              (("```".data ++ lang) ++ ('\n' :: (code ++ "\n```".data))) ++ rest0
              by simp, List.drop_left']
            simp only [List.length_append, List.length_cons,
              show "```".data.length = 3 from rfl,
              show "\n```".data.length = 4 from rfl]
            omega
          have hdrop : ("``".data ++ t).drop (7 + lang.length + code.length) =
              rest0 := h5
          have hrlen : rest0.length ≤ n := by
            have h2 := hle
            rw [hbig] at h2
            simp only [List.length_cons, List.length_append] at h2
            omega
          rw [raGoW_some hsome, hdrop]
          have hwtrim : wt (trimJS code) = true :=
            wt_of_no_angle (fun x hx => hnacode x (trim_mem hx))
          refine wt_append ?_ (ih rest0 _ hrlen hnarest)
          by_cases hel : lang.isEmpty = true
          · rw [if_pos hel]
            exact wt_append (wt_append (by decide) hwtrim) (by decide)
          · rw [if_neg hel]
            exact wt_append (wt_append (wt_class_open hlangf) hwtrim) (by decide)

theorem cuScan_sound : ∀ (y : List Char) {x m : List Char},
    cuScan y = some (x, m) →
    m ∈ cuNames ∧
      ∃ r, y = x ++ ((("</".data ++ m) ++ ">".data) ++ "</p>".data) ++ r
  | [], x, m, h => by simp [cuScan] at h
  | c :: cs, x, m, h => by
    unfold cuScan at h
    cases hch : cuCloseHere (c :: cs) with
    | some m2 =>
      rw [hch] at h
      injection h with h1
      injection h1 with h2 h3
      subst h3
      unfold cuCloseHere at hch
      have hmem := List.mem_of_find?_eq_some hch
      have hpf := List.find?_some hch
      obtain ⟨r, hr⟩ := (pfx_iff _ _).1 hpf
      refine ⟨hmem, r, ?_⟩
      rw [← h2, List.nil_append, hr]
    | none =>
      rw [hch] at h
      by_cases hlt : isLineTerm c = true
      · rw [if_pos hlt] at h; exact absurd h (by simp)
      · rw [if_neg hlt] at h
        cases hsc : cuScan cs with
        | none => rw [hsc] at h; exact absurd h (by simp)
        | some xm =>
          obtain ⟨x2, m2⟩ := xm
          rw [hsc] at h
          injection h with h1
          injection h1 with h2 h3
          obtain ⟨hm2, r, hr⟩ := cuScan_sound cs hsc
          subst h3
          refine ⟨hm2, r, ?_⟩
          rw [← h2, hr]
          simp

set_option maxHeartbeats 1000000 in
theorem wt_pres_cleanup : ∀ (n : Nat) (s : List Char) (p : Option Char),
    s.length ≤ n → wt s = true → wt (raGoW tryCleanup p s) = true := by
  intro n
  induction n with
  | zero =>
    intro s p hle _
    have h0 : s = [] := List.length_eq_zero.mp (Nat.le_zero.mp hle)
    subst h0; rfl
  | succ n ih =>
    intro s p hle hwt
    cases s with
    | nil => rfl
    | cons c cs =>
      cases htm : tryCleanup p (c :: cs) with
      | none =>
        exact wt_pres_none_case tryCleanup ih hle hwt htm
          (fun {bd} hbd d q u _ hq =>
            tryCleanup_hd (some d) (tag_q_facts hbd hq).2.2.1)
      | some rk =>
        obtain ⟨rep, k⟩ := rk
        have hsome := htm
        by_cases hpf : pfx "<p>".data (c :: cs) = true
        case neg =>
          have hnone : tryCleanup p (c :: cs) = none := by
            unfold tryCleanup; rw [if_neg hpf]
          rw [hnone] at htm; exact absurd htm (by simp)
        obtain ⟨t₀, ht0⟩ := (pfx_iff _ _).1 hpf
        have hc : c = '<' := (pfx_cons_head hpf).symm
        subst hc
        have hcs : cs = "p>".data ++ t₀ := by injection ht0 with _ h
        subst hcs
        by_cases hpf2 : pfx "<".data (('<' :: ("p>".data ++ t₀)).drop 3) = true
        case neg =>
          have hnone : tryCleanup p ('<' :: ("p>".data ++ t₀)) = none := by
            unfold tryCleanup; rw [if_pos hpf, if_neg hpf2]
          rw [hnone] at htm; exact absurd htm (by simp)
        have hpf2b : pfx "<".data t₀ = true := hpf2
        obtain ⟨t, ht1⟩ := (pfx_iff _ _).1 hpf2b
        subst ht1
        unfold tryCleanup at htm
        rw [if_pos hpf, if_pos hpf2] at htm
        simp only [] at htm
        have hrt : (('<' :: ("p>".data ++ ("<".data ++ t))).drop 4) = t := rfl
        rw [hrt] at htm
        cases hfind : cuNames.find? (fun nm => pfx nm t) with
        | none => rw [hfind] at htm; exact absurd htm (by simp)
        | some nm =>
          rw [hfind] at htm
          simp only [] at htm
          have hnmem : nm ∈ cuNames := List.mem_of_find?_eq_some hfind
          have hnpfx : pfx nm t = true := by
            have h4 := List.find?_some hfind
            exact h4
          obtain ⟨t₂, ht2⟩ := (pfx_iff _ _).1 hnpfx
          have hdt : t.drop nm.length = t₂ := by rw [ht2, List.drop_left]
          rw [hdt] at htm
          cases hscan : cuScan t₂ with
          | none => rw [hscan] at htm; exact absurd htm (by simp)
          | some xm =>
            obtain ⟨x, m⟩ := xm
            rw [hscan] at htm
            simp only [] at htm
            injection htm with htm
            injection htm with hrep hk
            subst hrep
            subst hk
            obtain ⟨hmem, r, hts⟩ := cuScan_sound t₂ hscan
            subst ht2
            subst hts
            -- character facts about the block names
            have hmchars : ∀ y ∈ m, ¬ y = '>' ∧ ¬ y = '<' := by
              have hall : ∀ nm2 ∈ cuNames, ∀ y ∈ nm2, ¬ y = '>' ∧ ¬ y = '<' := by
                decide
              exact hall m hmem
            have hclosegt : ∀ y ∈ '/' :: m, ¬ y = '>' := by
              intro y hy
              rcases List.mem_cons.mp hy with rfl | hy2
              · decide
              · exact (hmchars y hy2).1
            -- the input around the match
            have hwt2 : wt ("<p>".data ++ ('<' :: (nm ++
                ((x ++ ((("</".data ++ m) ++ ">".data) ++ "</p>".data)) ++ r))))
                = true := hwt
            rw [wt_append_right _ _ (by decide)] at hwt2
            obtain ⟨bd, r', he2, hbgt, hab2, hwr'⟩ := wt_lt_inv hwt2
            have he3 : (nm ++ x) ++
                ('<' :: (('/' :: m) ++ '>' :: ("</p>".data ++ r))) =
                bd ++ '>' :: r' := by
              rw [← he2]
              simp
            have hblt : ∀ y ∈ bd, ¬ y = '<' :=
              fun y hy => (allowedBody_chars hab2 y hy).1
            rcases List.append_eq_append_iff.mp he3 with ⟨e, h1, h2⟩ | ⟨e, h1, h2⟩
            · exfalso
              cases e with
              | nil =>
                rw [List.nil_append] at h2
                injection h2 with hx _
                exact absurd hx (by decide)
              | cons y e' =>
                injection h2 with hy _
                apply hblt y ?_ hy.symm
                rw [h1]
                exact List.mem_append_right _ (List.mem_cons_self _ _)
            · cases e with
              | nil =>
                exfalso
                rw [List.nil_append] at h2
                injection h2 with hx _
                exact absurd hx (by decide)
              | cons y e' =>
                injection h2 with hy h3
                subst hy
                -- h1 : nm ++ x = bd ++ '>' :: e'
                -- h3 : r' = e' ++ '<' :: (('/' :: m) ++ '>' :: ("</p>".data ++ r))
                rw [h3] at hwr'
                obtain ⟨hwe', hwlt⟩ := wt_split_at_lt hwr'
                obtain ⟨bd₂, r₂', hv, hgt₂, hab₂, hwr₂⟩ := wt_lt_inv hwlt
                obtain ⟨hbd₂, hr₂'⟩ := first_gt_unique hv hclosegt hgt₂
                rw [← hbd₂] at hab₂
                rw [← hr₂'] at hwr₂
                rw [wt_append_right _ _ (by decide)] at hwr₂
                -- the replacement
                have hwrep : wt ('<' :: (nm ++ x ++ "</".data ++ m ++ ">".data))
                    = true := by
                  have hrepeq : '<' :: (nm ++ x ++ "</".data ++ m ++ ">".data) =
                      '<' :: (bd ++ '>' ::
                        (e' ++ ('<' :: (('/' :: m) ++ '>' :: [])))) := by
                    rw [show nm ++ x ++ "</".data ++ m ++ ">".data =
                      (nm ++ x) ++ ("</".data ++ m ++ ">".data) from by simp, h1]
                    simp
                  rw [hrepeq, wt_tag _ _ hbgt, hab2, Bool.true_and]
                  refine wt_append hwe' ?_
                  rw [wt_tag _ _ hclosegt, hab₂, Bool.true_and]
                  rfl
                -- the continuation
                have hbig : '<' :: ("p>".data ++ ("<".data ++ (nm ++
                    ((x ++ ((("</".data ++ m) ++ ">".data) ++ "</p>".data)) ++ r))))
                    = ("<p>".data ++ ('<' :: ((nm ++ x) ++
                      (("</".data ++ m) ++ ">".data ++ "</p>".data)))) ++ r := by
                  simp
                have h5 : ('<' :: ("p>".data ++ ("<".data ++ (nm ++
                    ((x ++ ((("</".data ++ m) ++ ">".data) ++ "</p>".data)) ++ r))))).drop
                    ((6 + ('<' :: (nm ++ x ++ "</".data ++ m ++ ">".data)).length)
                      + 1) = r := by
                  rw [hbig, List.drop_left']
                  simp only [List.length_append, List.length_cons,
                    show "<p>".data.length = 3 from rfl,
                    show "</".data.length = 2 from rfl,
                    show ">".data.length = 1 from rfl,
                    show "</p>".data.length = 4 from rfl]
                  omega
                have hdrop : ("p>".data ++ ("<".data ++ (nm ++
                    ((x ++ ((("</".data ++ m) ++ ">".data) ++ "</p>".data)) ++ r)))).drop
                    (6 + ('<' :: (nm ++ x ++ "</".data ++ m ++ ">".data)).length)
                    = r := h5
                have hrlen : r.length ≤ n := by
                  have h2b := hle
                  rw [hbig] at h2b
                  simp only [List.length_cons, List.length_append] at h2b
                  omega
                rw [raGoW_some hsome, hdrop]
                exact wt_append hwrep (ih r _ hrlen hwr₂)

/-! ## The line-break and trim steps preserve well-taggedness -/

theorem brStep_append : ∀ (a b : List Char),
    brStep (a ++ b) = brStep a ++ brStep b
  | [], _ => rfl
  | c :: a, b => by
    show (if c == '\n' then "<br>".data else [c]) ++ brStep (a ++ b) =
      ((if c == '\n' then "<br>".data else [c]) ++ brStep a) ++ brStep b
    rw [brStep_append a b, List.append_assoc]

theorem wt_brStep : ∀ (n : Nat) (s : List Char), s.length ≤ n →
    wt s = true → wt (brStep s) = true := by
  intro n
  induction n with
  | zero =>
    intro s hle _
    have h0 : s = [] := List.length_eq_zero.mp (Nat.le_zero.mp hle)
    subst h0; rfl
  | succ n ih =>
    intro s hle hwt
    cases s with
    | nil => rfl
    | cons c cs =>
      have hlen : cs.length ≤ n := by
        have h2 := hle; simp only [List.length_cons] at h2; omega
      by_cases hc : c = '<'
      · subst hc
        obtain ⟨bd, r, he, hgt, hab, hr⟩ := wt_lt_inv hwt
        subst he
        have hrlen : r.length ≤ n := by
          have h2 := hle
          simp only [List.length_cons, List.length_append] at h2
          omega
        have htag : brStep ('<' :: (bd ++ '>' :: r)) =
            ('<' :: (bd ++ ['>'])) ++ brStep r := by
          rw [show ('<' :: (bd ++ '>' :: r) : List Char) =
            ('<' :: (bd ++ ['>'])) ++ r by simp, brStep_append]
          congr 1
          apply brStep_id
          intro y hy
          rcases List.mem_cons.mp hy with rfl | hy2
          · decide
          rcases List.mem_append.mp hy2 with hy3 | hy4
          · exact (allowedBody_chars hab y hy3).2.2.2.2.1
          · have hy5 : y = '>' := by simpa using hy4
            subst hy5; decide
        rw [htag, show ('<' :: (bd ++ ['>'])) ++ brStep r =
          '<' :: (bd ++ '>' :: brStep r) by simp, wt_tag _ _ hgt, hab,
          Bool.true_and]
        exact ih r hrlen hr
      · by_cases hc2 : c = '>'
        · subst hc2; rw [wt_gt] at hwt; exact absurd hwt (by decide)
        · show wt ((if c == '\n' then "<br>".data else [c]) ++ brStep cs) = true
          rw [wt_cons_chr _ hc hc2] at hwt
          have hbr := ih cs hlen hwt
          by_cases hnl : c = '\n'
          · rw [if_pos (by simp [hnl])]
            exact wt_append (by decide) hbr
          · rw [if_neg (by simp [hnl])]
            show wt (c :: brStep cs) = true
            rw [wt_cons_chr _ hc hc2]
            exact hbr

theorem wt_ltrim {s : List Char} (h : wt s = true) : wt (ltrimJS s) = true := by
  rw [ltrim_eq_dropWhile]
  have h2 : wt (s.takeWhile isWs ++ s.dropWhile isWs) = true := by
    rw [List.takeWhile_append_dropWhile]; exact h
  rw [wt_append_free _ _
    (fun x hx => isWs_good (List.mem_takeWhile_imp hx))] at h2
  exact h2

theorem rtrim_split : ∀ (l : List Char),
    ∃ w, l = rtrimJS l ++ w ∧ ∀ x ∈ w, isWs x = true
  | [] => ⟨[], rfl, by simp⟩
  | c :: cs => by
    obtain ⟨w, hw, hwf⟩ := rtrim_split cs
    by_cases hre : (rtrimJS cs).isEmpty = true
    · have hrnil : rtrimJS cs = [] := by
        cases hrr : rtrimJS cs with
        | nil => rfl
        | cons a b => rw [hrr] at hre; exact absurd hre (by simp)
      have hcsw : cs = w := by rw [hw, hrnil, List.nil_append]
      by_cases hwc : isWs c = true
      · have hrt : rtrimJS (c :: cs) = [] := by
          show (if (rtrimJS cs).isEmpty = true then
            (if isWs c then [] else [c]) else c :: rtrimJS cs) = []
          rw [if_pos hre, if_pos hwc]
        refine ⟨c :: cs, by rw [hrt, List.nil_append], ?_⟩
        intro x hx
        rcases List.mem_cons.mp hx with rfl | hx2
        · exact hwc
        · exact hwf x (hcsw ▸ hx2)
      · have hrt : rtrimJS (c :: cs) = [c] := by
          show (if (rtrimJS cs).isEmpty = true then
            (if isWs c then [] else [c]) else c :: rtrimJS cs) = [c]
          rw [if_pos hre, if_neg hwc]
        refine ⟨cs, by rw [hrt]; rfl, ?_⟩
        intro x hx
        exact hwf x (hcsw ▸ hx)
    · have hrt : rtrimJS (c :: cs) = c :: rtrimJS cs := by
        show (if (rtrimJS cs).isEmpty = true then
          (if isWs c then [] else [c]) else c :: rtrimJS cs) = c :: rtrimJS cs
        rw [if_neg hre]
      refine ⟨w, ?_, hwf⟩
      rw [hrt, List.cons_append, ← hw]

theorem wt_rtrim {s : List Char} (h : wt s = true) : wt (rtrimJS s) = true := by
  obtain ⟨w, hw, hwf⟩ := rtrim_split s
  rw [hw] at h
  exact wt_drop_right (fun x hx => isWs_good (hwf x hx)) h

theorem wt_trim {s : List Char} (h : wt s = true) : wt (trimJS s) = true :=
  wt_rtrim (wt_ltrim h)

/-! ## The full pipeline produces well-tagged output -/

theorem wt_mdPipe (l : List Char) : wt (mdPipe l) = true := by
  have h0 : ∀ c ∈ escapeHtml l, ¬ c = '<' ∧ ¬ c = '>' := by
    intro c hc
    exact ⟨fun hh => (escape_no_angle l).1 (hh ▸ hc),
      fun hh => (escape_no_angle l).2 (hh ▸ hc)⟩
  unfold mdPipe
  simp only []
  apply wt_trim
  refine wt_brStep _ _ le_rfl ?_
  rw [runStep_raGoW]
  refine wt_pres_cleanup _ _ _ le_rfl ?_
  rw [runStep_raGoW]
  refine wt_pres_para _ _ _ le_rfl ?_
  rw [runStep_raGoW]
  refine wt_pres_h1 _ _ _ le_rfl ?_
  rw [runStep_raGoW]
  refine wt_pres_h2 _ _ _ le_rfl ?_
  rw [runStep_raGoW]
  refine wt_pres_h3 _ _ _ le_rfl ?_
  rw [runStep_raGoW]
  refine wt_pres_olclose _ _ _ le_rfl ?_
  rw [runStep_raGoW]
  refine wt_pres_olopen _ _ _ le_rfl ?_
  rw [runStep_raGoW]
  refine wt_pres_oljoin _ _ _ le_rfl ?_
  rw [runStep_raGoW]
  refine wt_pres_ol _ _ _ le_rfl ?_
  rw [runStep_raGoW]
  refine wt_pres_ulclose _ _ _ le_rfl ?_
  rw [runStep_raGoW]
  refine wt_pres_ulopen _ _ _ le_rfl ?_
  rw [runStep_raGoW]
  refine wt_pres_joinul _ _ _ le_rfl ?_
  rw [runStep_raGoW]
  refine wt_pres_ul _ _ _ le_rfl ?_
  rw [runStep_raGoW]
  refine wt_pres_italic _ _ _ le_rfl ?_
  rw [runStep_raGoW]
  refine wt_pres_bold _ _ _ le_rfl ?_
  rw [runStep_raGoW]
  refine wt_pres_inline _ _ _ le_rfl ?_
  rw [runStep_raGoW]
  exact wt_fence _ _ _ le_rfl h0

theorem string_mk_data (l : List Char) : ({ data := l } : String).data = l := rfl

/-- C1: for every input string, the renderer's output never contains
unescaped user-supplied markup.  The whole raw input is HTML-escaped first
(`escapeHtml` output contains no `<` and no `>` at all), and the final
output of `advancedMarkdownToHtml` is well-tagged: every `<` opens, and
every `>` closes, one of the tags the renderer itself emits (`pre`, `code`,
`code class="language-…"`, `strong`, `em`, `li`, `ul`, `ol`, `h1`-`h3`,
`p`, `br` and their closing forms), so no angle bracket of the output comes
literally from the input. -/
theorem renderer_output_well_tagged (text : String) :
    (∀ c ∈ escapeHtml text.data, ¬ c = '<' ∧ ¬ c = '>') ∧
    wt (advancedMarkdownToHtml text).data = true := by
  constructor
  · intro c hc
    exact ⟨fun hh => (escape_no_angle text.data).1 (hh ▸ hc),
      fun hh => (escape_no_angle text.data).2 (hh ▸ hc)⟩
  · unfold advancedMarkdownToHtml
    by_cases h0 : text = ""
    · rw [if_pos h0]; rfl
    · rw [if_neg h0, string_mk_data]
      exact wt_mdPipe text.data

end StudyBuddy
